import Mathlib

/-! # Fuel-gauge SRAM access engine (`drivers/power/supply/qcom/fg-memif.c`)

A shallow embedding of the interleaved (IMA) and direct (DMA) memory access
protocol engine of the QPNP fuel gauge driver, and theorems about it.

Conventions of the embedding:

* The register bus (`fg_read`, `fg_write`, `fg_masked_write`) is an external
  collaborator.  It is modelled as a function `Bus` from the history of bus
  operations issued so far and the operation being issued to a `Reply`
  (return code and payload).  Every bus operation appends an `Event` (the
  operation and its reply) to the `Trace`, so everything the driver does on
  the bus can be read off the trace.
* Register names and bit masks come from `fg-reg.h`, which is not part of
  this source tree.  Register names are kept symbolic (`Reg`); bit masks, DMA
  window bases and the work-around flag are fields of the parameter
  structure `fg_reg`.
* `int` is `Int`; `u8`/`u16` are `Nat` with explicit reduction modulo
  `2^8`/`2^16` wherever the C code stores into such a variable.
* A function that has a `rc` and an out-parameter returns `Except Int α`
  (`error rc` or `ok value`) when it issues no bus operation.
* Loops are recursive functions.  Every loop iteration (and every backward
  `goto`) consumes one unit of `fuel`; running out of fuel is `none`.  Delays
  (`usleep_range`, `udelay`, `msleep`) and logging have no effect on the
  model and are left out.
-/

namespace FgMemif

/-! ## Error numbers (`errno-base.h`, `errno.h`) -/

def ENXIO : Int := 6
def EAGAIN : Int := 11
def EBUSY : Int := 16
def EINVAL : Int := 22
def ETIMEDOUT : Int := 110
def EIO : Int := 5

/-! ## Generic definitions -/

def RETRY_COUNT : Nat := 3

/-- Access direction (`enum { FG_READ = 0, FG_WRITE }`), as the `bool access`
argument the functions take. -/
def FG_READ : Bool := false

def FG_WRITE : Bool := true

def MEM_GNT_RETRIES : Int := 50

/-- Store of an `int` into a `u16` variable. -/
def u16 (x : Int) : Nat := (x % 65536).toNat

/-- Store of an `int` into a `u8` variable. -/
def u8 (x : Int) : Nat := (x % 256).toNat

/-- The macro `BIT(i)`. -/
def BIT (i : Nat) : Nat := 2 ^ i

/-! ## Device description -/

inductive fg_version where
  | GEN3_FG
  | GEN4_FG
  | UNKNOWN
  deriving DecidableEq, Repr

/-- One entry of the SRAM-partition to DMA-address map. -/
structure fg_dma_address where
  partition_start : Nat
  partition_end : Nat
  spmi_addr_base : Nat
  deriving DecidableEq, Repr

/-- The field `sram` of the device: `num_partitions` is the length of
`addr_map`. -/
structure fg_memif where
  addr_map : List fg_dma_address
  address_max : Nat
  num_bytes_per_word : Nat
  deriving DecidableEq, Repr

structure fg_dev where
  version : fg_version
  use_ima_single_mode : Bool
  wa_flags : Nat
  battery_missing : Bool
  use_dma : Bool
  sram : fg_memif
  deriving DecidableEq, Repr

/-- Bit masks and DMA window bases declared in `fg-reg.h` / `fg-core.h`
(taken as parameters). -/
structure fg_reg where
  MEM_ACCESS_REQ_BIT : Nat
  IACS_SLCT_BIT : Nat
  IMA_WR_EN_BIT : Nat
  MEM_ACS_BURST_BIT : Nat
  IMA_CTL_MASK : Nat
  IACS_CLR_BIT : Nat
  STATIC_CLK_EN_BIT : Nat
  IACS_INTR_SRC_SLCT_BIT : Nat
  IACS_RDY_BIT : Nat
  IACS_ERR_BIT : Nat
  XCT_TYPE_ERR_BIT : Nat
  DATA_RD_ERR_BIT : Nat
  DATA_WR_ERR_BIT : Nat
  ADDR_BURST_WRAP_BIT : Nat
  ADDR_STABLE_ERR_BIT : Nat
  BEAT_COUNT_MASK : Nat
  MEM_GNT_BIT : Nat
  GEN4_MEM_GNT_BIT : Nat
  MEM_ARB_REQ_BIT : Nat
  MEM_IF_ARB_REQ_BIT : Nat
  MEM_ARB_LO_LATENCY_EN_BIT : Nat
  MEM_CLR_LOG_BIT : Nat
  ALG_ACTIVE_BIT : Nat
  ALG_ACTIVE_PEEK_CFG : Nat
  PM8150B_V1_DMA_WA : Nat
  DMA_WRITE_ERROR_BIT : Nat
  DMA_READ_ERROR_BIT : Nat
  DMA_CLEAR_LOG_BIT : Nat
  ADDR_KIND_BIT : Nat
  SRAM_ADDR_OFFSET : Nat
  FG_DMA0_BASE : Nat
  FG_DMA1_BASE : Nat
  FG_DMA2_BASE : Nat
  GEN4_FG_DMA0_BASE : Nat
  GEN4_FG_DMA1_BASE : Nat
  GEN4_FG_DMA2_BASE : Nat
  GEN4_FG_DMA3_BASE : Nat
  GEN4_FG_DMA4_BASE : Nat
  GEN4_FG_DMA5_BASE : Nat
  deriving DecidableEq, Repr

/-! ## The register bus -/

/-- Symbolic register names (the macros `MEM_IF_*(fg)`, `BATT_INFO_*(fg)`). -/
inductive Reg where
  | MEM_IF_INT_RT_STS
  | MEM_IF_MEM_ARB_CFG
  | MEM_IF_MEM_INTF_CFG
  | MEM_IF_IMA_CTL
  | MEM_IF_IMA_CFG
  | MEM_IF_IMA_OPR_STS
  | MEM_IF_IMA_EXP_STS
  | MEM_IF_IMA_HW_STS
  | MEM_IF_FG_BEAT_COUNT
  | MEM_IF_IMA_ERR_STS
  | MEM_IF_IMA_BYTE_EN
  | MEM_IF_ADDR_LSB
  | MEM_IF_ADDR_MSB
  | MEM_IF_WR_DATA0
  | MEM_IF_WR_DATA1
  | MEM_IF_WR_DATA3
  | MEM_IF_RD_DATA0
  | MEM_IF_RD_DATA1
  | MEM_IF_RD_DATA3
  | MEM_IF_DMA_STS
  | MEM_IF_DMA_CTL
  | BATT_INFO_PEEK_RD
  | BATT_INFO_PEEK_MUX4
  deriving DecidableEq, Repr

/-- A bus address: a named register plus a byte displacement, or a raw
16-bit address inside a DMA window. -/
inductive Addr where
  | reg (r : Reg) (off : Int)
  | dma (a : Nat)
  deriving DecidableEq, Repr

/-- A bus operation as issued by the driver: `fg_read(addr, _, len)`,
`fg_write(addr, data, len)`, `fg_masked_write(addr, mask, val)`. -/
inductive Op where
  | read (a : Addr) (len : Int)
  | write (a : Addr) (data : List Nat) (len : Int)
  | masked_write (a : Addr) (mask : Nat) (val : Nat)
  deriving DecidableEq, Repr

/-- What the bus answers: the return code (negative on failure) and, for a
read, the bytes delivered. -/
structure Reply where
  rc : Int
  data : List Nat
  deriving DecidableEq, Repr

/-- The byte a one-byte read stores into its `u8` destination. -/
def Reply.val (r : Reply) : Nat := r.data.headD 0 % 256

structure Event where
  op : Op
  reply : Reply
  deriving DecidableEq, Repr

abbrev Trace := List Event

/-- The bus collaborator: history of the operations so far and the operation
issued now give the reply. -/
abbrev Bus := Trace → Op → Reply

def fg_read (bus : Bus) (t : Trace) (a : Addr) (len : Int) : Reply × Trace :=
  (bus t (Op.read a len), t ++ [⟨Op.read a len, bus t (Op.read a len)⟩])

def fg_write (bus : Bus) (t : Trace) (a : Addr) (data : List Nat) (len : Int) :
    Int × Trace :=
  ((bus t (Op.write a data len)).rc,
    t ++ [⟨Op.write a data len, bus t (Op.write a data len)⟩])

def fg_masked_write (bus : Bus) (t : Trace) (a : Addr) (mask val : Nat) :
    Int × Trace :=
  ((bus t (Op.masked_write a mask val)).rc,
    t ++ [⟨Op.masked_write a mask val, bus t (Op.masked_write a mask val)⟩])

/-! ## Partition tables -/

def fg_gen3_addr_map (k : fg_reg) : List fg_dma_address :=
  [ ⟨0, 23, k.FG_DMA0_BASE + k.SRAM_ADDR_OFFSET⟩,
    ⟨24, 79, k.FG_DMA1_BASE + k.SRAM_ADDR_OFFSET⟩,
    ⟨80, 125, k.FG_DMA2_BASE + k.SRAM_ADDR_OFFSET⟩ ]

def fg_gen4_addr_map (k : fg_reg) : List fg_dma_address :=
  [ ⟨0, 63, k.GEN4_FG_DMA0_BASE + k.SRAM_ADDR_OFFSET⟩,
    ⟨64, 169, k.GEN4_FG_DMA1_BASE + k.SRAM_ADDR_OFFSET⟩,
    ⟨170, 274, k.GEN4_FG_DMA2_BASE + k.SRAM_ADDR_OFFSET⟩,
    ⟨275, 299, k.GEN4_FG_DMA3_BASE + k.SRAM_ADDR_OFFSET⟩,
    ⟨300, 405, k.GEN4_FG_DMA4_BASE + k.SRAM_ADDR_OFFSET⟩,
    ⟨406, 486, k.GEN4_FG_DMA5_BASE + k.SRAM_ADDR_OFFSET⟩ ]

/-! ## Address translator -/

/-- The test `sram_addr >= partition_start && sram_addr <= partition_end`. -/
def in_partition (p : fg_dma_address) (sram_addr : Nat) : Bool :=
  decide (p.partition_start ≤ sram_addr) && decide (sram_addr ≤ p.partition_end)

/-- The `for` loop of `fg_get_dma_address` over the remaining entries. -/
def fg_get_dma_address_scan (bpw sram_addr offset : Nat) :
    List fg_dma_address → Except Int Nat
  | [] => Except.error (- ENXIO)
  | p :: ps =>
    if in_partition p sram_addr then
      Except.ok (u16 ((p.spmi_addr_base : Int) + offset +
        ((sram_addr : Int) - p.partition_start) * bpw))
    else fg_get_dma_address_scan bpw sram_addr offset ps

def fg_get_dma_address (fg : fg_dev) (sram_addr offset : Nat) : Except Int Nat :=
  fg_get_dma_address_scan fg.sram.num_bytes_per_word sram_addr offset fg.sram.addr_map

/-- The `for` loop of `fg_get_partition_count`: entry `i` of the table is the
head of the list; returns `(start_partn, end_partn)`. -/
def fg_get_partition_count_scan (sram_addr end_addr : Nat) :
    List fg_dma_address → Nat → Int × Int → Int × Int
  | [], _, acc => acc
  | p :: ps, i, (start_partn, end_partn) =>
    fg_get_partition_count_scan sram_addr end_addr ps (i + 1)
      (if in_partition p sram_addr then (i : Int) + 1 else start_partn,
       if in_partition p end_addr then (i : Int) + 1 else end_partn)

/-- The `u16 end_addr` computed at the top of `fg_get_partition_count`. -/
def partition_end_addr (bpw : Nat) (sram_addr : Nat) (len : Int) : Nat :=
  let end_addr := u16 ((sram_addr : Int) + Int.tdiv len bpw)
  if Int.tmod len bpw = 0 then u16 ((end_addr : Int) - 1) else end_addr

def fg_get_partition_count (fg : fg_dev) (sram_addr : Nat) (len : Int) : Except Int Int :=
  let end_addr := partition_end_addr fg.sram.num_bytes_per_word sram_addr len
  if sram_addr = end_addr then Except.ok 1
  else
    let se := fg_get_partition_count_scan sram_addr end_addr fg.sram.addr_map 0 (0, 0)
    if se.1 = 0 ∨ se.2 = 0 then Except.error (- ENXIO)
    else Except.ok ((se.2 - se.1) + 1)

/-- The `for` loop of `fg_get_partition_avail_bytes`: `(part_len, end_addr)`
of the first partition holding `sram_addr`, `part_len = 0` if there is none. -/
def fg_get_partition_avail_bytes_scan (bpw sram_addr : Nat) :
    List fg_dma_address → Int × Nat
  | [] => (0, 0)
  | p :: ps =>
    if in_partition p sram_addr then
      (((p.partition_end : Int) - p.partition_start + 1) * bpw, p.partition_end)
    else fg_get_partition_avail_bytes_scan bpw sram_addr ps

def fg_get_partition_avail_bytes (fg : fg_dev) (sram_addr : Nat) (_len : Int) :
    Except Int Int :=
  let pe := fg_get_partition_avail_bytes_scan fg.sram.num_bytes_per_word sram_addr
    fg.sram.addr_map
  if pe.1 ≤ 0 then Except.error (- ENXIO)
  else
    let temp : Int := ((pe.2 : Int) - sram_addr + 1) * fg.sram.num_bytes_per_word
    if temp > pe.1 ∨ temp = 0 then Except.error (- ENXIO)
    else Except.ok temp

/-! ## IMA transaction engine -/

def fg_set_address (fg : fg_dev) (bus : Bus) (t : Trace) (address : Nat) : Int × Trace :=
  let buffer0 := address % 256
  -- MSB has to be written zero for GEN3 FG
  let buffer1 := if fg.version = fg_version.GEN3_FG then 0 else u8 (address / 256)
  fg_write bus t (Addr.reg Reg.MEM_IF_ADDR_LSB 0) [buffer0, buffer1] 2

def fg_config_access_mode (k : fg_reg) (bus : Bus) (t : Trace) (access burst : Bool) :
    Int × Trace :=
  let intf_ctl := (if access = FG_WRITE then k.IMA_WR_EN_BIT else 0) |||
    (if burst then k.MEM_ACS_BURST_BIT else 0)
  let w := fg_masked_write bus t (Addr.reg Reg.MEM_IF_IMA_CTL 0) k.IMA_CTL_MASK intf_ctl
  if w.1 < 0 then (- EIO, w.2) else w

/-- The `while (1)` loop of `fg_run_iacs_clear_sequence`.  `error rc` is a
`return rc` from inside the loop, `ok tries` is the `break` with the value
of `tries` at that point.  The two branches on the version differ only in
the byte written to `ADDR_MSB` and in the data register used. -/
def fg_run_iacs_clear_sequence_loop (fg : fg_dev) (bus : Bus) :
    Nat → Int → Trace → Option (Except Int Int × Trace)
  | 0, _, _ => none
  | fuel + 1, tries, t =>
    let gen4 : Bool := decide (fg.version = fg_version.GEN4_FG)
    let w1 := fg_write bus t (Addr.reg Reg.MEM_IF_ADDR_MSB 0) [if gen4 then 4 else 0] 1
    if w1.1 < 0 then some (Except.error w1.1, w1.2) else
    let w2 := fg_write bus w1.2
      (Addr.reg (if gen4 then Reg.MEM_IF_WR_DATA1 else Reg.MEM_IF_WR_DATA3) 0) [0] 1
    if w2.1 < 0 then some (Except.error w2.1, w2.2) else
    let r3 := fg_read bus w2.2
      (Addr.reg (if gen4 then Reg.MEM_IF_RD_DATA1 else Reg.MEM_IF_RD_DATA3) 0) 1
    if r3.1.rc < 0 then some (Except.error r3.1.rc, r3.2) else
    let r4 := fg_read bus r3.2 (Addr.reg Reg.MEM_IF_IMA_HW_STS 0) 1
    if r4.1.rc < 0 then some (Except.error r4.1.rc, r4.2) else
    if r4.1.val ≠ 0 then fg_run_iacs_clear_sequence_loop fg bus fuel tries r4.2 else
    let r5 := fg_read bus r4.2 (Addr.reg Reg.MEM_IF_IMA_EXP_STS 0) 1
    if r5.1.rc < 0 then some (Except.error r5.1.rc, r5.2) else
    if r5.1.val = 0 then some (Except.ok tries, r5.2)
    else if tries - 1 = 0 then some (Except.ok (tries - 1), r5.2)
    else fg_run_iacs_clear_sequence_loop fg bus fuel (tries - 1) r5.2

def fg_run_iacs_clear_sequence (k : fg_reg) (fg : fg_dev) (fuel : Nat) (bus : Bus)
    (t : Trace) : Option (Int × Trace) :=
  let m1 := fg_masked_write bus t (Addr.reg Reg.MEM_IF_IMA_CFG 0)
    (k.IACS_CLR_BIT ||| k.STATIC_CLK_EN_BIT) (k.IACS_CLR_BIT ||| k.STATIC_CLK_EN_BIT)
  if m1.1 < 0 then some m1 else
  let c := fg_config_access_mode k bus m1.2 FG_READ false
  if c.1 < 0 then some c else
  let m2 := fg_masked_write bus c.2 (Addr.reg Reg.MEM_IF_MEM_INTF_CFG 0)
    (k.MEM_ACCESS_REQ_BIT ||| k.IACS_SLCT_BIT) (k.MEM_ACCESS_REQ_BIT ||| k.IACS_SLCT_BIT)
  if m2.1 < 0 then some m2 else
  match fg_run_iacs_clear_sequence_loop fg bus fuel 250 m2.2 with
  | none => none
  | some (Except.error rc, t1) => some (rc, t1)
  | some (Except.ok _, t1) =>
    let m3 := fg_masked_write bus t1 (Addr.reg Reg.MEM_IF_IMA_CFG 0) k.IACS_CLR_BIT 0
    if m3.1 < 0 then some m3 else
    some (fg_masked_write bus m3.2 (Addr.reg Reg.MEM_IF_MEM_INTF_CFG 0)
      (k.MEM_ACCESS_REQ_BIT ||| k.IACS_SLCT_BIT) 0)

def fg_clear_dma_errors_if_any (k : fg_reg) (bus : Bus) (t : Trace) : Int × Trace :=
  let r := fg_read bus t (Addr.reg Reg.MEM_IF_DMA_STS 0) 1
  if r.1.rc < 0 then (r.1.rc, r.2) else
  let error_present : Bool :=
    decide (r.1.val &&& (k.DMA_WRITE_ERROR_BIT ||| k.DMA_READ_ERROR_BIT) ≠ 0)
  let w := fg_masked_write bus r.2 (Addr.reg Reg.MEM_IF_DMA_CTL 0) k.DMA_CLEAR_LOG_BIT
    (if error_present then k.DMA_CLEAR_LOG_BIT else 0)
  if w.1 < 0 then w else (0, w.2)

/-- The mask of exception bits tested by `fg_clear_ima_errors_if_any`. -/
def ima_exp_err_mask (k : fg_reg) : Nat :=
  k.IACS_ERR_BIT ||| k.XCT_TYPE_ERR_BIT ||| k.DATA_RD_ERR_BIT |||
    k.DATA_WR_ERR_BIT ||| k.ADDR_BURST_WRAP_BIT ||| k.ADDR_STABLE_ERR_BIT

def fg_clear_ima_errors_if_any (k : fg_reg) (fg : fg_dev) (fuel : Nat) (bus : Bus)
    (t : Trace) (check_hw_sts : Bool) : Option (Int × Trace) :=
  let r1 := fg_read bus t (Addr.reg Reg.MEM_IF_IMA_EXP_STS 0) 1
  if r1.1.rc < 0 then some (r1.1.rc, r1.2) else
  let r2 := fg_read bus r1.2 (Addr.reg Reg.MEM_IF_IMA_HW_STS 0) 1
  if r2.1.rc < 0 then some (r2.1.rc, r2.2) else
  let r3 := fg_read bus r2.2 (Addr.reg Reg.MEM_IF_IMA_ERR_STS 0) 1
  if r3.1.rc < 0 then some (r3.1.rc, r3.2) else
  let exp_sts := r1.1.val
  let hw_sts := r2.1.val
  let run_err_clr_seq : Bool :=
    (check_hw_sts && decide (hw_sts &&& 0x0F ≠ hw_sts >>> 4)) ||
      decide (exp_sts &&& ima_exp_err_mask k ≠ 0)
  if run_err_clr_seq then
    match fg_run_iacs_clear_sequence k fg fuel bus r3.2 with
    | none => none
    | some (rc, t1) => if rc < 0 then some (rc, t1) else some (-EAGAIN, t1)
  else some (r3.1.rc, r3.2)

/-- The `while (1)` loop of `fg_check_iacs_ready`: `error rc` is the
`return rc`, `ok tries` the value of `tries` after a `break`. -/
def fg_check_iacs_ready_loop (k : fg_reg) (bus : Bus) :
    Nat → Int → Trace → Option (Except Int Int × Trace)
  | 0, _, _ => none
  | fuel + 1, tries, t =>
    let r := fg_read bus t (Addr.reg Reg.MEM_IF_IMA_OPR_STS 0) 1
    if r.1.rc < 0 then some (Except.error r.1.rc, r.2) else
    if r.1.val &&& k.IACS_RDY_BIT ≠ 0 then some (Except.ok tries, r.2) else
    if tries - 1 = 0 then some (Except.ok (tries - 1), r.2) else
    fg_check_iacs_ready_loop k bus fuel (tries - 1) r.2

def fg_check_iacs_ready (k : fg_reg) (fg : fg_dev) (fuel : Nat) (bus : Bus) (t : Trace) :
    Option (Int × Trace) :=
  match fg_check_iacs_ready_loop k bus fuel 250 t with
  | none => none
  | some (Except.error rc, t1) => some (rc, t1)
  | some (Except.ok tries, t1) =>
    if tries = 0 then
      -- check for error condition
      match fg_clear_ima_errors_if_any k fg fuel bus t1 false with
      | none => none
      | some (rc, t2) => if rc < 0 then some (rc, t2) else some (-EBUSY, t2)
    else some (0, t1)

/-- The `u8 num_bytes` of one word transfer. -/
def ima_num_bytes (fg : fg_dev) (offset len : Int) : Nat :=
  u8 (if offset + len > fg.sram.num_bytes_per_word
    then (fg.sram.num_bytes_per_word : Int) - offset else len)

/-- The `for (i = offset; i < offset + num_bytes; i++) byte_enable |= BIT(i)`
loop, started with `byte_enable = 0`. -/
def ima_byte_enable (offset : Int) (num_bytes : Nat) : Nat :=
  (List.range num_bytes).foldl (fun be j => u8 ((be ||| BIT (offset.toNat + j) : Nat) : Int)) 0

/-- The `while (len > 0)` loop of `__fg_interleaved_mem_write`; `ptr` is the
rest of the caller's buffer. -/
def fg_interleaved_mem_write_loop (k : fg_reg) (fg : fg_dev) (bus : Bus) :
    Nat → Nat → Int → List Nat → Int → Int → Trace → Option (Int × Trace)
  | 0, _, _, _, _, _, _ => none
  | fuel + 1, address, offset, ptr, len, rc, t =>
    if len > 0 then
      let num_bytes := ima_num_bytes fg offset len
      let byte_enable := ima_byte_enable offset num_bytes
      -- write to byte_enable
      let w1 := fg_write bus t (Addr.reg Reg.MEM_IF_IMA_BYTE_EN 0) [byte_enable] 1
      if w1.1 < 0 then some w1 else
      -- write data
      let w2 := fg_write bus w1.2 (Addr.reg Reg.MEM_IF_WR_DATA0 offset)
        (ptr.take num_bytes) num_bytes
      if w2.1 < 0 then some w2 else
      -- dummy write to the last data register if it holds no valid data
      let w3 :=
        if fg.version = fg_version.GEN3_FG ∧ byte_enable &&& BIT 3 = 0 then
          fg_write bus w2.2 (Addr.reg Reg.MEM_IF_WR_DATA3 0) [0] 1
        else if fg.version = fg_version.GEN4_FG ∧ byte_enable &&& BIT 1 = 0 then
          fg_write bus w2.2 (Addr.reg Reg.MEM_IF_WR_DATA1 0) [0] 1
        else w2
      if w3.1 < 0 then some w3 else
      -- check for error condition
      match fg_clear_ima_errors_if_any k fg fuel bus w3.2 false with
      | none => none
      | some (rc1, t1) =>
        if rc1 < 0 then some (rc1, t1) else
        let len1 := len - num_bytes
        let a :=
          if fg.use_ima_single_mode = true ∧ len1 ≠ 0 then
            (u16 ((address : Int) + 1), fg_set_address fg bus t1 (u16 ((address : Int) + 1)))
          else (address, (rc1, t1))
        if a.2.1 < 0 then some a.2 else
        match fg_check_iacs_ready k fg fuel bus a.2.2 with
        | none => none
        | some (rc2, t2) =>
          if rc2 < 0 then some (rc2, t2) else
          fg_interleaved_mem_write_loop k fg bus fuel a.1 0 (ptr.drop num_bytes) len1 rc2 t2
    else some (rc, t)

def __fg_interleaved_mem_write (k : fg_reg) (fg : fg_dev) (fuel : Nat) (bus : Bus)
    (t : Trace) (address : Nat) (offset : Int) (val : List Nat) (len : Int) :
    Option (Int × Trace) :=
  fg_interleaved_mem_write_loop k fg bus fuel address offset val len 0 t

/-- The `while (len > 0)` loop of `__fg_interleaved_mem_read`.  The bytes
delivered to the caller's buffer are the payloads of the logged reads of
`RD_DATA0 + offset`. -/
def fg_interleaved_mem_read_loop (k : fg_reg) (fg : fg_dev) (bus : Bus) :
    Nat → Nat → Int → Int → Int → Trace → Option (Int × Trace)
  | 0, _, _, _, _, _ => none
  | fuel + 1, address, offset, len, rc, t =>
    if len > 0 then
      let num_bytes := ima_num_bytes fg offset len
      let r := fg_read bus t (Addr.reg Reg.MEM_IF_RD_DATA0 offset) num_bytes
      if r.1.rc < 0 then some (r.1.rc, r.2) else
      let len1 := len - num_bytes
      -- check for error condition
      match fg_clear_ima_errors_if_any k fg fuel bus r.2 false with
      | none => none
      | some (rc1, t1) =>
        if rc1 < 0 then some (rc1, t1) else
        let a :=
          if fg.use_ima_single_mode = true then
            if len1 ≠ 0 then
              (u16 ((address : Int) + 1), fg_set_address fg bus t1 (u16 ((address : Int) + 1)))
            else (address, (rc1, t1))
          else
            if len1 ≠ 0 ∧ len1 < fg.sram.num_bytes_per_word then
              -- move to single mode; a failure is reported as -EIO
              let c := fg_config_access_mode k bus t1 FG_READ false
              (address, (if c.1 < 0 then - EIO else c.1, c.2))
            else (address, (rc1, t1))
        if a.2.1 < 0 then some a.2 else
        match fg_check_iacs_ready k fg fuel bus a.2.2 with
        | none => none
        | some (rc2, t2) =>
          if rc2 < 0 then some (rc2, t2) else
          fg_interleaved_mem_read_loop k fg bus fuel a.1 0 len1 rc2 t2
    else some (rc, t)

def __fg_interleaved_mem_read (k : fg_reg) (fg : fg_dev) (fuel : Nat) (bus : Bus)
    (t : Trace) (address : Nat) (offset : Int) (len : Int) : Option (Int × Trace) :=
  fg_interleaved_mem_read_loop k fg bus fuel address offset len 0 t

/-- The `while (1)` loop of `is_mem_access_available`, which inlines
`fg_get_mem_access_status`.  On a failed read the C function executes
`return rc` in a function returning `bool`: the negative `rc` converts to
`true`. -/
def is_mem_access_available_loop (k : fg_reg) (bus : Bus) :
    Nat → Int → Trace → Option (Bool × Trace)
  | 0, _, _ => none
  | fuel + 1, time_count, t =>
    let r := fg_read bus t (Addr.reg Reg.MEM_IF_MEM_INTF_CFG 0) 1
    if r.1.rc < 0 then some (decide (r.1.rc ≠ 0), r.2) else
    -- this is an inverting logic
    if r.1.val &&& k.MEM_ACCESS_REQ_BIT = 0 then some (true, r.2) else
    if time_count > 4 then some (false, r.2) else
    is_mem_access_available_loop k bus fuel (time_count + 1) r.2

def is_mem_access_available (k : fg_reg) (fuel : Nat) (bus : Bus) (t : Trace) :
    Option (Bool × Trace) :=
  is_mem_access_available_loop k bus fuel 0 t

def fg_interleaved_mem_config (k : fg_reg) (fg : fg_dev) (fuel : Nat) (bus : Bus)
    (t : Trace) (address : Nat) (offset len : Int) (access : Bool) : Option (Int × Trace) :=
  match is_mem_access_available k fuel bus t with
  | none => none
  | some (avail, t0) =>
    if avail = false then some (-EBUSY, t0) else
    -- configure for IMA access
    let m := fg_masked_write bus t0 (Addr.reg Reg.MEM_IF_MEM_INTF_CFG 0)
      (k.MEM_ACCESS_REQ_BIT ||| k.IACS_SLCT_BIT) (k.MEM_ACCESS_REQ_BIT ||| k.IACS_SLCT_BIT)
    if m.1 < 0 then some m else
    -- configure for the read/write, single/burst mode
    let burst_mode : Bool :=
      if fg.use_ima_single_mode then false
      else decide (offset + len > fg.sram.num_bytes_per_word)
    let c := fg_config_access_mode k bus m.2 access burst_mode
    if c.1 < 0 then some c else
    match fg_check_iacs_ready k fg fuel bus c.2 with
    | none => none
    | some (rc1, t1) =>
      if rc1 < 0 then some (rc1, t1) else
      let a := fg_set_address fg bus t1 address
      if a.1 < 0 then some a else
      if access = FG_READ then
        match fg_check_iacs_ready k fg fuel bus a.2 with
        | none => none
        | some (rc2, t2) => some (rc2, t2)
      else some a

/-- Returns `(rc, *count, trace)`. -/
def fg_get_beat_count (k : fg_reg) (bus : Bus) (t : Trace) : Int × Nat × Trace :=
  let r := fg_read bus t (Addr.reg Reg.MEM_IF_FG_BEAT_COUNT 0) 1
  (r.1.rc, r.1.val &&& k.BEAT_COUNT_MASK, r.2)

/-- The offset check at the top of `fg_interleaved_mem_read` and
`fg_interleaved_mem_write`. -/
def ima_offset_too_large (fg : fg_dev) (offset : Nat) : Bool :=
  if fg.version = fg_version.GEN4_FG then decide (offset > 1) else decide (offset > 3)

/-- Where control goes at the end of the code between the labels `retry:`
and `out:`: to `out` with the values of `rc`, `retry` and `count`, or
straight back to `retry` (`goto retry`). -/
inductive Next where
  | out (rc : Int) (retry : Bool) (count : Nat)
  | again (rc : Int) (count : Nat)
  deriving DecidableEq, Repr

/-- The release masked write at the label `out:`. -/
def ima_release (k : fg_reg) (bus : Bus) (t : Trace) : Int × Trace :=
  fg_masked_write bus t (Addr.reg Reg.MEM_IF_MEM_INTF_CFG 0)
    (k.MEM_ACCESS_REQ_BIT ||| k.IACS_SLCT_BIT) 0

/-- The code of `fg_interleaved_mem_read` from the label `retry:` to the
label `out:`. -/
def fg_interleaved_mem_read_body (k : fg_reg) (fg : fg_dev) (fuel : Nat) (bus : Bus)
    (address offset : Nat) (len : Int) (count : Nat) (rc : Int) (t : Trace) :
    Option (Next × Trace) :=
  if count ≥ RETRY_COUNT then some (Next.out rc false count, t) else
  match fg_interleaved_mem_config k fg fuel bus t address offset len FG_READ with
  | none => none
  | some (rc1, t1) =>
    if rc1 < 0 then some (Next.out rc1 true (count + 1), t1) else
    -- read the start beat count
    let b := fg_get_beat_count k bus t1
    if b.1 < 0 then some (Next.out b.1 true (count + 1), b.2.2) else
    -- read data
    match __fg_interleaved_mem_read k fg fuel bus b.2.2 address offset len with
    | none => none
    | some (rc2, t2) =>
      if rc2 < 0 then
        if rc2 = -EAGAIN then some (Next.again rc2 (count + 1), t2)
        else some (Next.out rc2 true (count + 1), t2)
      else
        -- read the end beat count
        let e := fg_get_beat_count k bus t2
        if e.1 < 0 then some (Next.out e.1 true (count + 1), e.2.2) else
        if b.2.1 ≠ e.2.1 then some (Next.out e.1 true (count + 1), e.2.2)
        else some (Next.out e.1 false count, e.2.2)

/-- The function `fg_interleaved_mem_read` from the label `retry:` on, with
the current `count` and `rc`. -/
def fg_interleaved_mem_read_retry (k : fg_reg) (fg : fg_dev) (bus : Bus)
    (address offset : Nat) (len : Int) : Nat → Nat → Int → Trace → Option (Int × Trace)
  | 0, _, _, _ => none
  | fuel + 1, count, rc, t =>
    match fg_interleaved_mem_read_body k fg fuel bus address offset len count rc t with
    | none => none
    | some (Next.again rc1 count1, t1) =>
      fg_interleaved_mem_read_retry k fg bus address offset len fuel count1 rc1 t1
    | some (Next.out rc1 retry count1, t1) =>
      -- Release IMA access
      let ret := ima_release k bus t1
      if rc1 < 0 ∧ ret.1 < 0 then some ret
      else if retry then
        fg_interleaved_mem_read_retry k fg bus address offset len fuel count1 rc1 ret.2
      else some (rc1, ret.2)

def fg_interleaved_mem_read (k : fg_reg) (fg : fg_dev) (fuel : Nat) (bus : Bus)
    (t : Trace) (address offset : Nat) (len : Int) : Option (Int × Trace) :=
  if ima_offset_too_large fg offset then some (-EINVAL, t)
  else fg_interleaved_mem_read_retry k fg bus address offset len fuel 0 0 t

/-- The code of `fg_interleaved_mem_write` from the label `retry:` to the
label `out:`. -/
def fg_interleaved_mem_write_body (k : fg_reg) (fg : fg_dev) (fuel : Nat) (bus : Bus)
    (address offset : Nat) (val : List Nat) (len : Int) (_atomic_access : Bool)
    (count : Nat) (rc : Int) (t : Trace) : Option (Next × Trace) :=
  if count ≥ RETRY_COUNT then some (Next.out rc false count, t) else
  match fg_interleaved_mem_config k fg fuel bus t address offset len FG_WRITE with
  | none => none
  | some (rc1, t1) =>
    if rc1 < 0 then some (Next.out rc1 true (count + 1), t1) else
    -- read the start beat count
    let b := fg_get_beat_count k bus t1
    if b.1 < 0 then some (Next.out b.1 true (count + 1), b.2.2) else
    -- write data
    match __fg_interleaved_mem_write k fg fuel bus b.2.2 address offset val len with
    | none => none
    | some (rc2, t2) =>
      if rc2 < 0 then
        if rc2 = -EAGAIN then some (Next.again rc2 (count + 1), t2)
        else some (Next.out rc2 true (count + 1), t2)
      else
        -- read the end beat count; a mismatch is only logged
        let e := fg_get_beat_count k bus t2
        if e.1 < 0 then some (Next.out e.1 true (count + 1), e.2.2)
        else some (Next.out e.1 false count, e.2.2)

def fg_interleaved_mem_write_retry (k : fg_reg) (fg : fg_dev) (bus : Bus)
    (address offset : Nat) (val : List Nat) (len : Int) (atomic_access : Bool) :
    Nat → Nat → Int → Trace → Option (Int × Trace)
  | 0, _, _, _ => none
  | fuel + 1, count, rc, t =>
    match fg_interleaved_mem_write_body k fg fuel bus address offset val len atomic_access
      count rc t with
    | none => none
    | some (Next.again rc1 count1, t1) =>
      fg_interleaved_mem_write_retry k fg bus address offset val len atomic_access fuel
        count1 rc1 t1
    | some (Next.out rc1 retry count1, t1) =>
      -- Release IMA access
      let ret := ima_release k bus t1
      if rc1 < 0 ∧ ret.1 < 0 then some ret
      else if retry then
        fg_interleaved_mem_write_retry k fg bus address offset val len atomic_access fuel
          count1 rc1 ret.2
      else some (rc1, ret.2)

def fg_interleaved_mem_write (k : fg_reg) (fg : fg_dev) (fuel : Nat) (bus : Bus)
    (t : Trace) (address offset : Nat) (val : List Nat) (len : Int)
    (atomic_access : Bool) : Option (Int × Trace) :=
  if ima_offset_too_large fg offset then some (-EINVAL, t)
  else fg_interleaved_mem_write_retry k fg bus address offset val len atomic_access fuel 0 0 t

/-! ## DMA transaction engine -/

/-- The `while (retries--)` loop of `fg_poll_alg_active`: `error rc` is the
`return rc`, `ok (val, rc)` the values of `val` and `rc` when the loop is
left. -/
def fg_poll_alg_active_loop (k : fg_reg) (bus : Bus) :
    Nat → Nat → Nat → Int → Trace → Option (Except Int (Nat × Int) × Trace)
  | 0, _, _, _, _ => none
  | fuel + 1, retries, val, rc, t =>
    if retries ≠ 0 then
      let r := fg_read bus t (Addr.reg Reg.BATT_INFO_PEEK_RD 0) 1
      if r.1.rc < 0 then some (Except.error r.1.rc, r.2) else
      if r.1.val &&& k.ALG_ACTIVE_BIT = 0 then some (Except.ok (r.1.val, r.1.rc), r.2)
      else fg_poll_alg_active_loop k bus fuel (retries - 1) r.1.val r.1.rc r.2
    else some (Except.ok (val, rc), t)

def fg_poll_alg_active (k : fg_reg) (fuel : Nat) (bus : Bus) (t : Trace) :
    Option (Int × Trace) :=
  match fg_poll_alg_active_loop k bus fuel 35 0 0 t with
  | none => none
  | some (Except.error rc, t1) => some (rc, t1)
  | some (Except.ok (val, rc), t1) =>
    if val &&& k.ALG_ACTIVE_BIT ≠ 0 then some (-ETIMEDOUT, t1) else some (rc, t1)

def fg_direct_mem_release (k : fg_reg) (bus : Bus) (t : Trace) : Int × Trace :=
  let m1 := fg_masked_write bus t (Addr.reg Reg.MEM_IF_MEM_INTF_CFG 0)
    (k.MEM_ACCESS_REQ_BIT ||| k.IACS_SLCT_BIT) 0
  if m1.1 < 0 then m1 else
  fg_masked_write bus m1.2 (Addr.reg Reg.MEM_IF_MEM_ARB_CFG 0) k.MEM_ARB_REQ_BIT 0

/-- The code of `fg_direct_mem_request` at the label `release:` entered with
the given `rc`. -/
def fg_direct_mem_request_release (k : fg_reg) (bus : Bus) (rc : Int) (t : Trace) :
    Int × Trace :=
  let ret := fg_direct_mem_release k bus t
  if ret.1 < 0 then ret else (rc, ret.2)

/-- The local `poll_bit` of `fg_direct_mem_request`. -/
def mem_gnt_poll_bit (k : fg_reg) (fg : fg_dev) : Nat :=
  if fg.version = fg_version.GEN4_FG then k.GEN4_MEM_GNT_BIT else k.MEM_GNT_BIT

/-- The `while (i < MEM_GNT_RETRIES)` loop of `fg_direct_mem_request`:
`ok ()` is the `return 0` on grant, `error rc` leaves towards the label
`release:` with that `rc` (the time-out included). -/
def fg_direct_mem_request_loop (bus : Bus) (poll_bit : Nat) :
    Nat → Int → Trace → Option (Except Int Unit × Trace)
  | 0, _, _ => none
  | fuel + 1, i, t =>
    if i < MEM_GNT_RETRIES then
      let r := fg_read bus t (Addr.reg Reg.MEM_IF_INT_RT_STS 0) 1
      if r.1.rc < 0 then some (Except.error r.1.rc, r.2) else
      if r.1.val &&& poll_bit ≠ 0 then some (Except.ok (), r.2)
      else fg_direct_mem_request_loop bus poll_bit fuel (i + 1) r.2
    else some (Except.error (-ETIMEDOUT), t)

def fg_direct_mem_request (k : fg_reg) (fg : fg_dev) (fuel : Nat) (bus : Bus) (t : Trace) :
    Option (Int × Trace) :=
  match (if fg.wa_flags &&& k.PM8150B_V1_DMA_WA ≠ 0 then fg_poll_alg_active k fuel bus t
         else some (0, t)) with
  | none => none
  | some (rc0, t0) =>
    if rc0 < 0 then some (rc0, t0) else
    let m1 := fg_masked_write bus t0 (Addr.reg Reg.MEM_IF_MEM_ARB_CFG 0)
      k.MEM_ARB_REQ_BIT k.MEM_ARB_REQ_BIT
    if m1.1 < 0 then some m1 else
    let m2 := fg_masked_write bus m1.2 (Addr.reg Reg.MEM_IF_MEM_INTF_CFG 0)
      (k.MEM_ACCESS_REQ_BIT ||| k.IACS_SLCT_BIT) k.MEM_ACCESS_REQ_BIT
    if m2.1 < 0 then some (fg_direct_mem_request_release k bus m2.1 m2.2) else
    match fg_direct_mem_request_loop bus (mem_gnt_poll_bit k fg) fuel 0 m2.2 with
    | none => none
    | some (Except.ok (), t1) => some (0, t1)
    | some (Except.error rc, t1) => some (fg_direct_mem_request_release k bus rc t1)

/-- The `while (num_partitions-- && len)` loop of `__fg_direct_mem_rw`;
returns the value of `rc` when the loop is left.  `ptr` is the rest of the
caller's buffer (the data written; for a read the bytes delivered are the
payloads of the logged reads). -/
def fg_direct_mem_rw_loop (fg : fg_dev) (bus : Bus) (access : Bool) :
    Nat → Int → Nat → Nat → List Nat → Int → Int → Trace → Option (Int × Trace)
  | 0, _, _, _, _, _, _, _ => none
  | fuel + 1, num_partitions, sram_addr, offset, ptr, len, rc, t =>
    if num_partitions ≠ 0 ∧ len ≠ 0 then
      match fg_get_dma_address fg sram_addr offset with
      | Except.error e => some (e, t)
      | Except.ok addr =>
        match fg_get_partition_avail_bytes fg (u16 ((sram_addr : Int) + offset)) len with
        | Except.error e => some (e, t)
        | Except.ok avail =>
          let num_bytes : Int := if avail > len then len else avail
          let x :=
            if access = FG_READ then
              let r := fg_read bus t (Addr.dma addr) num_bytes
              (r.1.rc, r.2)
            else fg_write bus t (Addr.dma addr) (ptr.take num_bytes.toNat) num_bytes
          if x.1 < 0 then some x else
          fg_direct_mem_rw_loop fg bus access fuel (num_partitions - 1)
            (u16 ((sram_addr : Int) + Int.tdiv num_bytes fg.sram.num_bytes_per_word)) 0
            (ptr.drop num_bytes.toNat) (len - num_bytes) x.1 x.2
    else some (rc, t)

def __fg_direct_mem_rw (k : fg_reg) (fg : fg_dev) (fuel : Nat) (bus : Bus) (t : Trace)
    (sram_addr offset : Nat) (val : List Nat) (len : Int) (access : Bool) :
    Option (Int × Trace) :=
  if offset > 3 then some (-EINVAL, t) else
  match fg_get_partition_count fg sram_addr len with
  | Except.error rc => some (rc, t)
  | Except.ok num_partitions =>
    match fg_direct_mem_request k fg fuel bus t with
    | none => none
    | some (rc0, t0) =>
      if rc0 < 0 then some (rc0, t0) else
      match fg_direct_mem_rw_loop fg bus access fuel num_partitions sram_addr offset val len
          rc0 t0 with
      | none => none
      | some (rc1, t1) =>
        let ret := fg_direct_mem_release k bus t1
        if ret.1 < 0 then some ret else some (rc1, ret.2)

/-- The `while (retry_count--)` loop of `fg_dma_mem_req`: `error rc` is the
`goto release_mem` after a failed read, `ok (retry_count, val)` the values
when the loop is left. -/
def fg_dma_mem_req_loop (k : fg_reg) (bus : Bus) :
    Nat → Int → Nat → Trace → Option (Except Int (Int × Nat) × Trace)
  | 0, _, _, _ => none
  | fuel + 1, retry_count, val, t =>
    if retry_count ≠ 0 then
      let r := fg_read bus t (Addr.reg Reg.MEM_IF_INT_RT_STS 0) 1
      if r.1.rc < 0 then some (Except.error r.1.rc, r.2) else
      if r.1.val &&& k.MEM_GNT_BIT ≠ 0 then some (Except.ok (retry_count - 1, r.1.val), r.2)
      else fg_dma_mem_req_loop k bus fuel (retry_count - 1) r.1.val r.2
    else some (Except.ok (retry_count - 1, val), t)

/-- The code of `fg_dma_mem_req` at the label `release_mem:`; the incoming
`rc` is overwritten by the first masked write. -/
def fg_dma_mem_req_release (k : fg_reg) (bus : Bus) (t : Trace) : Int × Trace :=
  let m1 := fg_masked_write bus t (Addr.reg Reg.MEM_IF_MEM_INTF_CFG 0)
    (k.MEM_ACCESS_REQ_BIT ||| k.IACS_SLCT_BIT) 0
  let m2 := fg_masked_write bus m1.2 (Addr.reg Reg.MEM_IF_MEM_ARB_CFG 0)
    k.MEM_IF_ARB_REQ_BIT 0
  if m2.1 < 0 then m2 else (m1.1, m2.2)

def fg_dma_mem_req (k : fg_reg) (fuel : Nat) (bus : Bus) (t : Trace) (request : Bool) :
    Option (Int × Trace) :=
  if request then
    -- configure for DMA access
    let m1 := fg_masked_write bus t (Addr.reg Reg.MEM_IF_MEM_INTF_CFG 0)
      (k.MEM_ACCESS_REQ_BIT ||| k.IACS_SLCT_BIT) k.MEM_ACCESS_REQ_BIT
    if m1.1 < 0 then some m1 else
    let m2 := fg_masked_write bus m1.2 (Addr.reg Reg.MEM_IF_MEM_ARB_CFG 0)
      k.MEM_IF_ARB_REQ_BIT k.MEM_IF_ARB_REQ_BIT
    if m2.1 < 0 then some (fg_dma_mem_req_release k bus m2.2) else
    match fg_dma_mem_req_loop k bus fuel RETRY_COUNT 0 m2.2 with
    | none => none
    | some (Except.error _, t1) => some (fg_dma_mem_req_release k bus t1)
    | some (Except.ok (retry_count, val), t1) =>
      if retry_count < 0 ∧ val &&& k.MEM_GNT_BIT = 0 then
        some (fg_dma_mem_req_release k bus t1)
      else some (0, t1)
  else some (fg_dma_mem_req_release k bus t)

def fg_direct_mem_read (k : fg_reg) (fg : fg_dev) (fuel : Nat) (bus : Bus) (t : Trace)
    (sram_addr offset : Nat) (len : Int) : Option (Int × Trace) :=
  __fg_direct_mem_rw k fg fuel bus t sram_addr offset [] len FG_READ

def fg_direct_mem_write (k : fg_reg) (fg : fg_dev) (fuel : Nat) (bus : Bus) (t : Trace)
    (sram_addr offset : Nat) (val : List Nat) (len : Int) (_atomic_access : Bool) :
    Option (Int × Trace) :=
  __fg_direct_mem_rw k fg fuel bus t sram_addr offset val len FG_WRITE

/-! ## Mode initialiser -/

/-- Returns `rc`, the device with its `sram` parameters set, and the trace. -/
def fg_ima_init (k : fg_reg) (fg : fg_dev) (fuel : Nat) (bus : Bus) (t : Trace) :
    Option (Int × fg_dev × Trace) :=
  match fg.version with
  | fg_version.UNKNOWN => some (- ENXIO, fg, t)
  | v =>
    let fg1 : fg_dev :=
      if v = fg_version.GEN3_FG then
        { fg with sram := { fg.sram with num_bytes_per_word := 4, address_max := 255 } }
      else
        { fg with sram := { fg.sram with num_bytes_per_word := 2, address_max := 480 } }
    let m := fg_masked_write bus t (Addr.reg Reg.MEM_IF_IMA_CFG 0)
      k.IACS_INTR_SRC_SLCT_BIT k.IACS_INTR_SRC_SLCT_BIT
    if m.1 < 0 then some (m.1, fg1, m.2) else
    -- Clear DMA errors if any before clearing IMA errors
    let d := fg_clear_dma_errors_if_any k bus m.2
    if d.1 < 0 then some (d.1, fg1, d.2) else
    -- Clear IMA errors if any before SRAM transactions can begin
    match fg_clear_ima_errors_if_any k fg1 fuel bus d.2 true with
    | none => none
    | some (rc, t1) =>
      if rc < 0 ∧ rc ≠ -EAGAIN then some (rc, fg1, t1) else some (0, fg1, t1)

def fg_dma_init (k : fg_reg) (fg : fg_dev) (bus : Bus) (t : Trace) : Int × fg_dev × Trace :=
  match fg.version with
  | fg_version.UNKNOWN => (- ENXIO, fg, t)
  | v =>
    let fg1 : fg_dev :=
      if v = fg_version.GEN3_FG then
        { fg with sram := ⟨fg_gen3_addr_map k, 255, 4⟩ }
      else
        { fg with sram := ⟨fg_gen4_addr_map k, 485, 2⟩ }
    let d := fg_clear_dma_errors_if_any k bus t
    if d.1 < 0 then (d.1, fg1, d.2) else
    let m := fg_masked_write bus d.2 (Addr.reg Reg.MEM_IF_DMA_CTL 0)
      k.ADDR_KIND_BIT k.ADDR_KIND_BIT
    if m.1 < 0 then (m.1, fg1, m.2) else
    let r := fg_direct_mem_release k bus m.2
    if r.1 < 0 then (r.1, fg1, r.2) else
    let a := fg_masked_write bus r.2 (Addr.reg Reg.MEM_IF_MEM_ARB_CFG 0)
      (k.MEM_ARB_LO_LATENCY_EN_BIT ||| k.MEM_CLR_LOG_BIT) k.MEM_ARB_LO_LATENCY_EN_BIT
    if a.1 < 0 then (a.1, fg1, a.2) else
    let w := fg_write bus a.2 (Addr.reg Reg.BATT_INFO_PEEK_MUX4 0) [k.ALG_ACTIVE_PEEK_CFG] 1
    if w.1 < 0 then (w.1, fg1, w.2) else (0, fg1, w.2)

def fg_memif_init (k : fg_reg) (fg : fg_dev) (fuel : Nat) (bus : Bus) (t : Trace) :
    Option (Int × fg_dev × Trace) :=
  if fg.battery_missing then some (0, fg, t)
  else if fg.use_dma then some (fg_dma_init k fg bus t)
  else fg_ima_init k fg fuel bus t

/-! ## Concrete instances used for evaluation -/

/-- A sample instantiation of the constants of `fg-reg.h`: one-bit masks with
distinct positions per register, and DMA windows `0x100` apart.  The general
theorems hold for every instantiation; this one is used where a run is
evaluated on concrete inputs. -/
def sample_reg : fg_reg where
  MEM_ACCESS_REQ_BIT := 0x80
  IACS_SLCT_BIT := 0x20
  IMA_WR_EN_BIT := 0x40
  MEM_ACS_BURST_BIT := 0x80
  IMA_CTL_MASK := 0xC0
  IACS_CLR_BIT := 0x04
  STATIC_CLK_EN_BIT := 0x10
  IACS_INTR_SRC_SLCT_BIT := 0x08
  IACS_RDY_BIT := 0x02
  IACS_ERR_BIT := 0x01
  XCT_TYPE_ERR_BIT := 0x02
  DATA_RD_ERR_BIT := 0x08
  DATA_WR_ERR_BIT := 0x10
  ADDR_BURST_WRAP_BIT := 0x20
  ADDR_STABLE_ERR_BIT := 0x80
  BEAT_COUNT_MASK := 0x0F
  MEM_GNT_BIT := 0x04
  GEN4_MEM_GNT_BIT := 0x02
  MEM_ARB_REQ_BIT := 0x01
  MEM_IF_ARB_REQ_BIT := 0x01
  MEM_ARB_LO_LATENCY_EN_BIT := 0x02
  MEM_CLR_LOG_BIT := 0x04
  ALG_ACTIVE_BIT := 0x01
  ALG_ACTIVE_PEEK_CFG := 0xAC
  PM8150B_V1_DMA_WA := 0x02
  DMA_WRITE_ERROR_BIT := 0x02
  DMA_READ_ERROR_BIT := 0x04
  DMA_CLEAR_LOG_BIT := 0x01
  ADDR_KIND_BIT := 0x02
  SRAM_ADDR_OFFSET := 0x20
  FG_DMA0_BASE := 0x4800
  FG_DMA1_BASE := 0x4900
  FG_DMA2_BASE := 0x4A00
  GEN4_FG_DMA0_BASE := 0x4400
  GEN4_FG_DMA1_BASE := 0x4500
  GEN4_FG_DMA2_BASE := 0x4600
  GEN4_FG_DMA3_BASE := 0x4700
  GEN4_FG_DMA4_BASE := 0x4800
  GEN4_FG_DMA5_BASE := 0x4900

/-- A GEN3 device as `fg_dma_init` sets it up (no work-around flags). -/
def gen3_dev (k : fg_reg) : fg_dev where
  version := fg_version.GEN3_FG
  use_ima_single_mode := false
  wa_flags := 0
  battery_missing := false
  use_dma := true
  sram := ⟨fg_gen3_addr_map k, 255, 4⟩

/-- A GEN4 device as `fg_dma_init` sets it up (no work-around flags). -/
def gen4_dev (k : fg_reg) : fg_dev where
  version := fg_version.GEN4_FG
  use_ima_single_mode := false
  wa_flags := 0
  battery_missing := false
  use_dma := true
  sram := ⟨fg_gen4_addr_map k, 485, 2⟩

/-! ## Observations on traces and assumptions on the bus -/

/-- The masked write that releases the access: clears `MEM_ACCESS_REQ` and
`IACS_SLCT`. -/
def release_op (k : fg_reg) : Op :=
  Op.masked_write (Addr.reg Reg.MEM_IF_MEM_INTF_CFG 0)
    (k.MEM_ACCESS_REQ_BIT ||| k.IACS_SLCT_BIT) 0

/-- The masked write that clears `MEM_ARB_REQ`. -/
def arb_release_op (k : fg_reg) : Op :=
  Op.masked_write (Addr.reg Reg.MEM_IF_MEM_ARB_CFG 0) k.MEM_ARB_REQ_BIT 0

/-- The masked write that requests DMA arbitration. -/
def arb_request_op (k : fg_reg) : Op :=
  Op.masked_write (Addr.reg Reg.MEM_IF_MEM_ARB_CFG 0) k.MEM_ARB_REQ_BIT k.MEM_ARB_REQ_BIT

/-- The masked write that asserts `MEM_ACCESS_REQ` and `IACS_SLCT` for an
interleaved access. -/
def acquire_op (k : fg_reg) : Op :=
  Op.masked_write (Addr.reg Reg.MEM_IF_MEM_INTF_CFG 0)
    (k.MEM_ACCESS_REQ_BIT ||| k.IACS_SLCT_BIT) (k.MEM_ACCESS_REQ_BIT ||| k.IACS_SLCT_BIT)

/-- The read of the grant status. -/
def grant_poll_op : Op := Op.read (Addr.reg Reg.MEM_IF_INT_RT_STS 0) 1

/-- The read of the beat counter. -/
def beat_count_op : Op := Op.read (Addr.reg Reg.MEM_IF_FG_BEAT_COUNT 0) 1

/-- The masked write that asserts `MEM_ACCESS_REQ` (with `IACS_SLCT` clear)
for a direct access. -/
def dma_request_op (k : fg_reg) : Op :=
  Op.masked_write (Addr.reg Reg.MEM_IF_MEM_INTF_CFG 0)
    (k.MEM_ACCESS_REQ_BIT ||| k.IACS_SLCT_BIT) k.MEM_ACCESS_REQ_BIT

/-- The read of the algorithm-active status. -/
def alg_active_op : Op := Op.read (Addr.reg Reg.BATT_INFO_PEEK_RD 0) 1

/-- The events produced by issuing the given operations one after the other
on the bus, starting from history `t`. -/
def run_ops (bus : Bus) (t : Trace) : List Op → Trace
  | [] => []
  | op :: ops => ⟨op, bus t op⟩ :: run_ops bus (t ++ [⟨op, bus t op⟩]) ops

/-- Number of events of a trace that issue the given operation. -/
def count_op (op : Op) (tr : Trace) : Nat := tr.countP (fun e => decide (e.op = op))

/-- An operation on a DMA-window address (a raw data transfer). -/
def is_raw_transfer : Op → Bool
  | Op.read (Addr.dma _) _ => true
  | Op.write (Addr.dma _) _ _ => true
  | _ => false

/-- The raw data transfers issued in a trace, in order. -/
def raw_transfers (tr : Trace) : List Op := (tr.map Event.op).filter is_raw_transfer

/-- Every bus operation succeeds. -/
def BusOk (bus : Bus) : Prop := ∀ h op, (bus h op).rc = 0

/-- Every poll of the grant status shows the grant bit clear. -/
def GrantClear (k : fg_reg) (fg : fg_dev) (bus : Bus) : Prop :=
  ∀ h, (bus h grant_poll_op).val &&& mem_gnt_poll_bit k fg = 0

/-- Every poll of the grant status shows the grant bit set. -/
def GrantSet (k : fg_reg) (fg : fg_dev) (bus : Bus) : Prop :=
  ∀ h, (bus h grant_poll_op).val &&& mem_gnt_poll_bit k fg ≠ 0

/-- The request phase gets as far as asking for the grant: the PM8150B v1
work-around does not apply, or the algorithm-active bit reads low. -/
def RequestStarts (k : fg_reg) (fg : fg_dev) (bus : Bus) : Prop :=
  fg.wa_flags &&& k.PM8150B_V1_DMA_WA = 0 ∨
    ∀ h, (bus h alg_active_op).val &&& k.ALG_ACTIVE_BIT = 0

/-- The partition number (index plus one, `acc` if none) the scan of
`fg_get_partition_count` leaves for one address. -/
def partition_number (x : Nat) : List fg_dma_address → Nat → Int → Int
  | [], _, acc => acc
  | p :: ps, i, acc =>
    partition_number x ps (i + 1) (if in_partition p x then (i : Int) + 1 else acc)

/-- The partitions of a table lie in ascending order without overlap. -/
def TableAscending (tbl : List fg_dma_address) : Prop :=
  tbl.Pairwise (fun p q => p.partition_end < q.partition_start)

/-- The operations of the request phase of `fg_direct_mem_request` that come
before the grant polls. -/
def request_prefix_ops (k : fg_reg) (fg : fg_dev) : List Op :=
  (if fg.wa_flags &&& k.PM8150B_V1_DMA_WA ≠ 0 then [alg_active_op] else []) ++
    [arb_request_op k, dma_request_op k]

/-- The bus operation of one sub-transfer of `__fg_direct_mem_rw`: a read or
a write of `num_bytes` bytes at the 16-bit address `addr`. -/
def transfer_op (access : Bool) (addr : Nat) (ptr : List Nat) (num_bytes : Int) : Op :=
  if access = FG_READ then Op.read (Addr.dma addr) num_bytes
  else Op.write (Addr.dma addr) (ptr.take num_bytes.toNat) num_bytes

/-- A bus on which every operation succeeds and every read delivers `0xFF`
bytes: all status bits read as set (in particular the grant bit). -/
def ones_bus : Bus := fun _ _ => ⟨0, [0xFF]⟩

/-- A bus on which every operation succeeds and every read delivers zero
bytes: all status bits read as clear (in particular the grant bit). -/
def zeros_bus : Bus := fun _ _ => ⟨0, [0]⟩

/-- A bus on which every operation succeeds, the hardware status reads `0x10`
(nibbles differ) until three operations have been issued and `0` afterwards,
and every other read delivers `0`. -/
def nibble_mismatch_bus : Bus := fun h op =>
  match op with
  | Op.read (Addr.reg Reg.MEM_IF_IMA_HW_STS _) _ =>
    if h.length < 3 then ⟨0, [0x10]⟩ else ⟨0, [0]⟩
  | _ => ⟨0, [0]⟩

/-- The masked beat counts delivered by the beat-counter reads of a trace, in
order. -/
def beat_values (k : fg_reg) (tr : Trace) : List Nat :=
  tr.filterMap (fun e =>
    if e.op = beat_count_op then some (e.reply.val &&& k.BEAT_COUNT_MASK) else none)

/-- The reply of idle, error-free hardware to an operation: the operation
succeeds; `MEM_ACCESS_REQ` reads clear (memory access available); `IACS_RDY`
reads set; none of the exception bits tested by `fg_clear_ima_errors_if_any`
reads set. -/
def NominalReply (k : fg_reg) (op : Op) (r : Reply) : Prop :=
  r.rc = 0 ∧
  (op = Op.read (Addr.reg Reg.MEM_IF_MEM_INTF_CFG 0) 1 → r.val &&& k.MEM_ACCESS_REQ_BIT = 0) ∧
  (op = Op.read (Addr.reg Reg.MEM_IF_IMA_OPR_STS 0) 1 → r.val &&& k.IACS_RDY_BIT ≠ 0) ∧
  (op = Op.read (Addr.reg Reg.MEM_IF_IMA_EXP_STS 0) 1 → r.val &&& ima_exp_err_mask k = 0)

/-- All bus operations succeed and no hardware error or busy condition is
seen: every reply is nominal. -/
def Nominal (k : fg_reg) (bus : Bus) : Prop := ∀ h op, NominalReply k op (bus h op)

/-- Every bus operation either fails or gets the nominal reply. -/
def SemiNominal (k : fg_reg) (bus : Bus) : Prop :=
  ∀ h op, (bus h op).rc < 0 ∨ NominalReply k op (bus h op)

/-- A single transport failure injected at the `n`-th bus operation: the
operation issued after exactly `n` earlier ones fails, every other one gets
the nominal reply. -/
def SingleFault (k : fg_reg) (bus : Bus) (n : Nat) : Prop :=
  ∀ h op, (h.length = n → (bus h op).rc < 0) ∧
    (h.length ≠ n → NominalReply k op (bus h op))

/-- Every read of the beat counter delivers the same masked count `b`. -/
def BeatConst (k : fg_reg) (bus : Bus) (b : Nat) : Prop :=
  ∀ h, (bus h beat_count_op).val &&& k.BEAT_COUNT_MASK = b

/-- Some bus operation issued at a history of length in `[lo, hi)` fails. -/
def FailsIn (bus : Bus) (lo hi : Nat) : Prop :=
  ∃ h op, lo ≤ h.length ∧ h.length < hi ∧ (bus h op).rc < 0

/-- How a step that extended the trace `t` by `s` ended: with success, or with
a negative `rc` after one of its bus operations failed. -/
def Outcome (bus : Bus) (t s : Trace) (rc : Int) : Prop :=
  rc = 0 ∨ (rc < 0 ∧ FailsIn bus t.length (t ++ s).length)

/-- A stretch of trace without release, acquire or beat-counter
operations. -/
def Quiet (k : fg_reg) (s : Trace) : Prop :=
  ∀ e ∈ s, e.op ≠ release_op k ∧ e.op ≠ acquire_op k ∧ e.op ≠ beat_count_op

/-- A step started at trace `t` returned, extended the trace by a quiet
stretch, and ended with success or with a failure caused by a failed bus
operation. -/
def GoodStep (k : fg_reg) (bus : Bus) (t : Trace) (res : Option (Int × Trace)) : Prop :=
  ∃ rc s, res = some (rc, t ++ s) ∧ Quiet k s ∧ Outcome bus t s rc

/-- The read of the access-request status in `fg_get_mem_access_status`. -/
def access_status_op : Op := Op.read (Addr.reg Reg.MEM_IF_MEM_INTF_CFG 0) 1

/-- The masked beat count a read of the beat counter delivers at history
`h`. -/
def beat_at (k : fg_reg) (bus : Bus) (h : Trace) : Nat :=
  (bus h beat_count_op).val &&& k.BEAT_COUNT_MASK

/-- What `fg_interleaved_mem_read` and `fg_interleaved_mem_write` do once an
attempt has ended with `nx` at trace `t1`: jump back to `retry:`, or run the
code at `out:` (release, then return or jump back).  `again count rc t` stands
for the function from the label `retry:` on. -/
def ima_after_attempt (k : fg_reg) (bus : Bus)
    (again : Nat → Int → Trace → Option (Int × Trace)) (nx : Next) (t1 : Trace) :
    Option (Int × Trace) :=
  match nx with
  | Next.again rc1 count1 => again count1 rc1 t1
  | Next.out rc1 retry count1 =>
    if rc1 < 0 ∧ (ima_release k bus t1).1 < 0 then some (ima_release k bus t1)
    else if retry then again count1 rc1 (ima_release k bus t1).2
    else some (rc1, (ima_release k bus t1).2)

/-- One pass from the label `retry:`: an attempt `body` followed by
`ima_after_attempt`. -/
def ima_retry_pass (k : fg_reg) (bus : Bus) (body : Option (Next × Trace))
    (again : Nat → Int → Trace → Option (Int × Trace)) : Option (Int × Trace) :=
  match body with
  | none => none
  | some (nx, t1) => ima_after_attempt k bus again nx t1

/-- A stretch of trace without any operation of the DMA release sequence. -/
def DmaQuiet (k : fg_reg) (s : Trace) : Prop :=
  ∀ e ∈ s, e.op ≠ release_op k ∧ e.op ≠ arb_release_op k

/-- Idle, error-free hardware for `sample_reg`: every operation succeeds,
`IACS_RDY` and the GEN3 grant bit read set, every other read delivers `0`. -/
def idle_bus : Bus := fun _ op =>
  if op = Op.read (Addr.reg Reg.MEM_IF_IMA_OPR_STS 0) 1 then ⟨0, [0x02]⟩
  else if op = grant_poll_op then ⟨0, [0x04]⟩
  else ⟨0, [0]⟩

/-- The bus `bus` with a transport failure injected at the `n`-th
operation. -/
def inject_fault (bus : Bus) (n : Nat) : Bus := fun h op =>
  if h.length = n then ⟨- EIO, []⟩ else bus h op

/-- As `idle_bus`, but the beat counter advances while the first twelve
operations are issued: a read of it delivers the number of operations issued
so far, and `0` from the twelfth on. -/
def counting_beat_bus : Bus := fun h op =>
  if op = beat_count_op then (if h.length < 12 then ⟨0, [h.length]⟩ else ⟨0, [0]⟩)
  else idle_bus h op

/-- The stretch of trace `tr` ends with the DMA release sequence, issued
once: the access release write and, when that write succeeded, the clear of
`MEM_ARB_REQ` after it; no operation of the sequence occurs before. -/
def DmaReleased (k : fg_reg) (tr : Trace) : Prop :=
  (∃ s r1, DmaQuiet k s ∧ tr = s ++ [⟨release_op k, r1⟩] ∧ r1.rc < 0) ∨
  (∃ s r1 r2, DmaQuiet k s ∧
    tr = s ++ [⟨release_op k, r1⟩, ⟨arb_release_op k, r2⟩] ∧ 0 ≤ r1.rc)

/-- The stretch of trace `tr` holds no operation of the DMA release sequence
and no successful arbitration request. -/
def DmaNotAcquired (k : fg_reg) (tr : Trace) : Prop :=
  DmaQuiet k tr ∧ ∀ e ∈ tr, e.op = arb_request_op k → e.reply.rc < 0

/-- As `idle_bus`, but the beat counter advances with every bus operation: a
read of it delivers the number of operations issued so far (modulo 16). -/
def ticking_beat_bus : Bus := fun h op =>
  if op = beat_count_op then ⟨0, [h.length % 16]⟩ else idle_bus h op

/-- The bus `bus` with a transport failure with return code `e` injected at
the `n`-th operation. -/
def inject_error (bus : Bus) (n : Nat) (e : Int) : Bus := fun h op =>
  if h.length = n then ⟨e, []⟩ else bus h op

/-- Number of bytes of a read or write operation (its `len` argument). -/
def transfer_len : Op → Int
  | Op.read _ len => len
  | Op.write _ _ len => len
  | Op.masked_write _ _ _ => 0

/-- Sum of the byte counts of the raw data transfers issued in a trace. -/
def raw_transfer_bytes (tr : Trace) : Int := ((raw_transfers tr).map transfer_len).sum

/-- The request phase of a direct access gets past the algorithm-active poll:
the PM8150B v1 work-around does not apply, or the algorithm-active bit reads
low in one of the 35 polls that `fg_poll_alg_active` makes from history
`t`. -/
def AlgPollPasses (k : fg_reg) (fg : fg_dev) (bus : Bus) (t : Trace) : Prop :=
  fg.wa_flags &&& k.PM8150B_V1_DMA_WA = 0 ∨
    ∃ n, n < 35 ∧
      (bus (t ++ run_ops bus t (List.replicate n alg_active_op)) alg_active_op).val &&&
        k.ALG_ACTIVE_BIT = 0

/-- A GEN4 device as `fg_dma_init` sets it up, with the PM8150B v1 DMA
work-around flag set. -/
def gen4_wa_dev (k : fg_reg) : fg_dev where
  version := fg_version.GEN4_FG
  use_ima_single_mode := false
  wa_flags := k.PM8150B_V1_DMA_WA
  battery_missing := false
  use_dma := true
  sram := ⟨fg_gen4_addr_map k, 485, 2⟩

/-- A bus on which every operation succeeds, the algorithm-active status
always reads `0xFF` (busy), and every other read delivers `0` (in particular
the grant bit reads clear). -/
def alg_stuck_bus : Bus := fun _ op =>
  if op = alg_active_op then ⟨0, [0xFF]⟩ else ⟨0, [0]⟩

/-- A bus on which every operation succeeds, the algorithm-active status
reads `0xFF` (busy) until three operations have been issued and `0`
afterwards, and every other read delivers `0`. -/
def alg_late_bus : Bus := fun h op =>
  if op = alg_active_op ∧ h.length < 3 then ⟨0, [0xFF]⟩ else ⟨0, [0]⟩

/-! ## The bus operations of an interleaved access, and a reference model -/

/-- The read of the IMA operation status (`IACS_RDY`) in
`fg_check_iacs_ready`. -/
def opr_status_op : Op := Op.read (Addr.reg Reg.MEM_IF_IMA_OPR_STS 0) 1

/-- The masked write of `fg_config_access_mode`. -/
def access_mode_op (k : fg_reg) (access burst : Bool) : Op :=
  Op.masked_write (Addr.reg Reg.MEM_IF_IMA_CTL 0) k.IMA_CTL_MASK
    ((if access = FG_WRITE then k.IMA_WR_EN_BIT else 0) |||
      (if burst then k.MEM_ACS_BURST_BIT else 0))

/-- The write of `fg_set_address`. -/
def set_address_op (fg : fg_dev) (address : Nat) : Op :=
  Op.write (Addr.reg Reg.MEM_IF_ADDR_LSB 0)
    [address % 256, if fg.version = fg_version.GEN3_FG then 0 else u8 (address / 256)] 2

/-- The three status reads of `fg_clear_ima_errors_if_any`. -/
def error_check_ops : List Op :=
  [Op.read (Addr.reg Reg.MEM_IF_IMA_EXP_STS 0) 1, Op.read (Addr.reg Reg.MEM_IF_IMA_HW_STS 0) 1,
    Op.read (Addr.reg Reg.MEM_IF_IMA_ERR_STS 0) 1]

/-- A list of checked bus operations: each operation comes with a flag that
says whether its failure is reported as `-EIO` (`true`) or with the
operation's own return code (`false`). -/
abbrev Script := List (Op × Bool)

/-- Operations whose failure is reported with their own return code. -/
def plain (ops : List Op) : Script := ops.map (fun o => (o, false))

/-- Issue the operations of a script in order until one fails: the return
code (0 if none failed, else the code reported for the failing operation) and
the events produced. -/
def run_checked (bus : Bus) : Trace → Script → Int × Trace
  | _, [] => (0, [])
  | t, c :: cs =>
    if (bus t c.1).rc < 0 then
      (if c.2 then - EIO else (bus t c.1).rc, [⟨c.1, bus t c.1⟩])
    else
      ((run_checked bus (t ++ [⟨c.1, bus t c.1⟩]) cs).1,
        ⟨c.1, bus t c.1⟩ :: (run_checked bus (t ++ [⟨c.1, bus t c.1⟩]) cs).2)

/-- The checked operations of `fg_interleaved_mem_config` after the poll of
the access-request status: acquire write, access mode, ready poll, address,
and for a read a second ready poll. -/
def ima_config_ops (k : fg_reg) (fg : fg_dev) (address : Nat) (offset len : Int)
    (access : Bool) : Script :=
  [(acquire_op k, false),
    (access_mode_op k access
      (if fg.use_ima_single_mode then false
        else decide (offset + len > fg.sram.num_bytes_per_word)), true),
    (opr_status_op, false), (set_address_op fg address, false)] ++
  (if access = FG_READ then [(opr_status_op, false)] else [])

/-- The checked operations of the word loop of `__fg_interleaved_mem_read`,
for at most `n` words: per word the data read, the three error-status reads,
the address write (single mode) or the switch to single mode (burst mode,
last partial word), and the ready poll. -/
def ima_read_transfer_ops (k : fg_reg) (fg : fg_dev) : Nat → Nat → Int → Int → Script
  | 0, _, _, _ => []
  | n + 1, address, offset, len =>
    if len > 0 then
      [(Op.read (Addr.reg Reg.MEM_IF_RD_DATA0 offset) (ima_num_bytes fg offset len), false)] ++
      plain error_check_ops ++
      (if fg.use_ima_single_mode = true then
        (if len - ima_num_bytes fg offset len ≠ 0 then
          [(set_address_op fg (u16 ((address : Int) + 1)), false)] else [])
      else
        (if len - ima_num_bytes fg offset len ≠ 0 ∧
            len - ima_num_bytes fg offset len < fg.sram.num_bytes_per_word then
          [(access_mode_op k FG_READ false, true)] else [])) ++
      [(opr_status_op, false)] ++
      ima_read_transfer_ops k fg n
        (if fg.use_ima_single_mode = true ∧ len - ima_num_bytes fg offset len ≠ 0 then
          u16 ((address : Int) + 1) else address)
        0 (len - ima_num_bytes fg offset len)
    else []

/-- The checked operations of the word loop of `__fg_interleaved_mem_write`,
for at most `n` words: per word the byte-enable write, the data write, the
dummy write to the last data register where needed, the three error-status
reads, the address write (single mode), and the ready poll. -/
def ima_write_transfer_ops (fg : fg_dev) : Nat → Nat → Int → List Nat → Int → Script
  | 0, _, _, _, _ => []
  | n + 1, address, offset, ptr, len =>
    if len > 0 then
      [(Op.write (Addr.reg Reg.MEM_IF_IMA_BYTE_EN 0)
          [ima_byte_enable offset (ima_num_bytes fg offset len)] 1, false),
        (Op.write (Addr.reg Reg.MEM_IF_WR_DATA0 offset)
          (ptr.take (ima_num_bytes fg offset len)) (ima_num_bytes fg offset len), false)] ++
      (if fg.version = fg_version.GEN3_FG ∧
          ima_byte_enable offset (ima_num_bytes fg offset len) &&& BIT 3 = 0 then
        [(Op.write (Addr.reg Reg.MEM_IF_WR_DATA3 0) [0] 1, false)]
      else if fg.version = fg_version.GEN4_FG ∧
          ima_byte_enable offset (ima_num_bytes fg offset len) &&& BIT 1 = 0 then
        [(Op.write (Addr.reg Reg.MEM_IF_WR_DATA1 0) [0] 1, false)]
      else []) ++
      plain error_check_ops ++
      (if fg.use_ima_single_mode = true ∧ len - ima_num_bytes fg offset len ≠ 0 then
        [(set_address_op fg (u16 ((address : Int) + 1)), false)] else []) ++
      [(opr_status_op, false)] ++
      ima_write_transfer_ops fg n
        (if fg.use_ima_single_mode = true ∧ len - ima_num_bytes fg offset len ≠ 0 then
          u16 ((address : Int) + 1) else address)
        0 (ptr.drop (ima_num_bytes fg offset len)) (len - ima_num_bytes fg offset len)
    else []

/-- The checked operations of one full attempt of `fg_interleaved_mem_read`
after the poll of the access-request status: configuration, start beat
count, word transfer, end beat count. -/
def ima_read_ops (k : fg_reg) (fg : fg_dev) (address offset : Nat) (len : Int) : Script :=
  ima_config_ops k fg address offset len FG_READ ++ [(beat_count_op, false)] ++
    ima_read_transfer_ops k fg len.toNat address offset len ++ [(beat_count_op, false)]

/-- No bus operation reports the code `-EAGAIN`, which the engine uses as its
own retry signal after clearing a hardware error. -/
def NoAgain (bus : Bus) : Prop := ∀ h op, (bus h op).rc ≠ -EAGAIN

/-- Running the script `cs` from history `t` is what the step `res` did. -/
def RunsAs (bus : Bus) (t : Trace) (cs : Script) (res : Option (Int × Trace)) : Prop :=
  res = some ((run_checked bus t cs).1, t ++ (run_checked bus t cs).2)

/-- No operation of the script reads the beat counter. -/
def NoBeat (cs : Script) : Prop := ∀ c ∈ cs, c.1 ≠ beat_count_op

/-- No read of the exception status shows one of the error bits tested by
`fg_clear_ima_errors_if_any`. -/
def NoException (k : fg_reg) (bus : Bus) : Prop :=
  ∀ h, (bus h (Op.read (Addr.reg Reg.MEM_IF_IMA_EXP_STS 0) 1)).val &&& ima_exp_err_mask k = 0

/-- From every history on, `IACS_RDY` reads set in one of the 250 polls that
`fg_check_iacs_ready` makes. -/
def ReadyInTime (k : fg_reg) (bus : Bus) : Prop :=
  ∀ h, ∃ n, n < 250 ∧
    (bus (h ++ run_ops bus h (List.replicate n opr_status_op)) opr_status_op).val &&&
      k.IACS_RDY_BIT ≠ 0

/-- From every history on, `MEM_ACCESS_REQ` reads clear in one of the 6 polls
that `is_mem_access_available` makes. -/
def AccessInTime (k : fg_reg) (bus : Bus) : Prop :=
  ∀ h, ∃ n, n < 6 ∧
    (bus (h ++ run_ops bus h (List.replicate n access_status_op)) access_status_op).val &&&
      k.MEM_ACCESS_REQ_BIT = 0

/-- All bus operations succeed and no hardware error is detected: no
exception bit is reported, and neither the poll for `IACS_RDY` nor the poll
for memory access runs out of tries. -/
def Healthy (k : fg_reg) (bus : Bus) : Prop :=
  BusOk bus ∧ NoException k bus ∧ ReadyInTime k bus ∧ AccessInTime k bus

/-- The two status polls whose number depends on how soon the hardware is
ready: the read of `IMA_OPR_STS` and the read of `MEM_INTF_CFG`. -/
def is_poll (op : Op) : Bool := decide (op = opr_status_op ∨ op = access_status_op)

/-- The operations of a trace, in order, the status polls left out. -/
def main_ops (tr : Trace) : List Op := (tr.map Event.op).filter (fun o => !is_poll o)

/-- The operations of a script, in order, the status polls left out. -/
def main_part (cs : Script) : List Op := (cs.map Prod.fst).filter (fun o => !is_poll o)

/-- The operations of one full attempt of `fg_interleaved_mem_read` other
than status polls: configuration, start beat count, word transfer, end beat
count, release. -/
def read_round_ops (k : fg_reg) (fg : fg_dev) (address offset : Nat) (len : Int) : List Op :=
  main_part (ima_read_ops k fg address offset len) ++ [release_op k]

/-- As `counting_beat_bus`, but slow: `IACS_RDY` reads set only in a poll
that directly follows another poll of `IMA_OPR_STS`, and `MEM_ACCESS_REQ`
reads clear only in a poll that directly follows another poll of
`MEM_INTF_CFG`. -/
def slow_bus : Bus := fun h op =>
  if op = opr_status_op then
    (if h.getLast?.map Event.op = some opr_status_op then ⟨0, [0x02]⟩ else ⟨0, [0]⟩)
  else if op = access_status_op then
    (if h.getLast?.map Event.op = some access_status_op then ⟨0, [0]⟩ else ⟨0, [0x80]⟩)
  else counting_beat_bus h op

/-- The step `res` returns 0 and, status polls apart, issued the operations
`m` from history `t` on. -/
def MainRun (t : Trace) (m : List Op) (res : Option (Int × Trace)) : Prop :=
  ∃ s, res = some (0, t ++ s) ∧ main_ops s = m

/-! ## Basic facts about traces -/

theorem raw_transfers_append (a b : Trace) :
    raw_transfers (a ++ b) = raw_transfers a ++ raw_transfers b := by
  simp [raw_transfers]

theorem count_op_append (op : Op) (a b : Trace) :
    count_op op (a ++ b) = count_op op a + count_op op b := by
  simp [count_op]

theorem run_ops_map_op (bus : Bus) (ops : List Op) :
    ∀ t, (run_ops bus t ops).map Event.op = ops := by
  induction ops with
  | nil => intro t; rfl
  | cons op ops ih => intro t; simp [run_ops, ih]

theorem run_ops_append (bus : Bus) (ops1 ops2 : List Op) :
    ∀ t, run_ops bus t (ops1 ++ ops2) =
      run_ops bus t ops1 ++ run_ops bus (t ++ run_ops bus t ops1) ops2 := by
  induction ops1 with
  | nil => intro t; simp [run_ops]
  | cons op ops ih => intro t; simp [run_ops, ih]

theorem raw_transfers_run_ops (bus : Bus) (t : Trace) (ops : List Op) :
    raw_transfers (run_ops bus t ops) = ops.filter is_raw_transfer := by
  simp [raw_transfers, run_ops_map_op]

theorem count_op_eq (op : Op) (tr : Trace) :
    count_op op tr = (tr.map Event.op).count op := by
  induction tr with
  | nil => rfl
  | cons e es ih =>
    simp only [count_op, List.map_cons, List.count_cons, List.countP_cons] at ih ⊢
    rw [ih]
    by_cases h : e.op = op <;> simp [h]

theorem count_op_run_ops (op : Op) (bus : Bus) (t : Trace) (ops : List Op) :
    count_op op (run_ops bus t ops) = ops.count op := by
  rw [count_op_eq, run_ops_map_op]

theorem gen4_ne_gen3 : (fg_version.GEN4_FG = fg_version.GEN3_FG) = False := by decide

theorem gen3_ne_gen4 : (fg_version.GEN3_FG = fg_version.GEN4_FG) = False := by decide

/-! ## Mode initialiser and the offset check of the IMA operations -/

theorem fg_dma_init_params (k : fg_reg) (fg0 fg : fg_dev) (bus : Bus) (t0 t1 : Trace)
    (h : fg_dma_init k fg0 bus t0 = (0, fg, t1)) :
    (fg.version = fg_version.GEN3_FG ∧ fg.sram = ⟨fg_gen3_addr_map k, 255, 4⟩) ∨
    (fg.version = fg_version.GEN4_FG ∧ fg.sram = ⟨fg_gen4_addr_map k, 485, 2⟩) := by
  unfold fg_dma_init at h
  cases hv : fg0.version <;> simp only [hv, gen4_ne_gen3, if_true, if_false] at h
  · left
    split_ifs at h <;> simp only [Prod.mk.injEq] at h <;>
      (obtain ⟨_, rfl, _⟩ := h; simp [hv])
  · right
    split_ifs at h <;> simp only [Prod.mk.injEq] at h <;>
      (obtain ⟨_, rfl, _⟩ := h; simp [hv])
  · simp [ ENXIO] at h

theorem fg_ima_init_params (k : fg_reg) (fg0 fg : fg_dev) (fuel : Nat) (bus : Bus)
    (t0 t1 : Trace) (h : fg_ima_init k fg0 fuel bus t0 = some (0, fg, t1)) :
    (fg.version = fg_version.GEN3_FG ∧ fg.sram.num_bytes_per_word = 4) ∨
    (fg.version = fg_version.GEN4_FG ∧ fg.sram.num_bytes_per_word = 2) := by
  unfold fg_ima_init at h
  cases hv : fg0.version <;> simp only [hv, gen4_ne_gen3, if_true, if_false] at h
  · left
    split at h
    · simp only [Option.some.injEq, Prod.mk.injEq] at h
      omega
    · split at h
      · simp only [Option.some.injEq, Prod.mk.injEq] at h
        omega
      · split at h
        · simp at h
        · split_ifs at h <;> simp only [Option.some.injEq, Prod.mk.injEq] at h
          · omega
          · obtain ⟨_, rfl, _⟩ := h; simp [hv]
  · right
    split at h
    · simp only [Option.some.injEq, Prod.mk.injEq] at h
      omega
    · split at h
      · simp only [Option.some.injEq, Prod.mk.injEq] at h
        omega
      · split at h
        · simp at h
        · split_ifs at h <;> simp only [Option.some.injEq, Prod.mk.injEq] at h
          · omega
          · obtain ⟨_, rfl, _⟩ := h; simp [hv]
  · simp [ ENXIO] at h

/-- A successful run of the mode initialiser (battery present) leaves a GEN3
device with 4 bytes per word or a GEN4 device with 2 bytes per word. -/
theorem fg_memif_init_params (k : fg_reg) (fg0 fg : fg_dev) (fuel : Nat) (bus : Bus)
    (t0 t1 : Trace) (hb : fg0.battery_missing = false)
    (h : fg_memif_init k fg0 fuel bus t0 = some (0, fg, t1)) :
    (fg.version = fg_version.GEN3_FG ∧ fg.sram.num_bytes_per_word = 4) ∨
    (fg.version = fg_version.GEN4_FG ∧ fg.sram.num_bytes_per_word = 2) := by
  unfold fg_memif_init at h
  simp only [hb, Bool.false_eq_true, if_false] at h
  split_ifs at h
  · simp only [Option.some.injEq] at h
    rcases fg_dma_init_params k fg0 fg bus t0 t1 h with ⟨h1, h2⟩ | ⟨h1, h2⟩
    · left; simp [h1, h2]
    · right; simp [h1, h2]
  · exact fg_ima_init_params k fg0 fg fuel bus t0 t1 h

/-- C2: on a device set up by the mode initialiser (GEN3 with 4 bytes per
word, GEN4 with 2), for every address, buffer, length and every offset
`>= bytes_per_word`, `fg_interleaved_mem_read` and `fg_interleaved_mem_write`
return `-EINVAL` and leave the bus trace unchanged: no read, write or masked
write is issued. -/
theorem ima_offset_out_of_range_rejected (k : fg_reg) (fg0 fg : fg_dev) (fuel0 fuel : Nat)
    (bus0 bus : Bus) (t0 t1 t : Trace) (address offset : Nat) (val : List Nat) (len : Int)
    (atomic_access : Bool)
    (hb : fg0.battery_missing = false)
    (hinit : fg_memif_init k fg0 fuel0 bus0 t0 = some (0, fg, t1))
    (hoff : fg.sram.num_bytes_per_word ≤ offset) :
    fg_interleaved_mem_read k fg fuel bus t address offset len = some (-EINVAL, t) ∧
    fg_interleaved_mem_write k fg fuel bus t address offset val len atomic_access =
      some (-EINVAL, t) := by
  have hlarge : ima_offset_too_large fg offset = true := by
    rcases fg_memif_init_params k fg0 fg fuel0 bus0 t0 t1 hb hinit with ⟨hv, hw⟩ | ⟨hv, hw⟩
    · simp only [ima_offset_too_large, hv, gen3_ne_gen4, if_false, decide_eq_true_eq]
      omega
    · simp only [ima_offset_too_large, hv, if_true, decide_eq_true_eq]
      omega
  simp [fg_interleaved_mem_read, fg_interleaved_mem_write, hlarge]

/-- Witness for C2: a GEN4 device initialised for IMA on a bus that answers
every operation with success; offset 2 is rejected. -/
theorem ima_offset_out_of_range_rejected_witness :
    fg_interleaved_mem_read sample_reg
        { version := fg_version.GEN4_FG, use_ima_single_mode := false, wa_flags := 0,
          battery_missing := false, use_dma := false, sram := ⟨[], 480, 2⟩ }
        5 (fun _ _ => ⟨0, [0]⟩) [] 7 2 1 = some (-EINVAL, []) ∧
    fg_interleaved_mem_write sample_reg
        { version := fg_version.GEN4_FG, use_ima_single_mode := false, wa_flags := 0,
          battery_missing := false, use_dma := false, sram := ⟨[], 480, 2⟩ }
        5 (fun _ _ => ⟨0, [0]⟩) [] 7 2 [1] 1 false = some (-EINVAL, []) :=
  ima_offset_out_of_range_rejected sample_reg
    { version := fg_version.GEN4_FG, use_ima_single_mode := false, wa_flags := 0,
      battery_missing := false, use_dma := false, sram := ⟨[], 0, 0⟩ }
    { version := fg_version.GEN4_FG, use_ima_single_mode := false, wa_flags := 0,
      battery_missing := false, use_dma := false, sram := ⟨[], 480, 2⟩ } 5 5
    (fun _ _ => ⟨0, [0]⟩) (fun _ _ => ⟨0, [0]⟩) []
    (run_ops (fun _ _ => ⟨0, [0]⟩) []
      [Op.masked_write (Addr.reg Reg.MEM_IF_IMA_CFG 0) 8 8,
        Op.read (Addr.reg Reg.MEM_IF_DMA_STS 0) 1,
        Op.masked_write (Addr.reg Reg.MEM_IF_DMA_CTL 0) 1 0,
        Op.read (Addr.reg Reg.MEM_IF_IMA_EXP_STS 0) 1,
        Op.read (Addr.reg Reg.MEM_IF_IMA_HW_STS 0) 1,
        Op.read (Addr.reg Reg.MEM_IF_IMA_ERR_STS 0) 1])
    [] 7 2 [1] 1 false rfl (by decide) (by decide)

/-! ## Address translator -/

theorem u16_natCast_of_sub (b o a s w : Nat) (h : s ≤ a) :
    u16 ((b : Int) + o + ((a : Int) - s) * w) = (b + o + (a - s) * w) % 65536 := by
  unfold u16
  have : ((b : Int) + o + ((a : Int) - s) * w) = ((b + o + (a - s) * w : Nat) : Int) := by
    push_cast [Nat.cast_sub h]
    ring
  rw [this]
  omega

theorem in_partition_iff (p : fg_dma_address) (x : Nat) :
    in_partition p x = true ↔ p.partition_start ≤ x ∧ x ≤ p.partition_end := by
  simp [in_partition]

theorem in_partition_eq_false_iff (p : fg_dma_address) (x : Nat) :
    in_partition p x = false ↔ ¬(p.partition_start ≤ x ∧ x ≤ p.partition_end) := by
  rw [← in_partition_iff]
  simp

theorem fg_get_dma_address_scan_eq (bpw a offset : Nat) (tbl : List fg_dma_address) :
    fg_get_dma_address_scan bpw a offset tbl =
      match tbl.find? (fun p => decide (p.partition_start ≤ a ∧ a ≤ p.partition_end)) with
      | some p => Except.ok ((p.spmi_addr_base + offset + (a - p.partition_start) * bpw) % 65536)
      | none => Except.error (- ENXIO) := by
  induction tbl with
  | nil => simp [fg_get_dma_address_scan]
  | cons p ps ih =>
    by_cases h : p.partition_start ≤ a ∧ a ≤ p.partition_end
    · simp [fg_get_dma_address_scan, in_partition, h, List.find?,
        u16_natCast_of_sub _ _ _ _ _ h.1]
    · have h' : in_partition p a = false := (in_partition_eq_false_iff p a).2 h
      simp [fg_get_dma_address_scan, h', List.find?, h, ih]

/-- C8: for every partition table, word address `a` and byte offset,
`fg_get_dma_address` returns, for the first partition with
`partition_start <= a <= partition_end`, the value
`spmi_addr_base + offset + (a - partition_start) * bytes_per_word` truncated
to 16 bits; it succeeds whenever some partition contains `a`; and when it
fails the error is `- ENXIO` and no partition contains `a`. -/
theorem fg_get_dma_address_spec (fg : fg_dev) (a offset : Nat) :
    (fg_get_dma_address fg a offset =
      match fg.sram.addr_map.find?
          (fun p => decide (p.partition_start ≤ a ∧ a ≤ p.partition_end)) with
      | some p => Except.ok ((p.spmi_addr_base + offset +
          (a - p.partition_start) * fg.sram.num_bytes_per_word) % 65536)
      | none => Except.error (- ENXIO)) ∧
    ((∃ p ∈ fg.sram.addr_map, p.partition_start ≤ a ∧ a ≤ p.partition_end) →
      ∃ v, fg_get_dma_address fg a offset = Except.ok v) ∧
    (∀ e, fg_get_dma_address fg a offset = Except.error e →
      e = - ENXIO ∧
        ∀ p ∈ fg.sram.addr_map, ¬(p.partition_start ≤ a ∧ a ≤ p.partition_end)) := by
  have heq := fg_get_dma_address_scan_eq fg.sram.num_bytes_per_word a offset fg.sram.addr_map
  refine ⟨heq, ?_, ?_⟩
  · rintro ⟨p, hp, hin⟩
    unfold fg_get_dma_address
    rw [heq]
    cases hf : fg.sram.addr_map.find?
        (fun p => decide (p.partition_start ≤ a ∧ a ≤ p.partition_end)) with
    | none =>
      have := List.find?_eq_none.1 hf p hp
      simp [hin] at this
    | some q => exact ⟨_, rfl⟩
  · intro e he
    unfold fg_get_dma_address at he
    rw [heq] at he
    cases hf : fg.sram.addr_map.find?
        (fun p => decide (p.partition_start ≤ a ∧ a ≤ p.partition_end)) with
    | none =>
      rw [hf] at he
      simp only [Except.error.injEq] at he
      refine ⟨he.symm, fun p hp => ?_⟩
      have := List.find?_eq_none.1 hf p hp
      simpa using this
    | some q =>
      rw [hf] at he
      simp at he

theorem scan_eq_partition_number (a e : Nat) (tbl : List fg_dma_address) (i : Nat)
    (s n : Int) :
    fg_get_partition_count_scan a e tbl i (s, n) =
      (partition_number a tbl i s, partition_number e tbl i n) := by
  induction tbl generalizing i s n with
  | nil => rfl
  | cons p ps ih => simp only [fg_get_partition_count_scan, partition_number, ih]

theorem partition_number_of_not_mem (x : Nat) (tbl : List fg_dma_address) (i : Nat)
    (acc : Int) (h : ∀ p ∈ tbl, in_partition p x = false) :
    partition_number x tbl i acc = acc := by
  induction tbl generalizing i acc with
  | nil => rfl
  | cons p ps ih =>
    simp only [partition_number, h p (List.mem_cons_self _ _)]
    exact ih _ _ (fun q hq => h q (List.mem_cons_of_mem _ hq))

theorem partition_number_of_mem (x : Nat) (tbl : List fg_dma_address)
    (hasc : TableAscending tbl) (i : Nat) (acc : Int) (j : Nat) (p : fg_dma_address)
    (hp : tbl[j]? = some p) (hx : p.partition_start ≤ x ∧ x ≤ p.partition_end) :
    partition_number x tbl i acc = (i : Int) + j + 1 := by
  induction tbl generalizing i acc j with
  | nil => simp at hp
  | cons q qs ih =>
    rw [TableAscending, List.pairwise_cons] at hasc
    cases j with
    | zero =>
      simp only [List.getElem?_cons_zero, Option.some.injEq] at hp
      subst hp
      have hin : in_partition q x = true := (in_partition_iff q x).2 hx
      simp only [partition_number, hin, if_true]
      rw [partition_number_of_not_mem]
      · simp
      · intro r hr
        have := hasc.1 r hr
        rw [in_partition_eq_false_iff]
        omega
    | succ j =>
      simp only [List.getElem?_cons_succ] at hp
      have hmem : p ∈ qs := List.getElem?_mem hp
      have hlt := hasc.1 p hmem
      have hin : in_partition q x = false := by
        rw [in_partition_eq_false_iff]
        omega
      simp only [partition_number, hin, Bool.false_eq_true, if_false]
      rw [ih hasc.2 (i + 1) acc j hp]
      push_cast
      ring

theorem gen3_ascending (k : fg_reg) : TableAscending (fg_gen3_addr_map k) := by
  simp [TableAscending, fg_gen3_addr_map]

theorem gen4_ascending (k : fg_reg) : TableAscending (fg_gen4_addr_map k) := by
  simp [TableAscending, fg_gen4_addr_map]

theorem gen3_partition_le (k : fg_reg) (j : Nat) (p : fg_dma_address)
    (hp : (fg_gen3_addr_map k)[j]? = some p) : p.partition_end ≤ 486 := by
  rcases j with _ | _ | _ | j <;> simp [fg_gen3_addr_map] at hp <;> subst hp <;> simp

theorem gen4_partition_le (k : fg_reg) (j : Nat) (p : fg_dma_address)
    (hp : (fg_gen4_addr_map k)[j]? = some p) : p.partition_end ≤ 486 := by
  rcases j with _ | _ | _ | _ | _ | _ | j <;> simp [fg_gen4_addr_map] at hp <;>
    subst hp <;> simp

/-- For a positive length and a word size of 4 or 2 the `u16 end_addr` of
`fg_get_partition_count` is the last word of the range,
`a + ceil(len / bytes_per_word) - 1`, as long as that fits 16 bits. -/
theorem partition_end_addr_of_pos (bpw a : Nat) (len : Int) (hb : bpw = 4 ∨ bpw = 2)
    (hlen : 1 ≤ len) (hlast : (a : Int) + (len + bpw - 1) / bpw - 1 < 65536) :
    (partition_end_addr bpw a len : Int) = (a : Int) + (len + bpw - 1) / bpw - 1 := by
  unfold partition_end_addr u16
  rw [Int.tdiv_eq_ediv (by omega) (by omega), Int.tmod_eq_emod (by omega) (by omega)]
  rcases hb with rfl | rfl <;> simp only [Nat.cast_ofNat] <;> split_ifs <;> omega

theorem partition_count_of_end (fg : fg_dev) (a : Nat) (len : Int) (e : Nat)
    (he : partition_end_addr fg.sram.num_bytes_per_word a len = e) :
    fg_get_partition_count fg a len =
      if a = e then Except.ok 1
      else
        let se := fg_get_partition_count_scan a e fg.sram.addr_map 0 (0, 0)
        if se.1 = 0 ∨ se.2 = 0 then Except.error (- ENXIO)
        else Except.ok ((se.2 - se.1) + 1) := by
  unfold fg_get_partition_count
  rw [he]

/-- C3: for the GEN3 table (4 bytes per word) and the GEN4 table (2 bytes per
word), every word address `a` in partition `i` and every length `len >= 1`:
if the last word `a + ceil(len / bytes_per_word) - 1` of the range lies in
the same partition, `fg_get_partition_count` succeeds with count 1; if it
lies in the next partition `i + 1`, it succeeds with count 2. -/
theorem partition_count_one_or_two (k : fg_reg) (fg : fg_dev)
    (hfg : (fg.sram.addr_map = fg_gen3_addr_map k ∧ fg.sram.num_bytes_per_word = 4) ∨
      (fg.sram.addr_map = fg_gen4_addr_map k ∧ fg.sram.num_bytes_per_word = 2))
    (a : Nat) (len : Int) (hlen : 1 ≤ len) (i : Nat) (p : fg_dma_address)
    (hp : fg.sram.addr_map[i]? = some p)
    (ha : p.partition_start ≤ a ∧ a ≤ p.partition_end) :
    ((p.partition_start : Int) ≤
          a + (len + fg.sram.num_bytes_per_word - 1) / fg.sram.num_bytes_per_word - 1 ∧
        (a : Int) + (len + fg.sram.num_bytes_per_word - 1) / fg.sram.num_bytes_per_word - 1 ≤
          p.partition_end →
      fg_get_partition_count fg a len = Except.ok 1) ∧
    (∀ q, fg.sram.addr_map[i + 1]? = some q →
      (q.partition_start : Int) ≤
          a + (len + fg.sram.num_bytes_per_word - 1) / fg.sram.num_bytes_per_word - 1 ∧
        (a : Int) + (len + fg.sram.num_bytes_per_word - 1) / fg.sram.num_bytes_per_word - 1 ≤
          q.partition_end →
      fg_get_partition_count fg a len = Except.ok 2) := by
  have hasc : TableAscending fg.sram.addr_map := by
    rcases hfg with ⟨h, _⟩ | ⟨h, _⟩ <;> rw [h]
    · exact gen3_ascending k
    · exact gen4_ascending k
  have hle : ∀ (j : Nat) (q : fg_dma_address),
      fg.sram.addr_map[j]? = some q → q.partition_end ≤ 486 := by
    intro j q hq
    rcases hfg with ⟨h, _⟩ | ⟨h, _⟩ <;> rw [h] at hq
    · exact gen3_partition_le k j q hq
    · exact gen4_partition_le k j q hq
  have hb : fg.sram.num_bytes_per_word = 4 ∨ fg.sram.num_bytes_per_word = 2 := by
    rcases hfg with ⟨_, h⟩ | ⟨_, h⟩ <;> simp [h]
  have hend := partition_end_addr_of_pos fg.sram.num_bytes_per_word a len hb hlen
  have hcount := partition_count_of_end fg a len _ rfl
  generalize partition_end_addr fg.sram.num_bytes_per_word a len = e at hend hcount
  generalize (a : Int) + (len + fg.sram.num_bytes_per_word - 1) /
    fg.sram.num_bytes_per_word - 1 = last at hend
  rw [hcount, scan_eq_partition_number,
    partition_number_of_mem a _ hasc 0 0 i p hp ha]
  refine ⟨fun hl => ?_, fun q hq hl => ?_⟩
  · have he := hend (by have := hle i p hp; omega)
    rw [partition_number_of_mem e _ hasc 0 0 i p hp (by omega)]
    by_cases h1 : a = e
    · rw [if_pos h1]
    · rw [if_neg h1]
      simp only [Nat.cast_zero, zero_add]
      rw [if_neg (by omega)]
      simp
  · have he := hend (by have := hle (i + 1) q hq; omega)
    rw [partition_number_of_mem e _ hasc 0 0 (i + 1) q hq (by omega)]
    have hpq : p.partition_end < q.partition_start := by
      obtain ⟨h1, e1⟩ := List.getElem?_eq_some.1 hp
      obtain ⟨h2, e2⟩ := List.getElem?_eq_some.1 hq
      have := List.pairwise_iff_getElem.1 hasc i (i + 1) h1 h2 (by omega)
      rw [e1, e2] at this
      exact this
    rw [if_neg (by omega)]
    simp only [Nat.cast_zero, zero_add]
    rw [if_neg (by omega)]
    simp only [Nat.cast_add, Nat.cast_one]
    congr 1
    ring

/-- Witness for C3: in the GEN3 table, 6 bytes from word 22 end in word 23 of
the same partition (count 1) and 6 bytes from word 23 end in word 24 of the
next partition (count 2). -/
theorem partition_count_one_or_two_witness :
    fg_get_partition_count (gen3_dev sample_reg) 22 6 = Except.ok 1 ∧
    fg_get_partition_count (gen3_dev sample_reg) 23 6 = Except.ok 2 :=
  ⟨(partition_count_one_or_two sample_reg (gen3_dev sample_reg) (Or.inl ⟨rfl, rfl⟩) 22 6
      (by decide) 0 ⟨0, 23, 0x4820⟩ rfl (by decide)).1 (by decide),
   (partition_count_one_or_two sample_reg (gen3_dev sample_reg) (Or.inl ⟨rfl, rfl⟩) 23 6
      (by decide) 0 ⟨0, 23, 0x4820⟩ rfl (by decide)).2 ⟨24, 79, 0x4920⟩ rfl (by decide)⟩

theorem partition_end_addr_200_4 : partition_end_addr 4 200 4 = 200 := by decide

theorem partition_end_addr_200_8 : partition_end_addr 4 200 8 = 201 := by decide

/-- C9 (evaluation at the failing input): in the GEN3 table no partition
contains word 200, yet for a one-word request (`len = 4`) at word 200
`fg_get_partition_count` takes the early return and reports count 1; the
two-word request (`len = 8`) at the same address goes through the scan and
fails with `- ENXIO`. -/
theorem partition_count_single_word_unchecked (k : fg_reg) :
    (∀ p ∈ (gen3_dev k).sram.addr_map, ¬(p.partition_start ≤ 200 ∧ 200 ≤ p.partition_end)) ∧
    fg_get_partition_count (gen3_dev k) 200 4 = Except.ok 1 ∧
    fg_get_partition_count (gen3_dev k) 200 8 = Except.error (- ENXIO) := by
  refine ⟨by simp [gen3_dev, fg_gen3_addr_map], ?_, ?_⟩
  · simp [fg_get_partition_count, gen3_dev, partition_end_addr_200_4]
  · simp [fg_get_partition_count, gen3_dev, partition_end_addr_200_8, fg_gen3_addr_map,
      fg_get_partition_count_scan, in_partition]

/-! ## DMA transaction engine: the request phase -/

theorem fg_poll_alg_active_idle (k : fg_reg) (bus : Bus) (t : Trace) (fuel : Nat)
    (hok : BusOk bus) (hidle : ∀ h, (bus h alg_active_op).val &&& k.ALG_ACTIVE_BIT = 0) :
    fg_poll_alg_active k (fuel + 1) bus t = some (0, t ++ run_ops bus t [alg_active_op]) := by
  have := hidle t
  unfold alg_active_op at this
  simp [fg_poll_alg_active, fg_poll_alg_active_loop, fg_read, hok _ _, this, run_ops,
    alg_active_op]

/-- When all bus operations succeed and the request phase starts, the request
is the prefix operations followed by the grant-poll loop. -/
theorem fg_direct_mem_request_prefix_eq (k : fg_reg) (fg : fg_dev) (bus : Bus) (t : Trace)
    (fuel : Nat) (hok : BusOk bus) (hst : RequestStarts k fg bus) :
    fg_direct_mem_request k fg (fuel + 1) bus t =
      match fg_direct_mem_request_loop bus (mem_gnt_poll_bit k fg) (fuel + 1) 0
          (t ++ run_ops bus t (request_prefix_ops k fg)) with
      | none => none
      | some (Except.ok (), t1) => some (0, t1)
      | some (Except.error rc, t1) => some (fg_direct_mem_request_release k bus rc t1) := by
  by_cases hwa : fg.wa_flags &&& k.PM8150B_V1_DMA_WA = 0
  · simp [fg_direct_mem_request, hwa, fg_masked_write, hok _ _, arb_request_op,
      dma_request_op, request_prefix_ops, run_ops]
  · have hidle := hst.resolve_left hwa
    simp [fg_direct_mem_request, hwa, fg_masked_write, hok _ _, arb_request_op,
      dma_request_op, request_prefix_ops, run_ops,
      fg_poll_alg_active_idle k bus t fuel hok hidle]

/-- With the grant bit clear in every poll, the grant loop entered with
`i = 50 - n` issues exactly `n` polls and leaves with the time-out. -/
theorem fg_direct_mem_request_loop_timeout (k : fg_reg) (fg : fg_dev) (bus : Bus)
    (hok : BusOk bus) (hng : GrantClear k fg bus) (n : Nat) :
    ∀ (i : Int) (t : Trace) (fuel : Nat), i + n = MEM_GNT_RETRIES → n + 1 ≤ fuel →
      fg_direct_mem_request_loop bus (mem_gnt_poll_bit k fg) fuel i t =
        some (Except.error (-ETIMEDOUT),
          t ++ run_ops bus t (List.replicate n grant_poll_op)) := by
  induction n with
  | zero =>
    intro i t fuel hi hf
    obtain ⟨f, rfl⟩ : ∃ f, fuel = f + 1 := ⟨fuel - 1, by omega⟩
    simp only [fg_direct_mem_request_loop, List.replicate, run_ops, List.append_nil]
    rw [if_neg (by simp at hi; omega)]
  | succ n ih =>
    intro i t fuel hi hf
    obtain ⟨f, rfl⟩ : ∃ f, fuel = f + 1 := ⟨fuel - 1, by omega⟩
    have hng' := hng t
    have hrun := ih (i + 1)
      (t ++ [⟨grant_poll_op, bus t grant_poll_op⟩]) f (by push_cast at hi; omega) (by omega)
    unfold grant_poll_op at hng' hrun
    simp only [fg_direct_mem_request_loop, fg_read]
    rw [if_pos (by push_cast at hi; omega)]
    simp only [hok _ _, lt_self_iff_false, if_false, hng', ne_eq, not_true_eq_false]
    rw [hrun]
    simp [grant_poll_op, run_ops, List.replicate]

theorem fg_direct_mem_request_loop_granted (k : fg_reg) (fg : fg_dev) (bus : Bus)
    (hok : BusOk bus) (hg : GrantSet k fg bus) (t : Trace) (fuel : Nat) :
    fg_direct_mem_request_loop bus (mem_gnt_poll_bit k fg) (fuel + 1) 0 t =
      some (Except.ok (), t ++ run_ops bus t [grant_poll_op]) := by
  have hg' := hg t
  unfold grant_poll_op at hg'
  simp [fg_direct_mem_request_loop, fg_read, hok _ _, hg', MEM_GNT_RETRIES, grant_poll_op,
    run_ops]

theorem fg_direct_mem_release_ok (k : fg_reg) (bus : Bus) (t : Trace) (hok : BusOk bus) :
    fg_direct_mem_release k bus t =
      (0, t ++ run_ops bus t [release_op k, arb_release_op k]) := by
  simp [fg_direct_mem_release, fg_masked_write, hok _ _, run_ops, release_op, arb_release_op]


theorem run_ops_replicate_succ (bus : Bus) (t : Trace) (op : Op) (n : Nat) :
    t ++ run_ops bus t (List.replicate (n + 1) op) =
      (t ++ [⟨op, bus t op⟩]) ++
        run_ops bus (t ++ [⟨op, bus t op⟩]) (List.replicate n op) := by
  simp [List.replicate_succ, run_ops]

/-- With all bus operations succeeding and the algorithm-active bit low in
the poll number `n`, the poll loop entered with more than `n` retries left
stops at the first poll that shows the bit low. -/
theorem fg_poll_alg_active_loop_passes (k : fg_reg) (bus : Bus) (hok : BusOk bus) :
    ∀ (n retries val : Nat) (rc : Int) (t : Trace) (fuel : Nat), n < retries →
      retries + 1 ≤ fuel →
      (bus (t ++ run_ops bus t (List.replicate n alg_active_op)) alg_active_op).val &&&
        k.ALG_ACTIVE_BIT = 0 →
      ∃ m v, m ≤ n ∧ v &&& k.ALG_ACTIVE_BIT = 0 ∧
        fg_poll_alg_active_loop k bus fuel retries val rc t =
          some (Except.ok (v, 0),
            t ++ run_ops bus t (List.replicate (m + 1) alg_active_op)) := by
  intro n
  induction n with
  | zero =>
    intro retries val rc t fuel hn hf hlow
    obtain ⟨f, rfl⟩ : ∃ f, fuel = f + 1 := ⟨fuel - 1, by omega⟩
    simp only [List.replicate, run_ops, List.append_nil] at hlow
    refine ⟨0, (bus t alg_active_op).val, le_rfl, hlow, ?_⟩
    unfold alg_active_op at hlow
    simp [fg_poll_alg_active_loop, fg_read, hok _ _, hlow, run_ops, alg_active_op,
      Nat.pos_iff_ne_zero.1 hn]
  | succ n ih =>
    intro retries val rc t fuel hn hf hlow
    obtain ⟨f, rfl⟩ : ∃ f, fuel = f + 1 := ⟨fuel - 1, by omega⟩
    by_cases h0 : (bus t alg_active_op).val &&& k.ALG_ACTIVE_BIT = 0
    · refine ⟨0, (bus t alg_active_op).val, by omega, h0, ?_⟩
      unfold alg_active_op at h0
      simp [fg_poll_alg_active_loop, fg_read, hok _ _, h0, run_ops, alg_active_op,
        Nat.pos_iff_ne_zero.1 (by omega : 0 < retries)]
    · rw [run_ops_replicate_succ] at hlow
      obtain ⟨m, v, hm, hv, h1⟩ := ih (retries - 1) (bus t alg_active_op).val
        (bus t alg_active_op).rc (t ++ [⟨alg_active_op, bus t alg_active_op⟩]) f
        (by omega) (by omega) hlow
      refine ⟨m + 1, v, by omega, hv, ?_⟩
      rw [run_ops_replicate_succ, ← h1]
      unfold alg_active_op at h0 ⊢
      simp [fg_poll_alg_active_loop, fg_read, hok _ _, h0,
        Nat.pos_iff_ne_zero.1 (by omega : 0 < retries)]

theorem fg_poll_alg_active_passes (k : fg_reg) (bus : Bus) (hok : BusOk bus) (t : Trace)
    (fuel : Nat) (hf : 36 ≤ fuel) (n : Nat) (hn : n < 35)
    (hlow : (bus (t ++ run_ops bus t (List.replicate n alg_active_op)) alg_active_op).val &&&
      k.ALG_ACTIVE_BIT = 0) :
    ∃ m, fg_poll_alg_active k fuel bus t =
      some (0, t ++ run_ops bus t (List.replicate (m + 1) alg_active_op)) := by
  obtain ⟨m, v, _, hv, h1⟩ := fg_poll_alg_active_loop_passes k bus hok n 35 0 0 t fuel hn
    (by omega) hlow
  refine ⟨m, ?_⟩
  unfold fg_poll_alg_active
  rw [h1]
  simp [hv]

/-- With all bus operations succeeding, the algorithm-active poll passed and
the grant bit clear in every poll, the request phase issues its polls of the
algorithm-active status, the two request writes and 50 grant polls, and
leaves through the label `release:` with `-ETIMEDOUT`. -/
theorem fg_direct_mem_request_timeout (k : fg_reg) (fg : fg_dev) (bus : Bus) (t : Trace)
    (fuel : Nat) (hok : BusOk bus) (hng : GrantClear k fg bus)
    (hst : AlgPollPasses k fg bus t) (hf : 51 ≤ fuel) :
    ∃ j, fg_direct_mem_request k fg fuel bus t =
      some (fg_direct_mem_request_release k bus (-ETIMEDOUT)
        (t ++ run_ops bus t (List.replicate j alg_active_op ++
          [arb_request_op k, dma_request_op k] ++ List.replicate 50 grant_poll_op))) := by
  have h0 : ∃ j, (if fg.wa_flags &&& k.PM8150B_V1_DMA_WA ≠ 0 then
      fg_poll_alg_active k fuel bus t else some (0, t)) =
      some (0, t ++ run_ops bus t (List.replicate j alg_active_op)) := by
    by_cases hwa : fg.wa_flags &&& k.PM8150B_V1_DMA_WA = 0
    · exact ⟨0, by simp [hwa, run_ops]⟩
    · obtain ⟨n, hn, hlow⟩ := hst.resolve_left hwa
      obtain ⟨m, hm⟩ := fg_poll_alg_active_passes k bus hok t fuel (by omega) n hn hlow
      exact ⟨m + 1, by rw [if_pos hwa, hm]⟩
  obtain ⟨j, h0⟩ := h0
  refine ⟨j, ?_⟩
  unfold fg_direct_mem_request
  rw [h0]
  simp only [fg_masked_write, hok _ _, lt_self_iff_false, if_false]
  rw [fg_direct_mem_request_loop_timeout k fg bus hok hng 50 0 _ fuel (by decide) (by omega)]
  simp only [run_ops_append, run_ops, arb_request_op, dma_request_op, List.append_assoc,
    List.singleton_append, List.cons_append, List.nil_append, List.append_nil]


theorem alg_stuck_bus_ok : BusOk alg_stuck_bus := by
  intro h op
  unfold alg_stuck_bus
  split_ifs <;> rfl

theorem alg_late_bus_ok : BusOk alg_late_bus := by
  intro h op
  unfold alg_late_bus
  split_ifs <;> rfl

theorem alg_stuck_bus_grant_clear (k : fg_reg) (fg : fg_dev) : GrantClear k fg alg_stuck_bus := by
  intro h
  simp [alg_stuck_bus, grant_poll_op, alg_active_op, Reply.val]

theorem alg_late_bus_grant_clear (k : fg_reg) (fg : fg_dev) : GrantClear k fg alg_late_bus := by
  intro h
  simp [alg_late_bus, grant_poll_op, alg_active_op, Reply.val]

/-- Counterexample to C7 as stated: a GEN4 device with the PM8150B v1 DMA
work-around flag set, a resolvable one-partition read (2 words at word 10),
all bus operations succeeding, the grant bit clear in every read of the grant
status, and the algorithm-active bit stuck high.  `fg_direct_mem_read`
returns `-ETIMEDOUT` after the 35 polls of `fg_poll_alg_active`: it has
issued no grant poll and no write of the release sequence. -/
theorem dma_read_grant_timeout_counterexample :
    BusOk alg_stuck_bus ∧ GrantClear sample_reg (gen4_wa_dev sample_reg) alg_stuck_bus ∧
    fg_get_partition_count (gen4_wa_dev sample_reg) 10 4 = Except.ok 1 ∧
    (fg_direct_mem_read sample_reg (gen4_wa_dev sample_reg) 60 alg_stuck_bus [] 10 0 4).map
        (fun r => (r.1, r.2.length, count_op grant_poll_op r.2,
          count_op (release_op sample_reg) r.2, count_op (arb_release_op sample_reg) r.2)) =
      some (-ETIMEDOUT, 35, 0, 0, 0) :=
  ⟨alg_stuck_bus_ok, alg_stuck_bus_grant_clear _ _, rfl, by decide⟩

/-- C7 (amended): `fg_direct_mem_read` on a request whose partition count
resolves, when all bus operations succeed, the request phase gets past the
algorithm-active poll (the PM8150B v1 work-around does not apply, or the
algorithm-active bit reads low in one of its 35 polls) and the grant bit is
clear in every poll: the operation returns `-ETIMEDOUT`; before the release
it has issued exactly 50 grant polls and no raw data transfer; and its last
two bus operations are the masked write clearing
`MEM_ACCESS_REQ | IACS_SLCT` and the masked write clearing `MEM_ARB_REQ`
(both succeeding, as all operations do). -/
theorem dma_read_grant_timeout (k : fg_reg) (fg : fg_dev) (bus : Bus) (t : Trace)
    (sram_addr offset : Nat) (len : Int) (fuel : Nat) (n : Int)
    (hoff : offset ≤ 3) (hcnt : fg_get_partition_count fg sram_addr len = Except.ok n)
    (hok : BusOk bus) (hng : GrantClear k fg bus) (hst : AlgPollPasses k fg bus t)
    (hfuel : 51 ≤ fuel) :
    ∃ s, fg_direct_mem_read k fg fuel bus t sram_addr offset len =
        some (-ETIMEDOUT,
          t ++ s ++ run_ops bus (t ++ s) [release_op k, arb_release_op k]) ∧
      count_op grant_poll_op s = 50 ∧
      raw_transfers s = [] := by
  obtain ⟨j, hreq⟩ := fg_direct_mem_request_timeout k fg bus t fuel hok hng hst hfuel
  refine ⟨run_ops bus t (List.replicate j alg_active_op ++
    [arb_request_op k, dma_request_op k] ++ List.replicate 50 grant_poll_op), ?_, ?_, ?_⟩
  · simp only [fg_direct_mem_read, __fg_direct_mem_rw, hcnt]
    rw [if_neg (by omega), hreq]
    simp only [fg_direct_mem_request_release, fg_direct_mem_release_ok k bus _ hok]
    simp [ETIMEDOUT]
  · rw [count_op_run_ops]
    simp [List.count_append, List.count_replicate, grant_poll_op, alg_active_op,
      arb_request_op, dma_request_op]
  · rw [raw_transfers_run_ops]
    simp [grant_poll_op, alg_active_op, arb_request_op, dma_request_op, is_raw_transfer,
      List.filter_replicate]

/-- Witness for C7 (amended): a GEN4 device with the work-around flag set, the
algorithm-active bit high in the first three polls and low in the fourth, the
grant bit never set, a two-word read at word 10. -/
theorem dma_read_grant_timeout_witness :
    AlgPollPasses sample_reg (gen4_wa_dev sample_reg) alg_late_bus [] ∧
    ∃ s, fg_direct_mem_read sample_reg (gen4_wa_dev sample_reg) 60 alg_late_bus [] 10 0 4 =
        some (-ETIMEDOUT,
          [] ++ s ++ run_ops alg_late_bus ([] ++ s)
            [release_op sample_reg, arb_release_op sample_reg]) ∧
      count_op grant_poll_op s = 50 ∧
      raw_transfers s = [] :=
  ⟨Or.inr ⟨3, by decide, by decide⟩,
    dma_read_grant_timeout sample_reg (gen4_wa_dev sample_reg) alg_late_bus [] 10 0 4 60 1
      (by decide) rfl alg_late_bus_ok (alg_late_bus_grant_clear _ _)
      (Or.inr ⟨3, by decide, by decide⟩) (by decide)⟩

/-! ## DMA transaction engine: the transfer loop -/

/-- Once the grant is given, `__fg_direct_mem_rw` is the request prefix, one
grant poll, the transfer loop and the release. -/
theorem fg_direct_mem_rw_granted (k : fg_reg) (fg : fg_dev) (bus : Bus) (t : Trace)
    (sram_addr offset : Nat) (val : List Nat) (len : Int) (access : Bool) (fuel : Nat)
    (n : Int) (hoff : offset ≤ 3)
    (hcnt : fg_get_partition_count fg sram_addr len = Except.ok n)
    (hok : BusOk bus) (hg : GrantSet k fg bus) (hst : RequestStarts k fg bus) :
    __fg_direct_mem_rw k fg (fuel + 1) bus t sram_addr offset val len access =
      (fg_direct_mem_rw_loop fg bus access (fuel + 1) n sram_addr offset val len 0
        (t ++ run_ops bus t (request_prefix_ops k fg ++ [grant_poll_op]))).map
        (fun r => (r.1, r.2 ++ run_ops bus r.2 [release_op k, arb_release_op k])) := by
  simp only [__fg_direct_mem_rw, hcnt]
  rw [if_neg (by omega), fg_direct_mem_request_prefix_eq k fg bus t fuel hok hst,
    fg_direct_mem_request_loop_granted k fg bus hok hg]
  simp only [lt_self_iff_false, if_false, run_ops_append, List.append_assoc]
  cases hl : fg_direct_mem_rw_loop fg bus access (fuel + 1) n sram_addr offset val len 0
      (t ++ (run_ops bus t (request_prefix_ops k fg) ++
        run_ops bus (t ++ run_ops bus t (request_prefix_ops k fg)) [grant_poll_op])) with
  | none => rfl
  | some r =>
    obtain ⟨rc1, t1⟩ := r
    simp [fg_direct_mem_release_ok k bus _ hok]

theorem raw_transfers_request_prefix_ops (k : fg_reg) (fg : fg_dev) :
    (request_prefix_ops k fg).filter is_raw_transfer = [] := by
  simp only [request_prefix_ops]
  split_ifs <;> simp [alg_active_op, arb_request_op, dma_request_op, is_raw_transfer]

theorem u16_natCast (n : Nat) : u16 (n : Int) = n % 65536 := by
  unfold u16
  omega

theorem find_partition_of_mem (x : Nat) (tbl : List fg_dma_address)
    (hasc : TableAscending tbl) (j : Nat) (p : fg_dma_address)
    (hp : tbl[j]? = some p) (hx : p.partition_start ≤ x ∧ x ≤ p.partition_end) :
    tbl.find? (fun q => decide (q.partition_start ≤ x ∧ x ≤ q.partition_end)) = some p := by
  induction tbl generalizing j with
  | nil => simp at hp
  | cons q qs ih =>
    rw [TableAscending, List.pairwise_cons] at hasc
    cases j with
    | zero =>
      simp only [List.getElem?_cons_zero, Option.some.injEq] at hp
      subst hp
      simp [List.find?, hx]
    | succ j =>
      simp only [List.getElem?_cons_succ] at hp
      have hlt := hasc.1 p (List.getElem?_mem hp)
      have hq : ¬(q.partition_start ≤ x ∧ x ≤ q.partition_end) := by omega
      simp only [List.find?, hq, decide_False]
      exact ih hasc.2 j hp

theorem dma_address_of_mem (fg : fg_dev) (hasc : TableAscending fg.sram.addr_map)
    (j : Nat) (p : fg_dma_address) (hp : fg.sram.addr_map[j]? = some p) (a offset : Nat)
    (ha : p.partition_start ≤ a ∧ a ≤ p.partition_end) :
    fg_get_dma_address fg a offset =
      Except.ok ((p.spmi_addr_base + offset +
        (a - p.partition_start) * fg.sram.num_bytes_per_word) % 65536) := by
  unfold fg_get_dma_address
  rw [fg_get_dma_address_scan_eq, find_partition_of_mem a _ hasc j p hp ha]

theorem avail_bytes_scan_eq (bpw a : Nat) (tbl : List fg_dma_address) :
    fg_get_partition_avail_bytes_scan bpw a tbl =
      match tbl.find? (fun p => decide (p.partition_start ≤ a ∧ a ≤ p.partition_end)) with
      | some p => (((p.partition_end : Int) - p.partition_start + 1) * bpw, p.partition_end)
      | none => (0, 0) := by
  induction tbl with
  | nil => simp [fg_get_partition_avail_bytes_scan]
  | cons p ps ih =>
    by_cases h : p.partition_start ≤ a ∧ a ≤ p.partition_end
    · simp [fg_get_partition_avail_bytes_scan, in_partition, h, List.find?]
    · have h' : in_partition p a = false := (in_partition_eq_false_iff p a).2 h
      simp [fg_get_partition_avail_bytes_scan, h', List.find?, h, ih]

theorem avail_bytes_of_mem (fg : fg_dev) (hasc : TableAscending fg.sram.addr_map)
    (hbpw : 0 < fg.sram.num_bytes_per_word)
    (j : Nat) (p : fg_dma_address) (hp : fg.sram.addr_map[j]? = some p) (a : Nat) (len : Int)
    (ha : p.partition_start ≤ a ∧ a ≤ p.partition_end) :
    fg_get_partition_avail_bytes fg a len =
      Except.ok ((((p.partition_end - a + 1) * fg.sram.num_bytes_per_word : Nat) : Int)) := by
  unfold fg_get_partition_avail_bytes
  rw [avail_bytes_scan_eq, find_partition_of_mem a _ hasc j p hp ha]
  simp only
  have h1 : ((p.partition_end : Int) - p.partition_start + 1) * fg.sram.num_bytes_per_word =
      (((p.partition_end - p.partition_start + 1) * fg.sram.num_bytes_per_word : Nat) : Int) := by
    push_cast [Nat.cast_sub (le_trans ha.1 ha.2)]
    ring
  have h2 : ((p.partition_end : Int) - a + 1) * fg.sram.num_bytes_per_word =
      (((p.partition_end - a + 1) * fg.sram.num_bytes_per_word : Nat) : Int) := by
    push_cast [Nat.cast_sub ha.2]
    ring
  rw [h1, h2]
  have h3 : (p.partition_end - a + 1) * fg.sram.num_bytes_per_word ≤
      (p.partition_end - p.partition_start + 1) * fg.sram.num_bytes_per_word :=
    Nat.mul_le_mul_right _ (by omega)
  have h4 : 0 < (p.partition_end - a + 1) * fg.sram.num_bytes_per_word :=
    Nat.mul_pos (by omega) hbpw
  rw [if_neg (by omega), if_neg (by omega)]

theorem rw_loop_exit (fg : fg_dev) (bus : Bus) (access : Bool) (fuel : Nat) (np : Int)
    (a offset : Nat) (ptr : List Nat) (len rc : Int) (t : Trace) (h : np = 0 ∨ len = 0) :
    fg_direct_mem_rw_loop fg bus access (fuel + 1) np a offset ptr len rc t = some (rc, t) := by
  simp only [fg_direct_mem_rw_loop]
  rw [if_neg (by tauto)]

theorem rw_loop_step (fg : fg_dev) (bus : Bus) (hok : BusOk bus) (access : Bool) (fuel : Nat)
    (np : Int) (a offset : Nat) (ptr : List Nat) (len rc : Int) (t : Trace)
    (hnp : np ≠ 0) (hlen : len ≠ 0) (addr : Nat) (avail : Int)
    (haddr : fg_get_dma_address fg a offset = Except.ok addr)
    (havail : fg_get_partition_avail_bytes fg (u16 ((a : Int) + offset)) len = Except.ok avail) :
    fg_direct_mem_rw_loop fg bus access (fuel + 1) np a offset ptr len rc t =
      fg_direct_mem_rw_loop fg bus access fuel (np - 1)
        (u16 ((a : Int) +
          Int.tdiv (if avail > len then len else avail) fg.sram.num_bytes_per_word)) 0
        (ptr.drop (if avail > len then len else avail).toNat)
        (len - (if avail > len then len else avail)) 0
        (t ++ run_ops bus t
          [transfer_op access addr ptr (if avail > len then len else avail)]) := by
  simp only [fg_direct_mem_rw_loop]
  rw [if_pos ⟨hnp, hlen⟩]
  simp only [haddr, havail]
  by_cases hacc : access = FG_READ
  · simp [hacc, fg_read, hok _ _, transfer_op, run_ops]
  · simp [hacc, fg_write, hok _ _, transfer_op, run_ops]

theorem partition_end_addr_six :
    partition_end_addr 4 22 6 = 23 ∧ partition_end_addr 4 23 6 = 24 ∧
    partition_end_addr 4 78 6 = 79 ∧ partition_end_addr 4 79 6 = 80 := by decide

theorem gen3_count_six (k : fg_reg) (fg : fg_dev) (hmap : fg.sram.addr_map = fg_gen3_addr_map k)
    (hbpw : fg.sram.num_bytes_per_word = 4) :
    fg_get_partition_count fg 22 6 = Except.ok 1 ∧
    fg_get_partition_count fg 23 6 = Except.ok 2 ∧
    fg_get_partition_count fg 78 6 = Except.ok 1 ∧
    fg_get_partition_count fg 79 6 = Except.ok 2 := by
  obtain ⟨h1, h2, h3, h4⟩ := partition_end_addr_six
  refine ⟨?_, ?_, ?_, ?_⟩ <;>
    simp [fg_get_partition_count, hmap, hbpw, h1, h2, h3, h4, fg_gen3_addr_map,
      fg_get_partition_count_scan, in_partition]

theorem u16_small : u16 22 = 22 ∧ u16 23 = 23 ∧ u16 24 = 24 ∧ u16 78 = 78 ∧ u16 79 = 79 ∧
    u16 80 = 80 := by decide

/-- One 6-byte sub-transfer inside a partition with at least two words left. -/
theorem dma_write_six_inside (k : fg_reg) (fg : fg_dev)
    (hmap : fg.sram.addr_map = fg_gen3_addr_map k) (hbpw : fg.sram.num_bytes_per_word = 4)
    (bus : Bus) (hok : BusOk bus) (hg : GrantSet k fg bus) (hst : RequestStarts k fg bus)
    (t : Trace) (val : List Nat) (atomic_access : Bool) (fuel : Nat) (hfuel : 3 ≤ fuel)
    (j : Nat) (p : fg_dma_address) (hp : (fg_gen3_addr_map k)[j]? = some p) (a : Nat)
    (ha : p.partition_start ≤ a ∧ a + 1 ≤ p.partition_end)
    (hcnt : fg_get_partition_count fg a 6 = Except.ok 1) :
    ∃ tr, fg_direct_mem_write k fg fuel bus t a 0 val 6 atomic_access = some (0, t ++ tr) ∧
      raw_transfers tr =
        [Op.write (Addr.dma ((p.spmi_addr_base + (a - p.partition_start) * 4) % 65536))
          (val.take 6) 6] := by
  obtain ⟨f, rfl⟩ : ∃ f, fuel = f + 3 := ⟨fuel - 3, by omega⟩
  have hasc : TableAscending fg.sram.addr_map := hmap ▸ gen3_ascending k
  have hp' : fg.sram.addr_map[j]? = some p := hmap ▸ hp
  have hle := gen3_partition_le k j p hp
  have hu : u16 ((a : Int) + (0 : Nat)) = a := by
    rw [Nat.cast_zero, add_zero, u16_natCast]; omega
  have haddr := dma_address_of_mem fg hasc j p hp' a 0 ⟨ha.1, by omega⟩
  have havail := avail_bytes_of_mem fg hasc (by omega) j p hp' a 6 ⟨ha.1, by omega⟩
  have havail' : fg_get_partition_avail_bytes fg (u16 ((a : Int) + (0 : Nat))) 6 =
      Except.ok ((((p.partition_end - a + 1) * fg.sram.num_bytes_per_word : Nat) : Int)) := by
    rw [hu]; exact havail
  refine ⟨?_, ?_, ?_⟩
  rotate_left
  · rw [fg_direct_mem_write, fg_direct_mem_rw_granted k fg bus t a 0 val 6 FG_WRITE (f + 2) 1
      (by omega) hcnt hok hg hst,
      rw_loop_step fg bus hok FG_WRITE (f + 2) 1 a 0 val 6 0 _ (by decide) (by decide) _ _
        haddr havail',
      rw_loop_exit _ _ _ (f + 1) _ _ _ _ _ _ _ (Or.inl (by decide))]
    simp only [Option.map_some', List.append_assoc]
    exact rfl
  · have hnb : (if (((p.partition_end - a + 1) * fg.sram.num_bytes_per_word : Nat) : Int) > 6
        then (6 : Int) else (((p.partition_end - a + 1) * fg.sram.num_bytes_per_word : Nat) : Int))
        = 6 := by
      rw [if_pos]
      rw [hbpw]
      have : 2 ≤ p.partition_end - a + 1 := by omega
      push_cast
      omega
    simp only [hnb]
    simp [hbpw, raw_transfers_append, raw_transfers_run_ops, raw_transfers_request_prefix_ops,
      grant_poll_op, is_raw_transfer, release_op, arb_release_op, transfer_op, FG_WRITE,
      FG_READ]


/-- A 6-byte write starting at the last word of a partition: 4 bytes there and
2 bytes at the base of the next partition. -/
theorem dma_write_six_across (k : fg_reg) (fg : fg_dev)
    (hmap : fg.sram.addr_map = fg_gen3_addr_map k) (hbpw : fg.sram.num_bytes_per_word = 4)
    (bus : Bus) (hok : BusOk bus) (hg : GrantSet k fg bus) (hst : RequestStarts k fg bus)
    (t : Trace) (val : List Nat) (atomic_access : Bool) (fuel : Nat) (hfuel : 4 ≤ fuel)
    (j : Nat) (p q : fg_dma_address) (hp : (fg_gen3_addr_map k)[j]? = some p)
    (hq : (fg_gen3_addr_map k)[j + 1]? = some q)
    (hpw : p.partition_start ≤ p.partition_end) (hqw : q.partition_start ≤ q.partition_end)
    (hcontig : q.partition_start = p.partition_end + 1)
    (hcnt : fg_get_partition_count fg p.partition_end 6 = Except.ok 2) :
    ∃ tr, fg_direct_mem_write k fg fuel bus t p.partition_end 0 val 6 atomic_access =
        some (0, t ++ tr) ∧
      raw_transfers tr =
        [Op.write (Addr.dma ((p.spmi_addr_base +
            (p.partition_end - p.partition_start) * 4) % 65536)) (val.take 4) 4,
          Op.write (Addr.dma (q.spmi_addr_base % 65536)) ((val.drop 4).take 2) 2] := by
  obtain ⟨f, rfl⟩ : ∃ f, fuel = f + 4 := ⟨fuel - 4, by omega⟩
  have hasc : TableAscending fg.sram.addr_map := hmap ▸ gen3_ascending k
  have hp' : fg.sram.addr_map[j]? = some p := hmap ▸ hp
  have hq' : fg.sram.addr_map[j + 1]? = some q := hmap ▸ hq
  have hle := gen3_partition_le k j p hp
  have hu : u16 ((p.partition_end : Int) + (0 : Nat)) = p.partition_end := by
    rw [Nat.cast_zero, add_zero, u16_natCast]; omega
  have haddr := dma_address_of_mem fg hasc j p hp' p.partition_end 0 ⟨hpw, le_refl _⟩
  have havail : fg_get_partition_avail_bytes fg (u16 ((p.partition_end : Int) + (0 : Nat))) 6 =
      Except.ok 4 := by
    rw [hu, avail_bytes_of_mem fg hasc (by omega) j p hp' p.partition_end 6 ⟨hpw, le_refl _⟩,
      hbpw]
    simp
  have hnext : u16 ((p.partition_end : Int) +
      Int.tdiv (if (4 : Int) > 6 then 6 else 4) fg.sram.num_bytes_per_word) = q.partition_start := by
    rw [hbpw, hcontig]
    have : Int.tdiv (if (4 : Int) > 6 then 6 else 4) ((4 : Nat) : Int) = 1 := by decide
    rw [this]
    unfold u16
    omega
  have hu2 : u16 ((q.partition_start : Int) + (0 : Nat)) = q.partition_start := by
    rw [Nat.cast_zero, add_zero, u16_natCast]; omega
  have haddr2 := dma_address_of_mem fg hasc (j + 1) q hq' q.partition_start 0 ⟨le_refl _, hqw⟩
  have havail2 : fg_get_partition_avail_bytes fg (u16 ((q.partition_start : Int) + (0 : Nat)))
      (6 - (if (4 : Int) > 6 then 6 else 4)) =
      Except.ok ((((q.partition_end - q.partition_start + 1) * 4 : Nat) : Int)) := by
    rw [hu2, avail_bytes_of_mem fg hasc (by omega) (j + 1) q hq' q.partition_start _
      ⟨le_refl _, hqw⟩, hbpw]
  have hnb : (if (((q.partition_end - q.partition_start + 1) * 4 : Nat) : Int) >
        6 - (if (4 : Int) > 6 then 6 else 4)
      then 6 - (if (4 : Int) > 6 then 6 else 4)
      else (((q.partition_end - q.partition_start + 1) * 4 : Nat) : Int)) = 2 := by
    rw [if_pos]
    · decide
    · have : (6 : Int) - (if (4 : Int) > 6 then 6 else 4) = 2 := by decide
      rw [this]
      push_cast
      omega
  refine ⟨?_, ?_, ?_⟩
  rotate_left
  · rw [fg_direct_mem_write, fg_direct_mem_rw_granted k fg bus t p.partition_end 0 val 6 FG_WRITE
        (f + 3) 2 (by omega) hcnt hok hg hst,
      rw_loop_step fg bus hok FG_WRITE (f + 3) 2 p.partition_end 0 val 6 0 _ (by decide)
        (by decide) _ _ haddr havail,
      hnext,
      rw_loop_step fg bus hok FG_WRITE (f + 2) (2 - 1) q.partition_start 0 _ _ 0 _ (by decide)
        (by decide) _ _ haddr2 havail2,
      rw_loop_exit _ _ _ (f + 1) _ _ _ _ _ _ _ (Or.inl (by decide))]
    simp only [Option.map_some', List.append_assoc]
    exact rfl
  · simp only [hnb]
    simp [hbpw, raw_transfers_append, raw_transfers_run_ops, raw_transfers_request_prefix_ops,
      grant_poll_op, is_raw_transfer, release_op, arb_release_op, transfer_op, FG_WRITE,
      FG_READ]

/-- C4 (as amended): GEN3 table, 4 bytes per word, all bus operations
succeeding and the grant given.  For every partition `p` that has a
successor `q`: a 6-byte `fg_direct_mem_write` at word `partition_end - 1`
with offset 0 succeeds with exactly one raw data write, of 6 bytes, which
ends inside `p`; the same write at word `partition_end` (the last word of
`p`) succeeds with exactly two raw data writes, 4 bytes ending at the last
byte of `p` and 2 bytes at the 16-bit address `spmi_addr_base` of `q`, inside
`q`. -/
theorem dma_write_six_bytes_split (k : fg_reg) (fg : fg_dev)
    (hmap : fg.sram.addr_map = fg_gen3_addr_map k) (hbpw : fg.sram.num_bytes_per_word = 4)
    (bus : Bus) (hok : BusOk bus) (hg : GrantSet k fg bus) (hst : RequestStarts k fg bus)
    (t : Trace) (val : List Nat) (atomic_access : Bool) (fuel : Nat) (hfuel : 4 ≤ fuel)
    (i : Nat) (p q : fg_dma_address) (hp : (fg_gen3_addr_map k)[i]? = some p)
    (hq : (fg_gen3_addr_map k)[i + 1]? = some q) :
    (∃ tr, fg_direct_mem_write k fg fuel bus t (p.partition_end - 1) 0 val 6 atomic_access =
        some (0, t ++ tr) ∧
      raw_transfers tr =
        [Op.write (Addr.dma ((p.spmi_addr_base +
            (p.partition_end - 1 - p.partition_start) * 4) % 65536)) (val.take 6) 6] ∧
      (p.partition_end - 1 - p.partition_start) * 4 + 6 ≤
        (p.partition_end - p.partition_start + 1) * 4) ∧
    (∃ tr, fg_direct_mem_write k fg fuel bus t p.partition_end 0 val 6 atomic_access =
        some (0, t ++ tr) ∧
      raw_transfers tr =
        [Op.write (Addr.dma ((p.spmi_addr_base +
            (p.partition_end - p.partition_start) * 4) % 65536)) (val.take 4) 4,
          Op.write (Addr.dma (q.spmi_addr_base % 65536)) ((val.drop 4).take 2) 2] ∧
      (p.partition_end - p.partition_start) * 4 + 4 ≤
        (p.partition_end - p.partition_start + 1) * 4 ∧
      2 ≤ (q.partition_end - q.partition_start + 1) * 4) := by
  obtain ⟨c1, c2, c3, c4⟩ := gen3_count_six k fg hmap hbpw
  rcases i with _ | _ | i
  · have hp0 := hp
    have hq0 := hq
    simp [fg_gen3_addr_map] at hp hq
    subst hp hq
    obtain ⟨tr1, h1, r1⟩ := dma_write_six_inside k fg hmap hbpw bus hok hg hst t val
      atomic_access fuel (by omega) 0 _ hp0 22 (by simp) c1
    obtain ⟨tr2, h2, r2⟩ := dma_write_six_across k fg hmap hbpw bus hok hg hst t val
      atomic_access fuel hfuel 0 _ _ hp0 hq0 (by simp) (by simp) rfl c2
    exact ⟨⟨tr1, h1, r1, by simp⟩, ⟨tr2, h2, r2, by simp, by simp⟩⟩
  · have hp0 := hp
    have hq0 := hq
    simp [fg_gen3_addr_map] at hp hq
    subst hp hq
    obtain ⟨tr1, h1, r1⟩ := dma_write_six_inside k fg hmap hbpw bus hok hg hst t val
      atomic_access fuel (by omega) 1 _ hp0 78 (by simp) c3
    obtain ⟨tr2, h2, r2⟩ := dma_write_six_across k fg hmap hbpw bus hok hg hst t val
      atomic_access fuel hfuel 1 _ _ hp0 hq0 (by simp) (by simp) rfl c4
    exact ⟨⟨tr1, h1, r1, by simp⟩, ⟨tr2, h2, r2, by simp, by simp⟩⟩
  · simp [fg_gen3_addr_map] at hq

/-- Witness for C4: the sample constants, a GEN3 device and the bus on which
every status bit reads as set, at partition 0 (words 0..23) with successor
partition 1. -/
theorem dma_write_six_bytes_split_witness :
    (∃ tr, fg_direct_mem_write sample_reg (gen3_dev sample_reg) 10 ones_bus [] (23 - 1) 0
        [1, 2, 3, 4, 5, 6] 6 false = some (0, [] ++ tr) ∧
      raw_transfers tr =
        [Op.write (Addr.dma ((0x4820 + (23 - 1 - 0) * 4) % 65536))
          ([1, 2, 3, 4, 5, 6].take 6) 6] ∧
      (23 - 1 - 0) * 4 + 6 ≤ (23 - 0 + 1) * 4) ∧
    (∃ tr, fg_direct_mem_write sample_reg (gen3_dev sample_reg) 10 ones_bus [] 23 0
        [1, 2, 3, 4, 5, 6] 6 false = some (0, [] ++ tr) ∧
      raw_transfers tr =
        [Op.write (Addr.dma ((0x4820 + (23 - 0) * 4) % 65536)) ([1, 2, 3, 4, 5, 6].take 4) 4,
          Op.write (Addr.dma (0x4920 % 65536)) (([1, 2, 3, 4, 5, 6].drop 4).take 2) 2] ∧
      (23 - 0) * 4 + 4 ≤ (23 - 0 + 1) * 4 ∧
      2 ≤ (79 - 24 + 1) * 4) :=
  dma_write_six_bytes_split sample_reg (gen3_dev sample_reg) rfl rfl ones_bus
    (fun _ _ => rfl)
    (fun _ => (by decide : (ones_bus [] grant_poll_op).val &&&
      mem_gnt_poll_bit sample_reg (gen3_dev sample_reg) ≠ 0))
    (Or.inl (by decide)) [] [1, 2, 3, 4, 5, 6] false 10
    (by decide) 0 ⟨0, 23, 0x4820⟩ ⟨24, 79, 0x4920⟩ rfl rfl

/-- Counterexample to C4 as stated: on the GEN3 table, a 6-byte write at word
22 (`partition_end - 1` of partition 0, which has a successor) with offset 0,
all bus operations succeeding and the grant given, issues one raw data write
of 6 bytes, not two. -/
theorem dma_write_six_bytes_counterexample :
    (fg_direct_mem_write sample_reg (gen3_dev sample_reg) 10 ones_bus [] 22 0
        [1, 2, 3, 4, 5, 6] 6 false).map (fun r => (r.1, raw_transfers r.2)) =
      some (0, [Op.write (Addr.dma 0x4878) [1, 2, 3, 4, 5, 6] 6]) := by
  decide

/-- C10 (evaluation at the failing input): GEN3 table, word 23 (the last word
of partition 0, whose bytes are `0x4820 .. 0x487F`), offset 1, 4 bytes, all
bus operations succeeding.  `__fg_direct_mem_rw` issues a single raw
transfer of 4 bytes at `0x487D`, whose last byte `0x4880` lies past the last
byte of the partition: the available length was computed for word
`sram_addr + offset = 24`, which belongs to partition 1. -/
theorem dma_transfer_crosses_partition :
    (fg_direct_mem_write sample_reg (gen3_dev sample_reg) 10 ones_bus [] 23 1
        [1, 2, 3, 4] 4 false).map (fun r => (r.1, raw_transfers r.2)) =
      some (0, [Op.write (Addr.dma 0x487D) [1, 2, 3, 4] 4]) ∧
    (fg_direct_mem_read sample_reg (gen3_dev sample_reg) 10 ones_bus [] 23 1 4).map
        (fun r => (r.1, raw_transfers r.2)) =
      some (0, [Op.read (Addr.dma 0x487D) 4]) ∧
    fg_get_partition_avail_bytes (gen3_dev sample_reg) (u16 (23 + 1)) 4 = Except.ok 224 ∧
    0x487D + 4 - 1 > 0x4820 + (23 - 0 + 1) * 4 - 1 := by
  refine ⟨by decide, by decide, rfl, by decide⟩

/-! ## IMA error check and clear sequence -/

/-- With all bus operations succeeding the trigger loop of the clear sequence
never leaves through a `return rc`. -/
theorem clear_loop_ok (fg : fg_dev) (bus : Bus) (hok : BusOk bus) (fuel : Nat) :
    ∀ (tries : Int) (t : Trace) (r : Except Int Int) (t1 : Trace),
      fg_run_iacs_clear_sequence_loop fg bus fuel tries t = some (r, t1) →
      ∃ n, r = Except.ok n := by
  induction fuel with
  | zero => intro tries t r t1 h; simp [fg_run_iacs_clear_sequence_loop] at h
  | succ fuel ih =>
    intro tries t r t1 h
    simp only [fg_run_iacs_clear_sequence_loop, fg_write, fg_read, hok _ _,
      lt_self_iff_false, if_false] at h
    split_ifs at h <;>
      first
        | exact ih _ _ _ _ h
        | (simp only [Option.some.injEq, Prod.mk.injEq] at h
           exact ⟨_, h.1.symm⟩)

/-- With all bus operations succeeding the clear sequence, when it returns,
returns 0. -/
theorem clear_sequence_ok (k : fg_reg) (fg : fg_dev) (bus : Bus) (hok : BusOk bus)
    (fuel : Nat) (t : Trace) (rc : Int) (t1 : Trace)
    (h : fg_run_iacs_clear_sequence k fg fuel bus t = some (rc, t1)) : rc = 0 := by
  simp only [fg_run_iacs_clear_sequence, fg_config_access_mode, fg_masked_write, hok _ _,
    lt_self_iff_false, if_false] at h
  split at h
  · simp at h
  · rename_i rc' t' heq
    obtain ⟨n, hn⟩ := clear_loop_ok fg bus hok _ _ _ _ _ heq
    simp at hn
  · simp only [Option.some.injEq, Prod.mk.injEq] at h
    exact h.1.symm

theorem nibble_eq (x : Nat) : (x &&& 0x0F ≠ x >>> 4) ↔ x % 16 ≠ x / 16 := by
  have h1 : x &&& 0x0F = x % 16 := Nat.and_pow_two_sub_one_eq_mod x 4
  have h2 : x >>> 4 = x / 16 := Nat.shiftRight_eq_div_pow x 4
  rw [h1, h2]

/-- C6: `fg_clear_ima_errors_if_any(check_hw_sts)` with all bus operations
succeeding.  It reads `exp_sts`, `hw_sts` and `err_sts`.  If (`check_hw_sts`
is set and the low nibble of `hw_sts` differs from its high nibble) or
`exp_sts` has one of the bits `IACS_ERR`, `XCT_TYPE_ERR`, `DATA_RD_ERR`,
`DATA_WR_ERR`, `ADDR_BURST_WRAP`, `ADDR_STABLE_ERR` set, then, whenever the
clear sequence started after the three reads returns, the function returns
`-EAGAIN` with exactly the trace of that one run of
`fg_run_iacs_clear_sequence`; otherwise it returns 0 right after the three
reads, without running the clear sequence. -/
theorem clear_ima_errors_retry_iff (k : fg_reg) (fg : fg_dev) (fuel : Nat) (bus : Bus)
    (t : Trace) (check_hw_sts : Bool) (hok : BusOk bus) :
    let t3 := t ++ run_ops bus t [Op.read (Addr.reg Reg.MEM_IF_IMA_EXP_STS 0) 1,
      Op.read (Addr.reg Reg.MEM_IF_IMA_HW_STS 0) 1, Op.read (Addr.reg Reg.MEM_IF_IMA_ERR_STS 0) 1]
    let exp_sts := (bus t (Op.read (Addr.reg Reg.MEM_IF_IMA_EXP_STS 0) 1)).val
    let hw_sts := (bus (t ++ run_ops bus t [Op.read (Addr.reg Reg.MEM_IF_IMA_EXP_STS 0) 1])
      (Op.read (Addr.reg Reg.MEM_IF_IMA_HW_STS 0) 1)).val
    let error_seen := (check_hw_sts = true ∧ hw_sts % 16 ≠ hw_sts / 16) ∨
      exp_sts &&& (k.IACS_ERR_BIT ||| k.XCT_TYPE_ERR_BIT ||| k.DATA_RD_ERR_BIT |||
        k.DATA_WR_ERR_BIT ||| k.ADDR_BURST_WRAP_BIT ||| k.ADDR_STABLE_ERR_BIT) ≠ 0
    (error_seen → ∀ rc1 t1, fg_run_iacs_clear_sequence k fg fuel bus t3 = some (rc1, t1) →
      fg_clear_ima_errors_if_any k fg fuel bus t check_hw_sts = some (- EAGAIN, t1)) ∧
    (¬error_seen → fg_clear_ima_errors_if_any k fg fuel bus t check_hw_sts = some (0, t3)) := by
  intro t3 exp_sts hw_sts error_seen
  refine ⟨fun he rc1 t1 h1 => ?_, fun he => ?_⟩
  · have hrc := clear_sequence_ok k fg bus hok fuel t3 rc1 t1 h1
    subst hrc
    simp only [fg_clear_ima_errors_if_any, fg_read, hok _ _, lt_self_iff_false, if_false,
      nibble_eq, ima_exp_err_mask]
    rw [if_pos (by simpa [error_seen, exp_sts, hw_sts, run_ops] using he)]
    have h1' := h1
    simp only [t3, run_ops, List.append_assoc, List.singleton_append, List.nil_append,
      List.cons_append] at h1'
    simp only [List.append_assoc, List.singleton_append, List.nil_append, List.cons_append,
      h1', lt_self_iff_false, if_false]
  · simp only [fg_clear_ima_errors_if_any, fg_read, hok _ _, lt_self_iff_false, if_false,
      nibble_eq, ima_exp_err_mask]
    rw [if_neg (by simpa [error_seen, exp_sts, hw_sts, run_ops] using he)]
    simp [t3, run_ops]

theorem nibble_mismatch_bus_ok : BusOk nibble_mismatch_bus := by
  intro h op
  unfold nibble_mismatch_bus
  split
  · split <;> rfl
  · rfl

/-- Witness for C6: hardware-status nibbles differ at the first check and
agree after one pass of the clear sequence; `fg_clear_ima_errors_if_any(true)`
makes exactly one pass and returns `-EAGAIN`. -/
theorem clear_ima_errors_retry_iff_witness :
    fg_clear_ima_errors_if_any sample_reg (gen3_dev sample_reg) 10 nibble_mismatch_bus []
        true =
      some (- EAGAIN, run_ops nibble_mismatch_bus []
        [Op.read (Addr.reg Reg.MEM_IF_IMA_EXP_STS 0) 1,
          Op.read (Addr.reg Reg.MEM_IF_IMA_HW_STS 0) 1,
          Op.read (Addr.reg Reg.MEM_IF_IMA_ERR_STS 0) 1,
          Op.masked_write (Addr.reg Reg.MEM_IF_IMA_CFG 0) 0x14 0x14,
          Op.masked_write (Addr.reg Reg.MEM_IF_IMA_CTL 0) 0xC0 0,
          Op.masked_write (Addr.reg Reg.MEM_IF_MEM_INTF_CFG 0) 0xA0 0xA0,
          Op.write (Addr.reg Reg.MEM_IF_ADDR_MSB 0) [0] 1,
          Op.write (Addr.reg Reg.MEM_IF_WR_DATA3 0) [0] 1,
          Op.read (Addr.reg Reg.MEM_IF_RD_DATA3 0) 1,
          Op.read (Addr.reg Reg.MEM_IF_IMA_HW_STS 0) 1,
          Op.read (Addr.reg Reg.MEM_IF_IMA_EXP_STS 0) 1,
          Op.masked_write (Addr.reg Reg.MEM_IF_IMA_CFG 0) 0x04 0,
          Op.masked_write (Addr.reg Reg.MEM_IF_MEM_INTF_CFG 0) 0xA0 0]) :=
  (clear_ima_errors_retry_iff sample_reg (gen3_dev sample_reg) 10 nibble_mismatch_bus []
    true nibble_mismatch_bus_ok).1 (Or.inl ⟨rfl, by decide⟩) 0 _ rfl

/-! ## IMA transaction engine: steps on a bus that fails or answers nominally -/

theorem Quiet.nil (k : fg_reg) : Quiet k [] := by
  intro e he; simp at he

theorem Quiet.append {k : fg_reg} {a b : Trace} (ha : Quiet k a) (hb : Quiet k b) :
    Quiet k (a ++ b) := by
  intro e he
  rcases List.mem_append.1 he with h | h
  · exact ha e h
  · exact hb e h

theorem Quiet.single {k : fg_reg} {e : Event}
    (he : e.op ≠ release_op k ∧ e.op ≠ acquire_op k ∧ e.op ≠ beat_count_op) :
    Quiet k [e] := by
  intro x hx
  rw [List.mem_singleton] at hx
  subst hx
  exact he

theorem FailsIn.mono {bus : Bus} {lo hi lo' hi' : Nat} (h : FailsIn bus lo hi)
    (h1 : lo' ≤ lo) (h2 : hi ≤ hi') : FailsIn bus lo' hi' := by
  obtain ⟨x, op, a, b, c⟩ := h
  exact ⟨x, op, by omega, by omega, c⟩

/-- An outcome of a later step is an outcome of the whole stretch. -/
theorem Outcome.extend {bus : Bus} {t s1 s2 : Trace} {rc : Int}
    (h : Outcome bus (t ++ s1) s2 rc) : Outcome bus t (s1 ++ s2) rc := by
  rcases h with h | ⟨h1, h2⟩
  · exact Or.inl h
  · refine Or.inr ⟨h1, h2.mono (by simp) (by simp)⟩

/-- A single bus operation that is neither release, acquire nor beat read. -/
theorem GoodStep.op {k : fg_reg} {bus : Bus} (hs : SemiNominal k bus) (t : Trace) (op : Op)
    (hq : op ≠ release_op k ∧ op ≠ acquire_op k ∧ op ≠ beat_count_op) :
    GoodStep k bus t (some ((bus t op).rc, t ++ [⟨op, bus t op⟩])) := by
  refine ⟨_, _, rfl, Quiet.single hq, ?_⟩
  rcases hs t op with h | h
  · exact Or.inr ⟨h, ⟨t, op, le_refl _, by simp, h⟩⟩
  · exact Or.inl h.1

/-- The C idiom `rc = step; if (rc < 0) return rc; rest`. -/
theorem GoodStep.step {k : fg_reg} {bus : Bus} {t t1 : Trace} {rc : Int}
    {rest : Option (Int × Trace)}
    (hx : GoodStep k bus t (some (rc, t1))) (hrest : rc = 0 → GoodStep k bus t1 rest) :
    GoodStep k bus t (if rc < 0 then some (rc, t1) else rest) := by
  obtain ⟨rc', s, he, hq, ho⟩ := hx
  simp only [Option.some.injEq, Prod.mk.injEq] at he
  obtain ⟨rfl, rfl⟩ := he
  rcases ho with h0 | ⟨hneg, hf⟩
  · rw [if_neg (by omega)]
    obtain ⟨rc2, s2, he2, hq2, ho2⟩ := hrest h0
    exact ⟨rc2, s ++ s2, by rw [he2, List.append_assoc], hq.append hq2, ho2.extend⟩
  · rw [if_pos hneg]
    exact ⟨rc, s, rfl, hq, Or.inr ⟨hneg, hf⟩⟩

/-- The same idiom with the pair kept together. -/
theorem GoodStep.step_pair {k : fg_reg} {bus : Bus} {t : Trace} {x : Int × Trace}
    {rest : Option (Int × Trace)}
    (hx : GoodStep k bus t (some x)) (hrest : x.1 = 0 → GoodStep k bus x.2 rest) :
    GoodStep k bus t (if x.1 < 0 then some x else rest) := by
  obtain ⟨a, b⟩ := x
  exact GoodStep.step hx hrest

/-- A step that returns what an earlier good step has produced. -/
theorem GoodStep.ret {k : fg_reg} {bus : Bus} (t : Trace) :
    GoodStep k bus t (some (0, t)) :=
  ⟨0, [], by simp, Quiet.nil k, Or.inl rfl⟩

/-- Reporting a failure of a good step as `-EIO` keeps it good. -/
theorem GoodStep.remap_eio {k : fg_reg} {bus : Bus} {t : Trace} {x : Int × Trace}
    (h : GoodStep k bus t (some x)) :
    GoodStep k bus t (some (if x.1 < 0 then - EIO else x.1, x.2)) := by
  obtain ⟨rc, s, he, hq, ho⟩ := h
  simp only [Option.some.injEq] at he
  subst he
  rcases ho with h0 | ⟨hneg, hf⟩
  · exact ⟨rc, s, by simp [h0], hq, Or.inl h0⟩
  · exact ⟨- EIO, s, by simp [hneg], hq, Or.inr ⟨by decide, hf⟩⟩

theorem nominal_of_rc {k : fg_reg} {bus : Bus} (hs : SemiNominal k bus) (t : Trace) (op : Op)
    (h : (bus t op).rc = 0) : NominalReply k op (bus t op) :=
  (hs t op).resolve_left (by omega)

theorem fg_set_address_good (k : fg_reg) (fg : fg_dev) (bus : Bus) (hs : SemiNominal k bus)
    (t : Trace) (address : Nat) :
    GoodStep k bus t (some (fg_set_address fg bus t address)) := by
  simp only [fg_set_address, fg_write]
  exact GoodStep.op hs t _ (by simp [release_op, acquire_op, beat_count_op])

theorem fg_config_access_mode_good (k : fg_reg) (bus : Bus) (hs : SemiNominal k bus)
    (t : Trace) (access burst : Bool) :
    GoodStep k bus t (some (fg_config_access_mode k bus t access burst)) := by
  simp only [fg_config_access_mode, fg_masked_write]
  have h := GoodStep.op hs t (Op.masked_write (Addr.reg Reg.MEM_IF_IMA_CTL 0) k.IMA_CTL_MASK
      ((if access = FG_WRITE then k.IMA_WR_EN_BIT else 0) |||
        (if burst then k.MEM_ACS_BURST_BIT else 0)))
      (by simp [release_op, acquire_op, beat_count_op])
  obtain ⟨rc, s, he, hq, ho⟩ := h
  simp only [Option.some.injEq, Prod.mk.injEq] at he
  obtain ⟨h1, h2⟩ := he
  rcases ho with h0 | ⟨hneg, hf⟩
  · rw [if_neg (by omega)]
    exact ⟨rc, s, by rw [h1, h2], hq, Or.inl h0⟩
  · rw [if_pos (by omega)]
    exact ⟨- EIO, s, by rw [h2], hq, Or.inr ⟨by decide, hf⟩⟩

theorem fg_clear_ima_errors_good (k : fg_reg) (fg : fg_dev) (bus : Bus)
    (hs : SemiNominal k bus) (fuel : Nat) (t : Trace) :
    GoodStep k bus t (fg_clear_ima_errors_if_any k fg fuel bus t false) := by
  simp only [fg_clear_ima_errors_if_any, fg_read]
  refine GoodStep.step (GoodStep.op hs t _ (by simp [release_op, acquire_op, beat_count_op]))
    (fun h1 => ?_)
  refine GoodStep.step (GoodStep.op hs _ _ (by simp [release_op, acquire_op, beat_count_op]))
    (fun h2 => ?_)
  refine GoodStep.step (GoodStep.op hs _ _ (by simp [release_op, acquire_op, beat_count_op]))
    (fun h3 => ?_)
  have hn := (nominal_of_rc hs t _ h1).2.2.2 rfl
  simp only [Bool.false_and, Bool.false_or, hn, ne_eq, not_true_eq_false, decide_False,
    Bool.false_eq_true, if_false, h3]
  exact GoodStep.ret _


theorem fg_check_iacs_ready_good (k : fg_reg) (fg : fg_dev) (bus : Bus)
    (hs : SemiNominal k bus) (fuel : Nat) (t : Trace) :
    GoodStep k bus t (fg_check_iacs_ready k fg (fuel + 1) bus t) := by
  have hop := GoodStep.op hs t (Op.read (Addr.reg Reg.MEM_IF_IMA_OPR_STS 0) 1)
    (by simp [release_op, acquire_op, beat_count_op])
  simp only [fg_check_iacs_ready, fg_check_iacs_ready_loop, fg_read]
  rcases hs t (Op.read (Addr.reg Reg.MEM_IF_IMA_OPR_STS 0) 1) with h | h
  · rw [if_pos h]
    obtain ⟨rc, s, he, hq, ho⟩ := hop
    simp only [Option.some.injEq, Prod.mk.injEq] at he
    refine ⟨rc, s, by rw [← he.1, ← he.2], hq, ho⟩
  · rw [if_neg (by rw [h.1]; decide), if_pos (h.2.2.1 rfl)]
    simp only [show ¬ ((250 : Int) = 0) by decide, if_false]
    obtain ⟨rc, s, he, hq, ho⟩ := hop
    simp only [Option.some.injEq, Prod.mk.injEq] at he
    exact ⟨0, s, by rw [← he.2], hq, Or.inl rfl⟩

theorem ima_num_bytes_pos (fg : fg_dev) (offset len : Int)
    (hb : fg.sram.num_bytes_per_word ≤ 255) (ho : 0 ≤ offset)
    (hob : offset < fg.sram.num_bytes_per_word) (hlen : 0 < len) :
    0 < (ima_num_bytes fg offset len : Int) ∧ (ima_num_bytes fg offset len : Int) ≤ len := by
  unfold ima_num_bytes u8
  split_ifs <;> omega

/-- The word loop of a read: good for every length the fuel covers. -/
theorem fg_interleaved_mem_read_loop_good (k : fg_reg) (fg : fg_dev) (bus : Bus)
    (hs : SemiNominal k bus) (hb : fg.sram.num_bytes_per_word ≤ 255) (fuel : Nat) :
    ∀ (address : Nat) (offset len : Int) (t : Trace), 0 ≤ offset →
      offset < fg.sram.num_bytes_per_word → len.toNat + 2 ≤ fuel →
      GoodStep k bus t (fg_interleaved_mem_read_loop k fg bus fuel address offset len 0 t) := by
  induction fuel with
  | zero => intro _ _ _ _ _ _ h; omega
  | succ fuel ih =>
    intro address offset len t ho hob hf
    simp only [fg_interleaved_mem_read_loop]
    by_cases hlen : len > 0
    · rw [if_pos hlen]
      obtain ⟨hn1, hn2⟩ := ima_num_bytes_pos fg offset len hb ho hob hlen
      simp only [fg_read]
      refine GoodStep.step (GoodStep.op hs t _ (by simp [release_op, acquire_op, beat_count_op]))
        (fun h1 => ?_)
      obtain ⟨rc1, s1, e1, q1, o1⟩ := fg_clear_ima_errors_good k fg bus hs fuel
        (t ++ [⟨Op.read (Addr.reg Reg.MEM_IF_RD_DATA0 offset) (ima_num_bytes fg offset len),
          bus t (Op.read (Addr.reg Reg.MEM_IF_RD_DATA0 offset) (ima_num_bytes fg offset len))⟩])
      rw [e1]
      dsimp only
      refine GoodStep.step ⟨rc1, s1, rfl, q1, o1⟩ (fun h2 => ?_)
      subst h2
      obtain ⟨f, rfl⟩ : ∃ f, fuel = f + 1 := ⟨fuel - 1, by omega⟩
      -- the address / access mode update
      have hupd : ∀ (a : Nat × Int × Trace),
          GoodStep k bus (t ++ [⟨Op.read (Addr.reg Reg.MEM_IF_RD_DATA0 offset)
            (ima_num_bytes fg offset len),
            bus t (Op.read (Addr.reg Reg.MEM_IF_RD_DATA0 offset)
              (ima_num_bytes fg offset len))⟩] ++ s1) (some a.2) →
          GoodStep k bus (t ++ [⟨Op.read (Addr.reg Reg.MEM_IF_RD_DATA0 offset)
            (ima_num_bytes fg offset len),
            bus t (Op.read (Addr.reg Reg.MEM_IF_RD_DATA0 offset)
              (ima_num_bytes fg offset len))⟩] ++ s1)
            (if a.2.1 < 0 then some a.2 else
              match fg_check_iacs_ready k fg (f + 1) bus a.2.2 with
              | none => none
              | some (rc2, t2) =>
                if rc2 < 0 then some (rc2, t2) else
                fg_interleaved_mem_read_loop k fg bus (f + 1) a.1 0
                  (len - ima_num_bytes fg offset len) rc2 t2) := by
        intro a ha
        obtain ⟨a1, a2, a3⟩ := a
        refine GoodStep.step ha (fun h3 => ?_)
        obtain ⟨rc2, s2, e2, q2, o2⟩ := fg_check_iacs_ready_good k fg bus hs f a3
        simp only at e2 ⊢
        rw [e2]
        dsimp only
        refine GoodStep.step ⟨rc2, s2, rfl, q2, o2⟩ (fun h4 => ?_)
        subst h4
        exact ih a1 0 _ _ (le_refl _) (by omega) (by omega)
      refine hupd _ ?_
      by_cases hsm : fg.use_ima_single_mode = true
      · rw [if_pos hsm]
        split_ifs
        · exact fg_set_address_good k fg bus hs _ _
        · exact GoodStep.ret _
      · rw [if_neg hsm]
        by_cases hc : len - ima_num_bytes fg offset len ≠ 0 ∧
            len - ima_num_bytes fg offset len < fg.sram.num_bytes_per_word
        · rw [if_pos hc]
          exact GoodStep.remap_eio (fg_config_access_mode_good k bus hs _ _ _)
        · rw [if_neg hc]
          exact GoodStep.ret _
    · rw [if_neg hlen]
      exact GoodStep.ret _


/-- The word loop of a write: good for every length the fuel covers. -/
theorem fg_interleaved_mem_write_loop_good (k : fg_reg) (fg : fg_dev) (bus : Bus)
    (hs : SemiNominal k bus) (hb : fg.sram.num_bytes_per_word ≤ 255) (fuel : Nat) :
    ∀ (address : Nat) (offset : Int) (ptr : List Nat) (len : Int) (t : Trace), 0 ≤ offset →
      offset < fg.sram.num_bytes_per_word → len.toNat + 2 ≤ fuel →
      GoodStep k bus t
        (fg_interleaved_mem_write_loop k fg bus fuel address offset ptr len 0 t) := by
  induction fuel with
  | zero => intro _ _ _ _ _ _ _ h; omega
  | succ fuel ih =>
    intro address offset ptr len t ho hob hf
    simp only [fg_interleaved_mem_write_loop]
    by_cases hlen : len > 0
    · rw [if_pos hlen]
      obtain ⟨hn1, hn2⟩ := ima_num_bytes_pos fg offset len hb ho hob hlen
      obtain ⟨f, rfl⟩ : ∃ f, fuel = f + 1 := ⟨fuel - 1, by omega⟩
      refine GoodStep.step_pair
        (by simp only [fg_write]
            exact GoodStep.op hs t _ (by simp [release_op, acquire_op, beat_count_op]))
        (fun h1 => ?_)
      refine GoodStep.step_pair
        (by simp only [fg_write]
            exact GoodStep.op hs _ _ (by simp [release_op, acquire_op, beat_count_op]))
        (fun h2 => ?_)
      refine GoodStep.step_pair ?_ (fun h3 => ?_)
      · split_ifs
        · simp only [fg_write]
          exact GoodStep.op hs _ _ (by simp [release_op, acquire_op, beat_count_op])
        · simp only [fg_write]
          exact GoodStep.op hs _ _ (by simp [release_op, acquire_op, beat_count_op])
        · exact ⟨_, [], by simp, Quiet.nil k, Or.inl h2⟩
      · generalize (if fg.version = fg_version.GEN3_FG ∧
            ima_byte_enable offset (ima_num_bytes fg offset len) &&& BIT 3 = 0 then _
          else _ : Int × Trace) = w3
        obtain ⟨rc1, s1, e1, q1, o1⟩ := fg_clear_ima_errors_good k fg bus hs (f + 1) w3.2
        rw [e1]
        dsimp only
        refine GoodStep.step ⟨rc1, s1, rfl, q1, o1⟩ (fun h4 => ?_)
        subst h4
        refine GoodStep.step_pair ?_ (fun h5 => ?_)
        · split_ifs
          · exact fg_set_address_good k fg bus hs _ _
          · exact GoodStep.ret _
        · generalize (if fg.use_ima_single_mode = true ∧
              len - ima_num_bytes fg offset len ≠ 0 then _ else _ : Nat × Int × Trace) = a
          obtain ⟨rc2, s2, e2, q2, o2⟩ := fg_check_iacs_ready_good k fg bus hs f a.2.2
          rw [e2]
          dsimp only
          refine GoodStep.step ⟨rc2, s2, rfl, q2, o2⟩ (fun h6 => ?_)
          subst h6
          exact ih a.1 0 _ _ _ (le_refl _) (by omega) (by omega)
    · rw [if_neg hlen]
      exact GoodStep.ret _

theorem is_mem_access_available_semi (k : fg_reg) (bus : Bus) (hs : SemiNominal k bus)
    (fuel : Nat) (t : Trace) :
    is_mem_access_available k (fuel + 1) bus t =
      some (true, t ++ [⟨access_status_op, bus t access_status_op⟩]) := by
  simp only [is_mem_access_available, is_mem_access_available_loop, fg_read, access_status_op]
  rcases hs t (Op.read (Addr.reg Reg.MEM_IF_MEM_INTF_CFG 0) 1) with h | h
  · rw [if_pos h]
    simp only [Option.some.injEq, Prod.mk.injEq, decide_eq_true_eq, and_true]
    omega
  · rw [if_neg (by rw [h.1]; decide), if_pos (h.2.1 rfl)]

/-- The configuration step: the status read, the acquire write, and a quiet
rest. -/
theorem fg_interleaved_mem_config_semi (k : fg_reg) (fg : fg_dev) (bus : Bus)
    (hs : SemiNominal k bus) (fuel : Nat) (t : Trace) (address : Nat) (offset len : Int)
    (access : Bool) :
    ∃ rc s, fg_interleaved_mem_config k fg (fuel + 1) bus t address offset len access =
        some (rc, t ++ [⟨access_status_op, bus t access_status_op⟩] ++
          [⟨acquire_op k, bus (t ++ [⟨access_status_op, bus t access_status_op⟩])
            (acquire_op k)⟩] ++ s) ∧
      Quiet k s ∧
      Outcome bus t ([⟨access_status_op, bus t access_status_op⟩] ++
          [⟨acquire_op k, bus (t ++ [⟨access_status_op, bus t access_status_op⟩])
            (acquire_op k)⟩] ++ s) rc := by
  simp only [fg_interleaved_mem_config, is_mem_access_available_semi k bus hs fuel t,
    Bool.true_eq_false, if_false, fg_masked_write]
  -- everything after the acquire write is a good step
  have hrest : (bus (t ++ [⟨access_status_op, bus t access_status_op⟩]) (acquire_op k)).rc = 0 →
      GoodStep k bus (t ++ [⟨access_status_op, bus t access_status_op⟩] ++
        [⟨acquire_op k, bus (t ++ [⟨access_status_op, bus t access_status_op⟩])
          (acquire_op k)⟩])
      (let c := fg_config_access_mode k bus (t ++ [⟨access_status_op, bus t access_status_op⟩] ++
        [⟨acquire_op k, bus (t ++ [⟨access_status_op, bus t access_status_op⟩])
          (acquire_op k)⟩]) access
          (if fg.use_ima_single_mode then false
            else decide (offset + len > fg.sram.num_bytes_per_word))
        if c.1 < 0 then some c else
        match fg_check_iacs_ready k fg (fuel + 1) bus c.2 with
        | none => none
        | some (rc1, t1) =>
          if rc1 < 0 then some (rc1, t1) else
          let a := fg_set_address fg bus t1 address
          if a.1 < 0 then some a else
          if access = FG_READ then
            match fg_check_iacs_ready k fg (fuel + 1) bus a.2 with
            | none => none
            | some (rc2, t2) => some (rc2, t2)
          else some a) := by
    intro _
    dsimp only
    refine GoodStep.step_pair (fg_config_access_mode_good k bus hs _ _ _) (fun h1 => ?_)
    generalize (fg_config_access_mode k bus _ access _).2 = tc
    obtain ⟨rc1, s1, e1, q1, o1⟩ := fg_check_iacs_ready_good k fg bus hs fuel tc
    rw [e1]
    dsimp only
    refine GoodStep.step ⟨rc1, s1, rfl, q1, o1⟩ (fun h2 => ?_)
    refine GoodStep.step_pair (fg_set_address_good k fg bus hs _ _) (fun h3 => ?_)
    generalize fg_set_address fg bus (tc ++ s1) address = a at h3 ⊢
    by_cases hacc : access = FG_READ
    · rw [if_pos hacc]
      obtain ⟨rc2, s2, e2, q2, o2⟩ := fg_check_iacs_ready_good k fg bus hs fuel a.2
      rw [e2]
      exact ⟨rc2, s2, rfl, q2, o2⟩
    · rw [if_neg hacc]
      exact ⟨_, [], by simp, Quiet.nil k, Or.inl h3⟩
  rcases hs (t ++ [⟨access_status_op, bus t access_status_op⟩]) (acquire_op k) with h | h
  · refine ⟨_, [], ?_, Quiet.nil k, Or.inr ⟨h, ⟨_, acquire_op k, by simp, by simp, h⟩⟩⟩
    unfold acquire_op at h ⊢
    rw [if_pos h]
    simp
  · obtain ⟨rc, s, e, q, o⟩ := hrest h.1
    refine ⟨rc, s, ?_, q, ?_⟩
    · unfold acquire_op at h e ⊢
      rw [if_neg (by rw [h.1]; decide)]
      exact e
    · rw [List.append_assoc t] at o
      exact o.extend

theorem count_op_nil (op : Op) : count_op op [] = 0 := rfl

theorem count_op_cons (op : Op) (e : Event) (s : Trace) :
    count_op op (e :: s) = count_op op s + (if e.op = op then 1 else 0) := by
  simp only [count_op, List.countP_cons, decide_eq_true_eq]

theorem beat_values_nil (k : fg_reg) : beat_values k [] = [] := rfl

theorem beat_values_append (k : fg_reg) (a b : Trace) :
    beat_values k (a ++ b) = beat_values k a ++ beat_values k b := by
  simp [beat_values]

theorem beat_values_cons (k : fg_reg) (e : Event) (s : Trace) :
    beat_values k (e :: s) =
      (if e.op = beat_count_op then [e.reply.val &&& k.BEAT_COUNT_MASK] else []) ++
        beat_values k s := by
  unfold beat_values
  rw [List.filterMap_cons]
  by_cases h : e.op = beat_count_op <;> simp [h]

theorem Quiet.count_release {k : fg_reg} {s : Trace} (h : Quiet k s) :
    count_op (release_op k) s = 0 := by
  unfold count_op
  rw [List.countP_eq_zero]
  intro e he
  simpa using (h e he).1

theorem Quiet.count_acquire {k : fg_reg} {s : Trace} (h : Quiet k s) :
    count_op (acquire_op k) s = 0 := by
  unfold count_op
  rw [List.countP_eq_zero]
  intro e he
  simpa using (h e he).2.1

theorem Quiet.beat_values_eq {k : fg_reg} {s : Trace} (h : Quiet k s) :
    beat_values k s = [] := by
  unfold beat_values
  rw [List.filterMap_eq_nil_iff]
  intro e he
  simp [(h e he).2.2]

/-- What one attempt of `fg_interleaved_mem_read` does on a bus whose
operations fail or answer nominally. -/
theorem fg_interleaved_mem_read_body_semi (k : fg_reg) (fg : fg_dev) (bus : Bus)
    (hs : SemiNominal k bus) (hk : k.MEM_ACCESS_REQ_BIT ||| k.IACS_SLCT_BIT ≠ 0)
    (hb : fg.sram.num_bytes_per_word ≤ 255) (fuel : Nat) (address offset : Nat) (len : Int)
    (hoff : offset < fg.sram.num_bytes_per_word) (hf : len.toNat + 2 ≤ fuel + 1)
    (count : Nat) (hc : count < 3) (rc0 : Int) (t : Trace) :
    ∃ nx s, fg_interleaved_mem_read_body k fg (fuel + 1) bus address offset len count rc0 t =
        some (nx, t ++ s) ∧
      count_op (release_op k) s = 0 ∧ count_op (acquire_op k) s = 1 ∧
      ((∃ h1 h2, beat_values k s = [beat_at k bus h1, beat_at k bus h2] ∧
          beat_at k bus h1 = beat_at k bus h2 ∧ nx = Next.out 0 false count) ∨
        (∃ h1 h2, beat_values k s = [beat_at k bus h1, beat_at k bus h2] ∧
          beat_at k bus h1 ≠ beat_at k bus h2 ∧ nx = Next.out 0 true (count + 1)) ∨
        (∃ rc1, rc1 < 0 ∧
          (nx = Next.out rc1 true (count + 1) ∨ nx = Next.again rc1 (count + 1)) ∧
          FailsIn bus t.length (t ++ s).length)) := by
  have hne : ¬ (count ≥ RETRY_COUNT) := by unfold RETRY_COUNT; omega
  have h1 : access_status_op ≠ release_op k ∧ access_status_op ≠ acquire_op k ∧
      access_status_op ≠ beat_count_op := by
    simp [access_status_op, release_op, acquire_op, beat_count_op]
  have h2 : acquire_op k ≠ release_op k ∧ acquire_op k ≠ beat_count_op := by
    simp [release_op, acquire_op, beat_count_op, hk]
  have h3 : beat_count_op ≠ release_op k ∧ beat_count_op ≠ acquire_op k := by
    simp [release_op, acquire_op, beat_count_op]
  obtain ⟨rc1, s0, e0, q0, o0⟩ := fg_interleaved_mem_config_semi k fg bus hs fuel t address
    offset len FG_READ
  simp only [fg_interleaved_mem_read_body, if_neg hne, e0, fg_get_beat_count, fg_read,
    __fg_interleaved_mem_read]
  generalize hcfg : ([⟨access_status_op, bus t access_status_op⟩] ++
    [⟨acquire_op k, bus (t ++ [⟨access_status_op, bus t access_status_op⟩]) (acquire_op k)⟩] ++
    s0 : Trace) = cfg at o0
  have hT : t ++ [⟨access_status_op, bus t access_status_op⟩] ++
    [⟨acquire_op k, bus (t ++ [⟨access_status_op, bus t access_status_op⟩]) (acquire_op k)⟩] ++
    s0 = t ++ cfg := by rw [← hcfg]; simp
  rw [hT]
  have hcr : count_op (release_op k) cfg = 0 := by
    rw [← hcfg]
    simp [count_op_append, count_op_cons, count_op_nil, h1.1, h2.1, q0.count_release]
  have hca : count_op (acquire_op k) cfg = 1 := by
    rw [← hcfg]
    simp [count_op_append, count_op_cons, count_op_nil, h1.2.1, q0.count_acquire]
  have hcb : beat_values k cfg = [] := by
    rw [← hcfg]
    simp [beat_values_append, beat_values_cons, beat_values_nil, h1.2.2, h2.2,
      q0.beat_values_eq]
  have hbq : ∀ r : Reply, count_op (release_op k) [⟨beat_count_op, r⟩] = 0 ∧
      count_op (acquire_op k) [⟨beat_count_op, r⟩] = 0 ∧
      beat_values k [⟨beat_count_op, r⟩] = [r.val &&& k.BEAT_COUNT_MASK] := by
    intro r
    simp [count_op_cons, count_op_nil, beat_values_cons, beat_values_nil, h3.1, h3.2]
  rcases o0 with hrc | ⟨hneg, hfail⟩
  · subst hrc
    simp only [lt_self_iff_false, if_false]
    rcases hs (t ++ cfg) beat_count_op with hbf | hbn
    · unfold beat_count_op at hbf
      rw [if_pos hbf]
      refine ⟨_, cfg ++ [⟨beat_count_op, bus (t ++ cfg) beat_count_op⟩],
        by simp [beat_count_op], ?_, ?_, Or.inr (Or.inr ⟨_, hbf, Or.inl rfl, ?_⟩)⟩
      · simp [count_op_append, count_op_cons, count_op_nil, hcr, h3.1]
      · simp [count_op_append, count_op_cons, count_op_nil, hca, h3.2]
      · exact ⟨t ++ cfg, _, by simp, by simp, hbf⟩
    · have hb0 := hbn.1
      unfold beat_count_op at hb0
      rw [if_neg (by rw [hb0]; decide)]
      obtain ⟨rc2, s2, e2, q2, o2⟩ := fg_interleaved_mem_read_loop_good k fg bus hs hb (fuel + 1)
        address offset len (t ++ cfg ++ [⟨beat_count_op, bus (t ++ cfg) beat_count_op⟩])
        (by omega) (by exact_mod_cast hoff) hf
      unfold beat_count_op at e2
      rw [e2]
      dsimp only
      rcases o2 with hrc2 | ⟨hneg2, hfail2⟩
      · subst hrc2
        simp only [lt_self_iff_false, if_false]
        rcases hs (t ++ cfg ++ [⟨beat_count_op, bus (t ++ cfg) beat_count_op⟩] ++ s2)
          beat_count_op with hef | hen
        · unfold beat_count_op at hef
          rw [if_pos hef]
          refine ⟨_, cfg ++ [⟨beat_count_op, bus (t ++ cfg) beat_count_op⟩] ++ s2 ++
            [⟨beat_count_op, bus (t ++ cfg ++ [⟨beat_count_op, bus (t ++ cfg) beat_count_op⟩]
              ++ s2) beat_count_op⟩],
            by simp [beat_count_op], ?_, ?_, Or.inr (Or.inr ⟨_, hef, Or.inl rfl, ?_⟩)⟩
          · simp [count_op_append, count_op_cons, count_op_nil, hcr, h3.1, q2.count_release]
          · simp [count_op_append, count_op_cons, count_op_nil, hca, h3.2, q2.count_acquire]
          · exact ⟨_, _, by simp, by simp, hef⟩
        · have he0 := hen.1
          unfold beat_count_op at he0
          rw [if_neg (by rw [he0]; decide)]
          have hbv : beat_values k (cfg ++ [⟨beat_count_op, bus (t ++ cfg) beat_count_op⟩]
              ++ s2 ++ [⟨beat_count_op,
                bus (t ++ cfg ++ [⟨beat_count_op, bus (t ++ cfg) beat_count_op⟩] ++ s2)
                  beat_count_op⟩]) =
              [beat_at k bus (t ++ cfg),
                beat_at k bus (t ++ cfg ++ [⟨beat_count_op, bus (t ++ cfg) beat_count_op⟩]
                  ++ s2)] := by
            simp [beat_values_append, beat_values_cons, beat_values_nil, hcb, q2.beat_values_eq, beat_at]
          by_cases heq : beat_at k bus (t ++ cfg) =
              beat_at k bus (t ++ cfg ++ [⟨beat_count_op, bus (t ++ cfg) beat_count_op⟩] ++ s2)
          · have heq' := heq
            unfold beat_at beat_count_op at heq'
            rw [if_neg (not_not.mpr heq')]
            refine ⟨Next.out 0 false count, (cfg ++ [⟨beat_count_op, bus (t ++ cfg) beat_count_op⟩] ++ s2 ++
              [⟨beat_count_op,
                bus (t ++ cfg ++ [⟨beat_count_op, bus (t ++ cfg) beat_count_op⟩] ++ s2)
                  beat_count_op⟩]), ?_, ?_, ?_,
              Or.inl ⟨_, _, hbv, heq, rfl⟩⟩
            · rw [he0]
              simp [beat_count_op]
            · simp [count_op_append, count_op_cons, count_op_nil, hcr, h3.1, q2.count_release]
            · simp [count_op_append, count_op_cons, count_op_nil, hca, h3.2, q2.count_acquire]
          · have heq' := heq
            unfold beat_at beat_count_op at heq'
            rw [if_pos heq']
            refine ⟨Next.out 0 true (count + 1), (cfg ++ [⟨beat_count_op, bus (t ++ cfg) beat_count_op⟩] ++ s2 ++
              [⟨beat_count_op,
                bus (t ++ cfg ++ [⟨beat_count_op, bus (t ++ cfg) beat_count_op⟩] ++ s2)
                  beat_count_op⟩]), ?_, ?_, ?_,
              Or.inr (Or.inl ⟨_, _, hbv, heq, rfl⟩)⟩
            · rw [he0]
              simp [beat_count_op]
            · simp [count_op_append, count_op_cons, count_op_nil, hcr, h3.1, q2.count_release]
            · simp [count_op_append, count_op_cons, count_op_nil, hca, h3.2, q2.count_acquire]
      · rw [if_pos hneg2]
        have hshape : count_op (release_op k)
            (cfg ++ [⟨beat_count_op, bus (t ++ cfg) beat_count_op⟩] ++ s2) = 0 ∧
            count_op (acquire_op k)
              (cfg ++ [⟨beat_count_op, bus (t ++ cfg) beat_count_op⟩] ++ s2) = 1 := by
          constructor
          · simp [count_op_append, count_op_cons, count_op_nil, hcr, h3.1, q2.count_release]
          · simp [count_op_append, count_op_cons, count_op_nil, hca, h3.2, q2.count_acquire]
        have hfl : FailsIn bus t.length
            (t ++ (cfg ++ [(⟨beat_count_op, bus (t ++ cfg) beat_count_op⟩ : Event)] ++
              s2)).length :=
          hfail2.mono (by simp) (by simp)
        by_cases hag : rc2 = - EAGAIN
        · rw [if_pos hag]
          exact ⟨Next.again rc2 (count + 1),
            cfg ++ [(⟨beat_count_op, bus (t ++ cfg) beat_count_op⟩ : Event)] ++ s2,
            by simp [beat_count_op], hshape.1, hshape.2,
            Or.inr (Or.inr ⟨rc2, hneg2, Or.inr rfl, hfl⟩)⟩
        · rw [if_neg hag]
          exact ⟨Next.out rc2 true (count + 1),
            cfg ++ [(⟨beat_count_op, bus (t ++ cfg) beat_count_op⟩ : Event)] ++ s2,
            by simp [beat_count_op], hshape.1, hshape.2,
            Or.inr (Or.inr ⟨rc2, hneg2, Or.inl rfl, hfl⟩)⟩
  · rw [if_pos hneg]
    exact ⟨_, cfg, rfl, hcr, hca, Or.inr (Or.inr ⟨rc1, hneg, Or.inl rfl, hfail⟩)⟩

/-- What one attempt of `fg_interleaved_mem_write` does on a bus whose
operations fail or answer nominally. -/
theorem fg_interleaved_mem_write_body_semi (k : fg_reg) (fg : fg_dev) (bus : Bus)
    (hs : SemiNominal k bus) (hk : k.MEM_ACCESS_REQ_BIT ||| k.IACS_SLCT_BIT ≠ 0)
    (hb : fg.sram.num_bytes_per_word ≤ 255) (fuel : Nat) (address offset : Nat)
    (val : List Nat) (len : Int) (atomic_access : Bool)
    (hoff : offset < fg.sram.num_bytes_per_word) (hf : len.toNat + 2 ≤ fuel + 1)
    (count : Nat) (hc : count < 3) (rc0 : Int) (t : Trace) :
    ∃ nx s, fg_interleaved_mem_write_body k fg (fuel + 1) bus address offset val len
        atomic_access count rc0 t = some (nx, t ++ s) ∧
      count_op (release_op k) s = 0 ∧ count_op (acquire_op k) s = 1 ∧
      (nx = Next.out 0 false count ∨
        (∃ rc1, rc1 < 0 ∧
          (nx = Next.out rc1 true (count + 1) ∨ nx = Next.again rc1 (count + 1)) ∧
          FailsIn bus t.length (t ++ s).length)) := by
  have hne : ¬ (count ≥ RETRY_COUNT) := by unfold RETRY_COUNT; omega
  have h1 : access_status_op ≠ release_op k ∧ access_status_op ≠ acquire_op k ∧
      access_status_op ≠ beat_count_op := by
    simp [access_status_op, release_op, acquire_op, beat_count_op]
  have h2 : acquire_op k ≠ release_op k ∧ acquire_op k ≠ beat_count_op := by
    simp [release_op, acquire_op, beat_count_op, hk]
  have h3 : beat_count_op ≠ release_op k ∧ beat_count_op ≠ acquire_op k := by
    simp [release_op, acquire_op, beat_count_op]
  obtain ⟨rc1, s0, e0, q0, o0⟩ := fg_interleaved_mem_config_semi k fg bus hs fuel t address
    offset len FG_WRITE
  simp only [fg_interleaved_mem_write_body, if_neg hne, e0, fg_get_beat_count, fg_read,
    __fg_interleaved_mem_write]
  generalize hcfg : ([⟨access_status_op, bus t access_status_op⟩] ++
    [⟨acquire_op k, bus (t ++ [⟨access_status_op, bus t access_status_op⟩]) (acquire_op k)⟩] ++
    s0 : Trace) = cfg at o0
  have hT : t ++ [⟨access_status_op, bus t access_status_op⟩] ++
    [⟨acquire_op k, bus (t ++ [⟨access_status_op, bus t access_status_op⟩]) (acquire_op k)⟩] ++
    s0 = t ++ cfg := by rw [← hcfg]; simp
  rw [hT]
  have hcr : count_op (release_op k) cfg = 0 := by
    rw [← hcfg]
    simp [count_op_append, count_op_cons, count_op_nil, h1.1, h2.1, q0.count_release]
  have hca : count_op (acquire_op k) cfg = 1 := by
    rw [← hcfg]
    simp [count_op_append, count_op_cons, count_op_nil, h1.2.1, q0.count_acquire]
  rcases o0 with hrc | ⟨hneg, hfail⟩
  · subst hrc
    simp only [lt_self_iff_false, if_false]
    rcases hs (t ++ cfg) beat_count_op with hbf | hbn
    · unfold beat_count_op at hbf
      rw [if_pos hbf]
      refine ⟨_, cfg ++ [⟨beat_count_op, bus (t ++ cfg) beat_count_op⟩],
        by simp [beat_count_op], ?_, ?_, Or.inr ⟨_, hbf, Or.inl rfl, ?_⟩⟩
      · simp [count_op_append, count_op_cons, count_op_nil, hcr, h3.1]
      · simp [count_op_append, count_op_cons, count_op_nil, hca, h3.2]
      · exact ⟨t ++ cfg, _, by simp, by simp, hbf⟩
    · have hb0 := hbn.1
      unfold beat_count_op at hb0
      rw [if_neg (by rw [hb0]; decide)]
      obtain ⟨rc2, s2, e2, q2, o2⟩ := fg_interleaved_mem_write_loop_good k fg bus hs hb
        (fuel + 1) address offset val len
        (t ++ cfg ++ [⟨beat_count_op, bus (t ++ cfg) beat_count_op⟩])
        (by omega) (by exact_mod_cast hoff) hf
      unfold beat_count_op at e2
      rw [e2]
      dsimp only
      rcases o2 with hrc2 | ⟨hneg2, hfail2⟩
      · subst hrc2
        simp only [lt_self_iff_false, if_false]
        rcases hs (t ++ cfg ++ [⟨beat_count_op, bus (t ++ cfg) beat_count_op⟩] ++ s2)
          beat_count_op with hef | hen
        · unfold beat_count_op at hef
          rw [if_pos hef]
          refine ⟨_, cfg ++ [⟨beat_count_op, bus (t ++ cfg) beat_count_op⟩] ++ s2 ++
            [⟨beat_count_op, bus (t ++ cfg ++ [⟨beat_count_op, bus (t ++ cfg) beat_count_op⟩]
              ++ s2) beat_count_op⟩],
            by simp [beat_count_op], ?_, ?_, Or.inr ⟨_, hef, Or.inl rfl, ?_⟩⟩
          · simp [count_op_append, count_op_cons, count_op_nil, hcr, h3.1, q2.count_release]
          · simp [count_op_append, count_op_cons, count_op_nil, hca, h3.2, q2.count_acquire]
          · exact ⟨_, _, by simp, by simp, hef⟩
        · have he0 := hen.1
          unfold beat_count_op at he0
          rw [if_neg (by rw [he0]; decide)]
          refine ⟨Next.out 0 false count,
            (cfg ++ [⟨beat_count_op, bus (t ++ cfg) beat_count_op⟩] ++ s2 ++
              [⟨beat_count_op,
                bus (t ++ cfg ++ [⟨beat_count_op, bus (t ++ cfg) beat_count_op⟩] ++ s2)
                  beat_count_op⟩]), ?_, ?_, ?_, Or.inl rfl⟩
          · rw [he0]
            simp [beat_count_op]
          · simp [count_op_append, count_op_cons, count_op_nil, hcr, h3.1, q2.count_release]
          · simp [count_op_append, count_op_cons, count_op_nil, hca, h3.2, q2.count_acquire]
      · rw [if_pos hneg2]
        have hshape : count_op (release_op k)
            (cfg ++ [⟨beat_count_op, bus (t ++ cfg) beat_count_op⟩] ++ s2) = 0 ∧
            count_op (acquire_op k)
              (cfg ++ [⟨beat_count_op, bus (t ++ cfg) beat_count_op⟩] ++ s2) = 1 := by
          constructor
          · simp [count_op_append, count_op_cons, count_op_nil, hcr, h3.1, q2.count_release]
          · simp [count_op_append, count_op_cons, count_op_nil, hca, h3.2, q2.count_acquire]
        have hfl : FailsIn bus t.length
            (t ++ (cfg ++ [(⟨beat_count_op, bus (t ++ cfg) beat_count_op⟩ : Event)] ++
              s2)).length :=
          hfail2.mono (by simp) (by simp)
        by_cases hag : rc2 = - EAGAIN
        · rw [if_pos hag]
          exact ⟨Next.again rc2 (count + 1),
            cfg ++ [(⟨beat_count_op, bus (t ++ cfg) beat_count_op⟩ : Event)] ++ s2,
            by simp [beat_count_op], hshape.1, hshape.2,
            Or.inr ⟨rc2, hneg2, Or.inr rfl, hfl⟩⟩
        · rw [if_neg hag]
          exact ⟨Next.out rc2 true (count + 1),
            cfg ++ [(⟨beat_count_op, bus (t ++ cfg) beat_count_op⟩ : Event)] ++ s2,
            by simp [beat_count_op], hshape.1, hshape.2,
            Or.inr ⟨rc2, hneg2, Or.inl rfl, hfl⟩⟩
  · rw [if_pos hneg]
    exact ⟨_, cfg, rfl, hcr, hca, Or.inr ⟨rc1, hneg, Or.inl rfl, hfail⟩⟩


theorem fg_interleaved_mem_read_retry_succ (k : fg_reg) (fg : fg_dev) (bus : Bus)
    (address offset : Nat) (len : Int) (fuel count : Nat) (rc : Int) (t : Trace) :
    fg_interleaved_mem_read_retry k fg bus address offset len (fuel + 1) count rc t =
      ima_retry_pass k bus
        (fg_interleaved_mem_read_body k fg fuel bus address offset len count rc t)
        (fg_interleaved_mem_read_retry k fg bus address offset len fuel) := by
  rw [fg_interleaved_mem_read_retry]
  unfold ima_retry_pass ima_after_attempt
  cases fg_interleaved_mem_read_body k fg fuel bus address offset len count rc t with
  | none => rfl
  | some x =>
    obtain ⟨nx, t1⟩ := x
    cases nx <;> rfl

theorem fg_interleaved_mem_write_retry_succ (k : fg_reg) (fg : fg_dev) (bus : Bus)
    (address offset : Nat) (val : List Nat) (len : Int) (atomic_access : Bool)
    (fuel count : Nat) (rc : Int) (t : Trace) :
    fg_interleaved_mem_write_retry k fg bus address offset val len atomic_access (fuel + 1)
        count rc t =
      ima_retry_pass k bus
        (fg_interleaved_mem_write_body k fg fuel bus address offset val len atomic_access
          count rc t)
        (fg_interleaved_mem_write_retry k fg bus address offset val len atomic_access fuel) := by
  rw [fg_interleaved_mem_write_retry]
  unfold ima_retry_pass ima_after_attempt
  cases fg_interleaved_mem_write_body k fg fuel bus address offset val len atomic_access
      count rc t with
  | none => rfl
  | some x =>
    obtain ⟨nx, t1⟩ := x
    cases nx <;> rfl


theorem SingleFault.semi {k : fg_reg} {bus : Bus} {n : Nat} (h : SingleFault k bus n) :
    SemiNominal k bus := by
  intro x op
  by_cases hx : x.length = n
  · exact Or.inl ((h x op).1 hx)
  · exact Or.inr ((h x op).2 hx)

/-- Under a single fault, a failure inside `[lo, hi)` means the fault index
lies there. -/
theorem SingleFault.index_of_fails {k : fg_reg} {bus : Bus} {n lo hi : Nat}
    (h : SingleFault k bus n) (hf : FailsIn bus lo hi) : lo ≤ n ∧ n < hi := by
  obtain ⟨x, op, h1, h2, h3⟩ := hf
  by_cases hx : x.length = n
  · omega
  · have := ((h x op).2 hx).1
    omega

/-- The code at `out:` after an attempt that succeeded without asking for a
retry. -/
theorem ima_after_attempt_done (k : fg_reg) (bus : Bus)
    (again : Nat → Int → Trace → Option (Int × Trace)) (count : Nat) (t1 : Trace) :
    ima_after_attempt k bus again (Next.out 0 false count) t1 =
      some (0, t1 ++ [⟨release_op k, bus t1 (release_op k)⟩]) := by
  simp [ima_after_attempt, ima_release, fg_masked_write, release_op]

/-- The release issued at `out:` after a failed attempt, when the release
write itself succeeds. -/
theorem ima_after_attempt_retry (k : fg_reg) (bus : Bus)
    (again : Nat → Int → Trace → Option (Int × Trace)) (rc1 : Int) (count : Nat) (t1 : Trace)
    (hrel : (bus t1 (release_op k)).rc = 0) :
    ima_after_attempt k bus again (Next.out rc1 true count) t1 =
      again count rc1 (t1 ++ [⟨release_op k, bus t1 (release_op k)⟩]) := by
  unfold release_op at hrel
  simp [ima_after_attempt, ima_release, fg_masked_write, release_op, hrel]

/-- An IMA operation under a single injected transport failure: it returns
0; the release write is issued once or twice; and the release write is the
last bus operation.  Stated for any attempt function `body` and function
`retry` from the label `retry:` on that fit together as in
`fg_interleaved_mem_read` and `fg_interleaved_mem_write`. -/
theorem ima_single_fault_release (k : fg_reg) (bus : Bus) (n : Nat) (hsf : SingleFault k bus n)
    (body : Nat → Nat → Int → Trace → Option (Next × Trace))
    (retry : Nat → Nat → Int → Trace → Option (Int × Trace))
    (hunf : ∀ fuel count rc t, retry (fuel + 1) count rc t =
      ima_retry_pass k bus (body fuel count rc t) (retry fuel))
    (F : Nat)
    (hbody : ∀ fuel count rc t, F ≤ fuel → count < 3 →
      ∃ nx s, body fuel count rc t = some (nx, t ++ s) ∧ count_op (release_op k) s = 0 ∧
        (nx = Next.out 0 false count ∨
          (∃ rc1, rc1 < 0 ∧
            (nx = Next.out rc1 true (count + 1) ∨ nx = Next.again rc1 (count + 1)) ∧
            FailsIn bus t.length (t ++ s).length)))
    (fuel : Nat) (hfuel : F + 2 ≤ fuel) (t : Trace) :
    ∃ tr r, retry fuel 0 0 t = some (0, t ++ tr ++ [⟨release_op k, r⟩]) ∧
      (count_op (release_op k) (tr ++ [⟨release_op k, r⟩]) = 1 ∨
        count_op (release_op k) (tr ++ [⟨release_op k, r⟩]) = 2) := by
  -- an attempt started after the fault succeeds
  have hsecond : ∀ (f : Nat) (rc : Int) (t1 : Trace), F ≤ f → n < t1.length →
      ∃ s, retry (f + 1) 1 rc t1 =
          some (0, t1 ++ s ++ [⟨release_op k, bus (t1 ++ s) (release_op k)⟩]) ∧
        count_op (release_op k) s = 0 := by
    intro f rc t1 hf hn
    obtain ⟨nx, s, hb, hc, ho⟩ := hbody f 1 rc t1 hf (by omega)
    rcases ho with rfl | ⟨rc1, _, _, hfl⟩
    · exact ⟨s, by rw [hunf, hb]; simp only [ima_retry_pass]; rw [ima_after_attempt_done], hc⟩
    · have := hsf.index_of_fails hfl
      omega
  obtain ⟨f, rfl⟩ : ∃ f, fuel = f + 2 := ⟨fuel - 2, by omega⟩
  obtain ⟨nx, s, hb, hc, ho⟩ := hbody (f + 1) 0 0 t (by omega) (by omega)
  have hrelc : ∀ r : Reply, count_op (release_op k) [⟨release_op k, r⟩] = 1 := by
    intro r
    simp [count_op_cons, count_op_nil]
  rcases ho with rfl | ⟨rc1, hneg, hnx, hfl⟩
  · refine ⟨s, bus (t ++ s) (release_op k),
      by rw [hunf, hb]; simp only [ima_retry_pass]; rw [ima_after_attempt_done], Or.inl ?_⟩
    rw [count_op_append, hc, hrelc]
  · have hidx := hsf.index_of_fails hfl
    rcases hnx with rfl | rfl
    · -- release, then a second attempt
      have hrel : (bus (t ++ s) (release_op k)).rc = 0 :=
        ((hsf (t ++ s) (release_op k)).2 (by omega)).1
      obtain ⟨s', h2, hc2⟩ := hsecond f rc1
        (t ++ s ++ [⟨release_op k, bus (t ++ s) (release_op k)⟩]) (by omega)
        (by simp at hidx ⊢; omega)
      refine ⟨s ++ [⟨release_op k, bus (t ++ s) (release_op k)⟩] ++ s',
        bus (t ++ s ++ [⟨release_op k, bus (t ++ s) (release_op k)⟩] ++ s') (release_op k),
        ?_, Or.inr ?_⟩
      · rw [hunf, hb]
        simp only [ima_retry_pass]
        rw [ima_after_attempt_retry k bus _ rc1 _ _ hrel, h2]
        simp
      · simp only [count_op_append, hc, hc2, hrelc]
    · -- straight back to `retry:`
      obtain ⟨s', h2, hc2⟩ := hsecond f rc1 (t ++ s) (by omega) (by omega)
      refine ⟨s ++ s', bus (t ++ s ++ s') (release_op k), ?_, Or.inl ?_⟩
      · rw [hunf, hb]
        simp only [ima_retry_pass, ima_after_attempt]
        rw [h2]
        simp
      · simp only [count_op_append, hc, hc2, hrelc]


theorem idle_bus_nominal : Nominal sample_reg idle_bus := by
  intro h op
  unfold NominalReply idle_bus
  split_ifs with h1 h2
  · subst h1
    exact ⟨rfl, by simp, fun _ => by decide, by simp⟩
  · subst h2
    exact ⟨rfl, by simp [grant_poll_op], by simp [grant_poll_op], by simp [grant_poll_op]⟩
  · refine ⟨rfl, fun _ => by decide, fun h3 => absurd h3 h1, fun _ => by decide⟩

theorem inject_fault_single (k : fg_reg) (bus : Bus) (hn : Nominal k bus) (n : Nat) :
    SingleFault k (inject_fault bus n) n := by
  intro h op
  constructor
  · intro hl
    simp [inject_fault, hl, EIO]
  · intro hl
    simp only [inject_fault, if_neg hl]
    exact hn h op

theorem idle_bus_beat_const : BeatConst sample_reg (inject_fault idle_bus 1) 0 := by
  intro h
  unfold inject_fault idle_bus
  split_ifs <;> first | rfl | decide | simp_all [beat_count_op, grant_poll_op]

theorem counting_beat_bus_nominal : Nominal sample_reg counting_beat_bus := by
  intro h op
  unfold counting_beat_bus
  split_ifs with h1 h2
  · subst h1
    exact ⟨rfl, by simp [beat_count_op], by simp [beat_count_op], by simp [beat_count_op]⟩
  · subst h1
    exact ⟨rfl, by simp [beat_count_op], by simp [beat_count_op], by simp [beat_count_op]⟩
  · exact idle_bus_nominal h op


theorem avail_bytes_pos (fg : fg_dev) (a : Nat) (len v : Int)
    (h : fg_get_partition_avail_bytes fg a len = Except.ok v) : 0 < v := by
  unfold fg_get_partition_avail_bytes at h
  rw [avail_bytes_scan_eq] at h
  cases hf : fg.sram.addr_map.find?
      (fun p => decide (p.partition_start ≤ a ∧ a ≤ p.partition_end)) with
  | none =>
    rw [hf] at h
    simp at h
  | some p =>
    rw [hf] at h
    have hp := List.find?_some hf
    simp only [decide_eq_true_eq] at hp
    simp only at h
    split_ifs at h with h1 h2
    simp only [Except.ok.injEq] at h
    subst h
    push_neg at h2
    have h3 : (0 : Int) ≤ ((p.partition_end : Int) - a + 1) * fg.sram.num_bytes_per_word :=
      mul_nonneg (by omega) (Int.natCast_nonneg _)
    exact lt_of_le_of_ne h3 (Ne.symm h2.2)

/-- The transfer loop returns for every bus, within `|len| + 1` steps, and
issues raw data transfers only. -/
theorem fg_direct_mem_rw_loop_returns (fg : fg_dev) (bus : Bus) (access : Bool) :
    ∀ (fuel : Nat) (np : Int) (a off : Nat) (ptr : List Nat) (len rc : Int) (t : Trace),
      len.natAbs + 1 ≤ fuel →
      ∃ rc1 s, fg_direct_mem_rw_loop fg bus access fuel np a off ptr len rc t =
          some (rc1, t ++ s) ∧ ∀ e ∈ s, is_raw_transfer e.op = true := by
  intro fuel
  induction fuel with
  | zero =>
    intro _ _ _ _ _ _ _ h
    omega
  | succ f ih =>
    intro np a off ptr len rc t hf
    rw [fg_direct_mem_rw_loop]
    by_cases hc : np ≠ 0 ∧ len ≠ 0
    · rw [if_pos hc]
      cases hd : fg_get_dma_address fg a off with
      | error e => exact ⟨e, [], by simp, by simp⟩
      | ok addr =>
        cases ha : fg_get_partition_avail_bytes fg (u16 ((a : Int) + off)) len with
        | error e => exact ⟨e, [], by simp, by simp⟩
        | ok avail =>
          have hpos := avail_bytes_pos fg _ _ _ ha
          have hlen : ((if avail > len then len else avail) : Int) ≠ 0 ∧
              (len - (if avail > len then len else avail)).natAbs < len.natAbs := by
            split_ifs <;> omega
          simp only
          generalize (if avail > len then len else avail) = nb at hlen ⊢
          by_cases hacc : access = FG_READ
          · subst hacc
            simp only [eq_self_iff_true, if_true, fg_read]
            by_cases hx : (bus t (Op.read (Addr.dma addr) nb)).rc < 0
            · rw [if_pos hx]
              exact ⟨_, [⟨_, _⟩], rfl, by simp [is_raw_transfer]⟩
            · rw [if_neg hx]
              obtain ⟨rc1, s, h1, h2⟩ := ih (np - 1)
                (u16 ((a : Int) + Int.tdiv nb fg.sram.num_bytes_per_word)) 0
                (ptr.drop nb.toNat) (len - nb) (bus t (Op.read (Addr.dma addr) nb)).rc
                (t ++ [⟨Op.read (Addr.dma addr) nb, bus t (Op.read (Addr.dma addr) nb)⟩])
                (by omega)
              refine ⟨rc1, ⟨Op.read (Addr.dma addr) nb, bus t (Op.read (Addr.dma addr) nb)⟩ :: s,
                ?_, ?_⟩
              · rw [h1]
                simp
              · intro e he
                rcases List.mem_cons.1 he with rfl | he
                · rfl
                · exact h2 e he
          · simp only [hacc, if_false, fg_write]
            by_cases hx : (bus t (Op.write (Addr.dma addr) (ptr.take nb.toNat) nb)).rc < 0
            · rw [if_pos hx]
              exact ⟨_, [⟨_, _⟩], rfl, by simp [is_raw_transfer]⟩
            · rw [if_neg hx]
              obtain ⟨rc1, s, h1, h2⟩ := ih (np - 1)
                (u16 ((a : Int) + Int.tdiv nb fg.sram.num_bytes_per_word)) 0
                (ptr.drop nb.toNat) (len - nb)
                (bus t (Op.write (Addr.dma addr) (ptr.take nb.toNat) nb)).rc
                (t ++ [⟨Op.write (Addr.dma addr) (ptr.take nb.toNat) nb,
                  bus t (Op.write (Addr.dma addr) (ptr.take nb.toNat) nb)⟩])
                (by omega)
              refine ⟨rc1, ⟨Op.write (Addr.dma addr) (ptr.take nb.toNat) nb,
                bus t (Op.write (Addr.dma addr) (ptr.take nb.toNat) nb)⟩ :: s, ?_, ?_⟩
              · rw [h1]
                simp
              · intro e he
                rcases List.mem_cons.1 he with rfl | he
                · rfl
                · exact h2 e he
    · rw [if_neg hc]
      exact ⟨rc, [], by simp, by simp⟩

/-- The algorithm-active poll loop returns for every bus within
`retries + 1` steps and issues status reads only. -/
theorem fg_poll_alg_active_loop_returns (k : fg_reg) (bus : Bus) :
    ∀ (fuel retries val : Nat) (rc : Int) (t : Trace), retries + 1 ≤ fuel →
      ∃ res s, fg_poll_alg_active_loop k bus fuel retries val rc t = some (res, t ++ s) ∧
        ∀ e ∈ s, e.op = alg_active_op := by
  intro fuel
  induction fuel with
  | zero =>
    intro _ _ _ _ h
    omega
  | succ f ih =>
    intro retries val rc t hf
    rw [fg_poll_alg_active_loop]
    by_cases hr : retries ≠ 0
    · rw [if_pos hr]
      simp only [fg_read]
      by_cases h1 : (bus t (Op.read (Addr.reg Reg.BATT_INFO_PEEK_RD 0) 1)).rc < 0
      · rw [if_pos h1]
        exact ⟨_, [⟨_, _⟩], rfl, by simp [alg_active_op]⟩
      · rw [if_neg h1]
        by_cases h2 : (bus t (Op.read (Addr.reg Reg.BATT_INFO_PEEK_RD 0) 1)).val &&&
            k.ALG_ACTIVE_BIT = 0
        · rw [if_pos h2]
          exact ⟨_, [⟨_, _⟩], rfl, by simp [alg_active_op]⟩
        · rw [if_neg h2]
          obtain ⟨res, s, h3, h4⟩ := ih (retries - 1)
            (bus t (Op.read (Addr.reg Reg.BATT_INFO_PEEK_RD 0) 1)).val
            (bus t (Op.read (Addr.reg Reg.BATT_INFO_PEEK_RD 0) 1)).rc
            (t ++ [⟨Op.read (Addr.reg Reg.BATT_INFO_PEEK_RD 0) 1,
              bus t (Op.read (Addr.reg Reg.BATT_INFO_PEEK_RD 0) 1)⟩]) (by omega)
          refine ⟨res, ⟨Op.read (Addr.reg Reg.BATT_INFO_PEEK_RD 0) 1,
              bus t (Op.read (Addr.reg Reg.BATT_INFO_PEEK_RD 0) 1)⟩ :: s, ?_, ?_⟩
          · rw [h3]
            simp
          · intro e he
            rcases List.mem_cons.1 he with rfl | he
            · rfl
            · exact h4 e he
    · rw [if_neg hr]
      exact ⟨Except.ok (val, rc), [], by simp, by simp⟩

theorem fg_poll_alg_active_returns (k : fg_reg) (bus : Bus) (fuel : Nat) (hf : 36 ≤ fuel)
    (t : Trace) :
    ∃ rc s, fg_poll_alg_active k fuel bus t = some (rc, t ++ s) ∧
      ∀ e ∈ s, e.op = alg_active_op := by
  obtain ⟨res, s, h1, h2⟩ := fg_poll_alg_active_loop_returns k bus fuel 35 0 0 t hf
  unfold fg_poll_alg_active
  rw [h1]
  rcases res with rc | ⟨val, rc⟩
  · exact ⟨rc, s, rfl, h2⟩
  · simp only
    split_ifs
    · exact ⟨_, s, rfl, h2⟩
    · exact ⟨_, s, rfl, h2⟩

/-- The grant poll loop returns for every bus within `50 - i + 1` steps,
issues grant polls only, and leaves towards `release:` with a negative
`rc`. -/
theorem fg_direct_mem_request_loop_returns (bus : Bus) (poll_bit : Nat) :
    ∀ (fuel : Nat) (i : Int) (t : Trace), (50 - i).toNat + 1 ≤ fuel →
      ∃ res s, fg_direct_mem_request_loop bus poll_bit fuel i t = some (res, t ++ s) ∧
        (∀ e ∈ s, e.op = grant_poll_op) ∧ ∀ rc, res = Except.error rc → rc < 0 := by
  intro fuel
  induction fuel with
  | zero =>
    intro _ _ h
    omega
  | succ f ih =>
    intro i t hf
    rw [fg_direct_mem_request_loop]
    by_cases hi : i < MEM_GNT_RETRIES
    · rw [if_pos hi]
      simp only [fg_read]
      by_cases h1 : (bus t (Op.read (Addr.reg Reg.MEM_IF_INT_RT_STS 0) 1)).rc < 0
      · rw [if_pos h1]
        refine ⟨_, [⟨_, _⟩], rfl, by simp [grant_poll_op], ?_⟩
        intro rc hrc
        simp only [Except.error.injEq] at hrc
        omega
      · rw [if_neg h1]
        by_cases h2 : (bus t (Op.read (Addr.reg Reg.MEM_IF_INT_RT_STS 0) 1)).val &&&
            poll_bit ≠ 0
        · rw [if_pos h2]
          exact ⟨_, [⟨_, _⟩], rfl, by simp [grant_poll_op], by simp⟩
        · rw [if_neg h2]
          have hi' : i < 50 := hi
          obtain ⟨res, s, h3, h4, h5⟩ := ih (i + 1)
            (t ++ [⟨Op.read (Addr.reg Reg.MEM_IF_INT_RT_STS 0) 1,
              bus t (Op.read (Addr.reg Reg.MEM_IF_INT_RT_STS 0) 1)⟩]) (by omega)
          refine ⟨res, ⟨Op.read (Addr.reg Reg.MEM_IF_INT_RT_STS 0) 1,
              bus t (Op.read (Addr.reg Reg.MEM_IF_INT_RT_STS 0) 1)⟩ :: s, ?_, ?_, h5⟩
          · rw [h3]
            simp
          · intro e he
            rcases List.mem_cons.1 he with rfl | he
            · rfl
            · exact h4 e he
    · rw [if_neg hi]
      refine ⟨Except.error (-ETIMEDOUT), [], by simp, by simp, ?_⟩
      intro rc hrc
      simp only [Except.error.injEq] at hrc
      subst hrc
      decide

theorem DmaQuiet.empty (k : fg_reg) : DmaQuiet k [] := by
  intro e he
  simp at he

theorem DmaQuiet.concat {k : fg_reg} {s1 s2 : Trace} (h1 : DmaQuiet k s1)
    (h2 : DmaQuiet k s2) : DmaQuiet k (s1 ++ s2) := by
  intro e he
  rcases List.mem_append.1 he with h | h
  · exact h1 e h
  · exact h2 e h

theorem DmaQuiet.of_alg (k : fg_reg) (s : Trace) (h : ∀ e ∈ s, e.op = alg_active_op) :
    DmaQuiet k s := by
  intro e he
  rw [h e he]
  simp [alg_active_op, release_op, arb_release_op]

theorem DmaQuiet.of_grant (k : fg_reg) (s : Trace) (h : ∀ e ∈ s, e.op = grant_poll_op) :
    DmaQuiet k s := by
  intro e he
  rw [h e he]
  simp [grant_poll_op, release_op, arb_release_op]

theorem DmaQuiet.of_raw (k : fg_reg) (s : Trace) (h : ∀ e ∈ s, is_raw_transfer e.op = true) :
    DmaQuiet k s := by
  intro e he
  have := h e he
  constructor
  · intro h1
    rw [h1] at this
    simp [release_op, is_raw_transfer] at this
  · intro h1
    rw [h1] at this
    simp [arb_release_op, is_raw_transfer] at this

theorem DmaQuiet.arb_request (k : fg_reg) (harb : k.MEM_ARB_REQ_BIT ≠ 0) (r : Reply) :
    DmaQuiet k [⟨arb_request_op k, r⟩] := by
  intro e he
  simp only [List.mem_singleton] at he
  subst he
  simp [arb_request_op, release_op, arb_release_op, harb]

theorem DmaQuiet.dma_request (k : fg_reg) (hreq : k.MEM_ACCESS_REQ_BIT ≠ 0) (r : Reply) :
    DmaQuiet k [⟨dma_request_op k, r⟩] := by
  intro e he
  simp only [List.mem_singleton] at he
  subst he
  simp [dma_request_op, release_op, arb_release_op, hreq]

/-- The release sequence issued after a stretch without release
operations. -/
theorem fg_direct_mem_release_shape (k : fg_reg) (bus : Bus) (t s : Trace)
    (hq : DmaQuiet k s) :
    ∃ rc tail, fg_direct_mem_release k bus (t ++ s) = (rc, t ++ (s ++ tail)) ∧
      DmaReleased k (s ++ tail) := by
  unfold fg_direct_mem_release fg_masked_write
  simp only
  by_cases h1 : (bus (t ++ s) (Op.masked_write (Addr.reg Reg.MEM_IF_MEM_INTF_CFG 0)
      (k.MEM_ACCESS_REQ_BIT ||| k.IACS_SLCT_BIT) 0)).rc < 0
  · rw [if_pos h1]
    refine ⟨(bus (t ++ s) (release_op k)).rc, [⟨release_op k, bus (t ++ s) (release_op k)⟩],
      ?_, Or.inl ⟨s, _, hq, rfl, h1⟩⟩
    simp [release_op]
  · rw [if_neg h1]
    refine ⟨(bus (t ++ s ++ [⟨release_op k, bus (t ++ s) (release_op k)⟩])
        (arb_release_op k)).rc, [⟨release_op k, bus (t ++ s) (release_op k)⟩,
      ⟨arb_release_op k, bus (t ++ s ++ [⟨release_op k, bus (t ++ s) (release_op k)⟩])
        (arb_release_op k)⟩], ?_, Or.inr ⟨s, _, _, hq, rfl, not_lt.1 h1⟩⟩
    simp [release_op, arb_release_op]

theorem fg_direct_mem_request_release_shape (k : fg_reg) (bus : Bus) (rc : Int)
    (t s : Trace) (hrc : rc < 0) (hq : DmaQuiet k s) :
    ∃ rc1 tail, fg_direct_mem_request_release k bus rc (t ++ s) = (rc1, t ++ (s ++ tail)) ∧
      rc1 < 0 ∧ DmaReleased k (s ++ tail) := by
  obtain ⟨rc0, tail, h1, h2⟩ := fg_direct_mem_release_shape k bus t s hq
  unfold fg_direct_mem_request_release
  rw [h1]
  simp only
  by_cases h : rc0 < 0
  · rw [if_pos h]
    exact ⟨rc0, tail, rfl, h, h2⟩
  · rw [if_neg h]
    exact ⟨rc, tail, rfl, hrc, h2⟩

/-- The request phase of a direct access, for every bus: it returns, and
either fails before the arbitration request succeeded (nothing released),
or fails later and ends with the release sequence, or succeeds without
having issued a release operation. -/
theorem fg_direct_mem_request_shape (k : fg_reg) (fg : fg_dev) (bus : Bus)
    (hreq : k.MEM_ACCESS_REQ_BIT ≠ 0) (harb : k.MEM_ARB_REQ_BIT ≠ 0)
    (fuel : Nat) (hf : 51 ≤ fuel) (t : Trace) :
    ∃ rc s, fg_direct_mem_request k fg fuel bus t = some (rc, t ++ s) ∧
      ((rc < 0 ∧ DmaNotAcquired k s) ∨ (rc < 0 ∧ DmaReleased k s) ∨
        (¬ rc < 0 ∧ DmaQuiet k s)) := by
  have h0 : ∃ rc0 s0, (if fg.wa_flags &&& k.PM8150B_V1_DMA_WA ≠ 0 then
      fg_poll_alg_active k fuel bus t else some (0, t)) = some (rc0, t ++ s0) ∧
      ∀ e ∈ s0, e.op = alg_active_op := by
    split_ifs
    · exact fg_poll_alg_active_returns k bus fuel (by omega) t
    · exact ⟨0, [], by simp, by simp⟩
  obtain ⟨rc0, s0, h0, hq0⟩ := h0
  have hqs0 : DmaQuiet k s0 := DmaQuiet.of_alg k s0 hq0
  have hna0 : ∀ e ∈ s0, e.op = arb_request_op k → e.reply.rc < 0 := by
    intro e he h1
    rw [hq0 e he] at h1
    simp [alg_active_op, arb_request_op] at h1
  unfold fg_direct_mem_request
  rw [h0]
  simp only [fg_masked_write]
  have hop1 : Op.masked_write (Addr.reg Reg.MEM_IF_MEM_ARB_CFG 0) k.MEM_ARB_REQ_BIT
      k.MEM_ARB_REQ_BIT = arb_request_op k := rfl
  have hop2 : Op.masked_write (Addr.reg Reg.MEM_IF_MEM_INTF_CFG 0)
      (k.MEM_ACCESS_REQ_BIT ||| k.IACS_SLCT_BIT) k.MEM_ACCESS_REQ_BIT = dma_request_op k := rfl
  rw [hop1, hop2]
  by_cases hrc0 : rc0 < 0
  · rw [if_pos hrc0]
    exact ⟨rc0, s0, rfl, Or.inl ⟨hrc0, hqs0, hna0⟩⟩
  · rw [if_neg hrc0]
    generalize he1 : (⟨arb_request_op k, bus (t ++ s0) (arb_request_op k)⟩ : Event) = e1
    have hqe1 : DmaQuiet k [e1] := by
      rw [← he1]
      exact DmaQuiet.arb_request k harb _
    by_cases h1 : (bus (t ++ s0) (arb_request_op k)).rc < 0
    · rw [if_pos h1]
      refine ⟨_, s0 ++ [e1], by rw [List.append_assoc], Or.inl ⟨h1, hqs0.concat hqe1, ?_⟩⟩
      intro e he h2
      rcases List.mem_append.1 he with h | h
      · exact hna0 e h h2
      · simp only [List.mem_singleton] at h
        rw [h, ← he1]
        exact h1
    · rw [if_neg h1]
      generalize he2 : (⟨dma_request_op k, bus (t ++ s0 ++ [e1]) (dma_request_op k)⟩ : Event)
        = e2
      have hqe2 : DmaQuiet k [e2] := by
        rw [← he2]
        exact DmaQuiet.dma_request k hreq _
      have hq2 : DmaQuiet k (s0 ++ [e1] ++ [e2]) := (hqs0.concat hqe1).concat hqe2
      have hassoc : t ++ s0 ++ [e1] ++ [e2] = t ++ (s0 ++ [e1] ++ [e2]) := by
        simp only [List.append_assoc]
      by_cases h2 : (bus (t ++ s0 ++ [e1]) (dma_request_op k)).rc < 0
      · rw [if_pos h2, hassoc]
        obtain ⟨rc1, tail, h3, h4, h5⟩ := fg_direct_mem_request_release_shape k bus
          (bus (t ++ s0 ++ [e1]) (dma_request_op k)).rc t (s0 ++ [e1] ++ [e2]) h2 hq2
        rw [h3]
        exact ⟨rc1, _, rfl, Or.inr (Or.inl ⟨h4, h5⟩)⟩
      · rw [if_neg h2, hassoc]
        obtain ⟨res, s3, h3, hq3, hneg⟩ := fg_direct_mem_request_loop_returns bus
          (mem_gnt_poll_bit k fg) fuel 0 (t ++ (s0 ++ [e1] ++ [e2])) (by simp; omega)
        rw [h3]
        have hq4 : DmaQuiet k (s0 ++ [e1] ++ [e2] ++ s3) :=
          hq2.concat (DmaQuiet.of_grant k s3 hq3)
        have hassoc2 : t ++ (s0 ++ [e1] ++ [e2]) ++ s3 = t ++ (s0 ++ [e1] ++ [e2] ++ s3) := by
          simp only [List.append_assoc]
        rw [hassoc2]
        rcases res with rc | u
        · simp only
          obtain ⟨rc1, tail, h5, h6, h7⟩ := fg_direct_mem_request_release_shape k bus rc t
            (s0 ++ [e1] ++ [e2] ++ s3) (hneg rc rfl) hq4
          rw [h5]
          exact ⟨rc1, _, rfl, Or.inr (Or.inl ⟨h6, h7⟩)⟩
        · exact ⟨0, _, rfl, Or.inr (Or.inr ⟨by omega, hq4⟩)⟩

/-- A direct access, for every bus: it returns, and the release sequence is
either not issued at all, no arbitration request having succeeded, or
issued once as the last bus operations. -/
theorem fg_direct_mem_rw_release (k : fg_reg) (fg : fg_dev) (bus : Bus)
    (hreq : k.MEM_ACCESS_REQ_BIT ≠ 0) (harb : k.MEM_ARB_REQ_BIT ≠ 0)
    (sram_addr offset : Nat) (val : List Nat) (len : Int) (access : Bool)
    (fuel : Nat) (hf : len.natAbs + 51 ≤ fuel) (t : Trace) :
    ∃ rc tr, __fg_direct_mem_rw k fg fuel bus t sram_addr offset val len access =
        some (rc, t ++ tr) ∧ (DmaNotAcquired k tr ∨ DmaReleased k tr) := by
  have hnil : DmaNotAcquired k [] := ⟨DmaQuiet.empty k, by simp⟩
  unfold __fg_direct_mem_rw
  by_cases hoff : offset > 3
  · rw [if_pos hoff]
    exact ⟨-EINVAL, [], by simp, Or.inl hnil⟩
  · rw [if_neg hoff]
    cases hcnt : fg_get_partition_count fg sram_addr len with
    | error e => exact ⟨e, [], by simp, Or.inl hnil⟩
    | ok np =>
      obtain ⟨rc0, s, h1, h2⟩ := fg_direct_mem_request_shape k fg bus hreq harb fuel
        (by omega) t
      simp only
      rw [h1]
      simp only
      by_cases hrc0 : rc0 < 0
      · rw [if_pos hrc0]
        rcases h2 with ⟨_, h⟩ | ⟨_, h⟩ | ⟨h, _⟩
        · exact ⟨rc0, s, rfl, Or.inl h⟩
        · exact ⟨rc0, s, rfl, Or.inr h⟩
        · exact absurd hrc0 h
      · rw [if_neg hrc0]
        rcases h2 with ⟨h, _⟩ | ⟨h, _⟩ | ⟨_, hq⟩
        · exact absurd h hrc0
        · exact absurd h hrc0
        · obtain ⟨rc1, s1, h3, h4⟩ := fg_direct_mem_rw_loop_returns fg bus access fuel np
            sram_addr offset val len rc0 (t ++ s) (by omega)
          rw [h3]
          simp only
          have hq1 : DmaQuiet k (s ++ s1) := hq.concat (DmaQuiet.of_raw k s1 h4)
          obtain ⟨rc2, tail, h5, h6⟩ := fg_direct_mem_release_shape k bus t (s ++ s1) hq1
          rw [List.append_assoc, h5]
          simp only
          split_ifs
          · exact ⟨rc2, _, rfl, Or.inr h6⟩
          · exact ⟨rc1, _, rfl, Or.inr h6⟩


theorem lor_ne_zero_of_left (a b : Nat) (h : a ≠ 0) : a ||| b ≠ 0 := by
  intro h1
  obtain ⟨i, hi⟩ := Nat.ne_zero_implies_bit_true h
  have h2 : (a ||| b).testBit i = true := by
    rw [Nat.testBit_or, hi]
    rfl
  rw [h1, Nat.zero_testBit] at h2
  exact Bool.false_ne_true h2

/-- An interleaved read under a single injected transport failure and a
steady beat counter. -/
theorem fg_interleaved_mem_read_single_fault (k : fg_reg) (fg : fg_dev) (bus : Bus)
    (n b : Nat) (hsf : SingleFault k bus n) (hbc : BeatConst k bus b)
    (hk : k.MEM_ACCESS_REQ_BIT ||| k.IACS_SLCT_BIT ≠ 0)
    (hb : fg.sram.num_bytes_per_word ≤ 255) (address offset : Nat) (len : Int)
    (hoff : offset < fg.sram.num_bytes_per_word)
    (hrange : ima_offset_too_large fg offset = false)
    (fuel : Nat) (hf : len.toNat + 4 ≤ fuel) (t : Trace) :
    ∃ tr r, fg_interleaved_mem_read k fg fuel bus t address offset len =
        some (0, t ++ tr ++ [⟨release_op k, r⟩]) ∧
      (count_op (release_op k) (tr ++ [⟨release_op k, r⟩]) = 1 ∨
        count_op (release_op k) (tr ++ [⟨release_op k, r⟩]) = 2) := by
  unfold fg_interleaved_mem_read
  rw [hrange]
  simp only [Bool.false_eq_true, if_false]
  refine ima_single_fault_release k bus n hsf
    (fun fuel count rc t =>
      fg_interleaved_mem_read_body k fg fuel bus address offset len count rc t)
    (fg_interleaved_mem_read_retry k fg bus address offset len)
    (fun fuel count rc t =>
      fg_interleaved_mem_read_retry_succ k fg bus address offset len fuel count rc t)
    (len.toNat + 2) ?_ fuel (by omega) t
  intro fuel count rc t hF hc
  obtain ⟨f, rfl⟩ : ∃ f, fuel = f + 1 := ⟨fuel - 1, by omega⟩
  obtain ⟨nx, s, h1, h2, _, h4⟩ := fg_interleaved_mem_read_body_semi k fg bus hsf.semi hk hb
    f address offset len hoff (by omega) count hc rc t
  refine ⟨nx, s, h1, h2, ?_⟩
  rcases h4 with ⟨_, _, _, _, h⟩ | ⟨x, y, _, hne, _⟩ | h
  · exact Or.inl h
  · exact absurd (by rw [beat_at, beat_at, hbc x, hbc y]) hne
  · exact Or.inr h

/-- An interleaved write under a single injected transport failure. -/
theorem fg_interleaved_mem_write_single_fault (k : fg_reg) (fg : fg_dev) (bus : Bus)
    (n : Nat) (hsf : SingleFault k bus n)
    (hk : k.MEM_ACCESS_REQ_BIT ||| k.IACS_SLCT_BIT ≠ 0)
    (hb : fg.sram.num_bytes_per_word ≤ 255) (address offset : Nat) (val : List Nat)
    (len : Int) (atomic_access : Bool)
    (hoff : offset < fg.sram.num_bytes_per_word)
    (hrange : ima_offset_too_large fg offset = false)
    (fuel : Nat) (hf : len.toNat + 4 ≤ fuel) (t : Trace) :
    ∃ tr r, fg_interleaved_mem_write k fg fuel bus t address offset val len atomic_access =
        some (0, t ++ tr ++ [⟨release_op k, r⟩]) ∧
      (count_op (release_op k) (tr ++ [⟨release_op k, r⟩]) = 1 ∨
        count_op (release_op k) (tr ++ [⟨release_op k, r⟩]) = 2) := by
  unfold fg_interleaved_mem_write
  rw [hrange]
  simp only [Bool.false_eq_true, if_false]
  refine ima_single_fault_release k bus n hsf
    (fun fuel count rc t =>
      fg_interleaved_mem_write_body k fg fuel bus address offset val len atomic_access
        count rc t)
    (fg_interleaved_mem_write_retry k fg bus address offset val len atomic_access)
    (fun fuel count rc t =>
      fg_interleaved_mem_write_retry_succ k fg bus address offset val len atomic_access
        fuel count rc t)
    (len.toNat + 2) ?_ fuel (by omega) t
  intro fuel count rc t hF hc
  obtain ⟨f, rfl⟩ : ∃ f, fuel = f + 1 := ⟨fuel - 1, by omega⟩
  obtain ⟨nx, s, h1, h2, _, h4⟩ := fg_interleaved_mem_write_body_semi k fg bus hsf.semi hk hb
    f address offset val len atomic_access hoff (by omega) count hc rc t
  exact ⟨nx, s, h1, h2, h4⟩


/-- Counterexample to C1 as stated: on a GEN3 device, with one transport
failure injected and every other bus operation getting the reply of idle
hardware, (a) a 4-byte `fg_interleaved_mem_read` whose second bus operation
(the write asserting `MEM_ACCESS_REQ|IACS_SLCT`) fails returns 0 after
issuing the release write twice, once after the failed attempt and once
after the retry; (b) a 4-byte `fg_direct_mem_read` whose first bus operation
(the arbitration request) fails returns the error without issuing the release
write at all. -/
theorem release_exactly_once_counterexample :
    SingleFault sample_reg (inject_fault idle_bus 1) 1 ∧
    (fg_interleaved_mem_read sample_reg (gen3_dev sample_reg) 10 (inject_fault idle_bus 1) []
        0 0 4).map (fun r => (r.1, count_op (release_op sample_reg) r.2)) = some (0, 2) ∧
    SingleFault sample_reg (inject_fault idle_bus 0) 0 ∧
    (fg_direct_mem_read sample_reg (gen3_dev sample_reg) 60 (inject_fault idle_bus 0) []
        0 0 4).map (fun r => (r.1, count_op (release_op sample_reg) r.2)) = some (- EIO, 0) :=
  ⟨inject_fault_single sample_reg idle_bus idle_bus_nominal 1, by decide,
    inject_fault_single sample_reg idle_bus idle_bus_nominal 0, by decide⟩

/-- C1 (amended): release after a single injected transport failure.  The
bus fails at its `n`-th operation and gives the reply of idle hardware to
every other one, and the beat counter is steady; the offset is in range.
Then `fg_interleaved_mem_read` and `fg_interleaved_mem_write` return 0, the
release write (clearing `MEM_ACCESS_REQ|IACS_SLCT`) is their last bus
operation, and it is issued once or twice in all.  `fg_direct_mem_read` and
`fg_direct_mem_write` return, and either issue no operation of the release
sequence, no arbitration request having succeeded, or issue the release
sequence once, as their last bus operations: the release write, followed by
the clear of `MEM_ARB_REQ` when the release write succeeded. -/
theorem release_after_single_fault (k : fg_reg) (fg : fg_dev) (bus : Bus) (n b : Nat)
    (hsf : SingleFault k bus n) (hbc : BeatConst k bus b)
    (hreq : k.MEM_ACCESS_REQ_BIT ≠ 0) (harb : k.MEM_ARB_REQ_BIT ≠ 0)
    (hb : fg.sram.num_bytes_per_word ≤ 255)
    (address sram_addr offset : Nat) (val : List Nat) (len : Int) (atomic_access : Bool)
    (hoff : offset < fg.sram.num_bytes_per_word)
    (hrange : ima_offset_too_large fg offset = false)
    (fuel : Nat) (hf : len.natAbs + 51 ≤ fuel) (t : Trace) :
    (∃ tr r, fg_interleaved_mem_read k fg fuel bus t address offset len =
        some (0, t ++ tr ++ [⟨release_op k, r⟩]) ∧
      (count_op (release_op k) (tr ++ [⟨release_op k, r⟩]) = 1 ∨
        count_op (release_op k) (tr ++ [⟨release_op k, r⟩]) = 2)) ∧
    (∃ tr r, fg_interleaved_mem_write k fg fuel bus t address offset val len atomic_access =
        some (0, t ++ tr ++ [⟨release_op k, r⟩]) ∧
      (count_op (release_op k) (tr ++ [⟨release_op k, r⟩]) = 1 ∨
        count_op (release_op k) (tr ++ [⟨release_op k, r⟩]) = 2)) ∧
    (∃ rc tr, fg_direct_mem_read k fg fuel bus t sram_addr offset len = some (rc, t ++ tr) ∧
      (DmaNotAcquired k tr ∨ DmaReleased k tr)) ∧
    (∃ rc tr, fg_direct_mem_write k fg fuel bus t sram_addr offset val len atomic_access =
        some (rc, t ++ tr) ∧
      (DmaNotAcquired k tr ∨ DmaReleased k tr)) :=
  ⟨fg_interleaved_mem_read_single_fault k fg bus n b hsf hbc
      (lor_ne_zero_of_left _ _ hreq) hb address offset len hoff hrange fuel (by omega) t,
    fg_interleaved_mem_write_single_fault k fg bus n hsf
      (lor_ne_zero_of_left _ _ hreq) hb address offset val len atomic_access hoff hrange
      fuel (by omega) t,
    fg_direct_mem_rw_release k fg bus hreq harb sram_addr offset [] len FG_READ fuel hf t,
    fg_direct_mem_rw_release k fg bus hreq harb sram_addr offset val len FG_WRITE fuel hf t⟩

/-- Witness for C1 (amended): a GEN3 device, the bus of idle hardware with a
failure injected at its second operation, 4 bytes at word 0. -/
theorem release_after_single_fault_witness :
    SingleFault sample_reg (inject_fault idle_bus 1) 1 ∧
    BeatConst sample_reg (inject_fault idle_bus 1) 0 ∧
    ((∃ tr r, fg_interleaved_mem_read sample_reg (gen3_dev sample_reg) 60
          (inject_fault idle_bus 1) [] 0 0 4 =
        some (0, [] ++ tr ++ [⟨release_op sample_reg, r⟩]) ∧
      (count_op (release_op sample_reg) (tr ++ [⟨release_op sample_reg, r⟩]) = 1 ∨
        count_op (release_op sample_reg) (tr ++ [⟨release_op sample_reg, r⟩]) = 2)) ∧
    (∃ tr r, fg_interleaved_mem_write sample_reg (gen3_dev sample_reg) 60
          (inject_fault idle_bus 1) [] 0 0 [1, 2, 3, 4] 4 false =
        some (0, [] ++ tr ++ [⟨release_op sample_reg, r⟩]) ∧
      (count_op (release_op sample_reg) (tr ++ [⟨release_op sample_reg, r⟩]) = 1 ∨
        count_op (release_op sample_reg) (tr ++ [⟨release_op sample_reg, r⟩]) = 2)) ∧
    (∃ rc tr, fg_direct_mem_read sample_reg (gen3_dev sample_reg) 60
          (inject_fault idle_bus 1) [] 0 0 4 = some (rc, [] ++ tr) ∧
      (DmaNotAcquired sample_reg tr ∨ DmaReleased sample_reg tr)) ∧
    (∃ rc tr, fg_direct_mem_write sample_reg (gen3_dev sample_reg) 60
          (inject_fault idle_bus 1) [] 0 0 [1, 2, 3, 4] 4 false = some (rc, [] ++ tr) ∧
      (DmaNotAcquired sample_reg tr ∨ DmaReleased sample_reg tr))) :=
  ⟨inject_fault_single sample_reg idle_bus idle_bus_nominal 1, idle_bus_beat_const,
    release_after_single_fault sample_reg (gen3_dev sample_reg) (inject_fault idle_bus 1) 1 0
      (inject_fault_single sample_reg idle_bus idle_bus_nominal 1) idle_bus_beat_const
      (by decide) (by decide) (by decide) 0 0 0 [1, 2, 3, 4] 4 false (by decide) (by decide)
      60 (by decide) []⟩


theorem Nominal.to_semi {k : fg_reg} {bus : Bus} (h : Nominal k bus) : SemiNominal k bus :=
  fun x op => Or.inr (h x op)

theorem Nominal.not_fails {k : fg_reg} {bus : Bus} (h : Nominal k bus) (lo hi : Nat) :
    ¬ FailsIn bus lo hi := by
  rintro ⟨x, op, _, _, h3⟩
  have := (h x op).1
  omega

theorem beat_values_release (k : fg_reg) (r : Reply) :
    beat_values k [⟨release_op k, r⟩] = [] := by
  simp [beat_values_cons, beat_values_nil, release_op, beat_count_op]

theorem count_acquire_release (k : fg_reg) (hk : k.MEM_ACCESS_REQ_BIT ||| k.IACS_SLCT_BIT ≠ 0)
    (r : Reply) : count_op (acquire_op k) [⟨release_op k, r⟩] = 0 := by
  simp [count_op_cons, count_op_nil, release_op, acquire_op, hk, eq_comm]

theorem count_release_release (k : fg_reg) (r : Reply) :
    count_op (release_op k) [⟨release_op k, r⟩] = 1 := by
  simp [count_op_cons, count_op_nil]

/-- The code at `out:` after an attempt whose beat counts differed. -/
theorem ima_after_attempt_mismatch (k : fg_reg) (bus : Bus)
    (again : Nat → Int → Trace → Option (Int × Trace)) (count : Nat) (t1 : Trace) :
    ima_after_attempt k bus again (Next.out 0 true count) t1 =
      again count 0 (t1 ++ [⟨release_op k, bus t1 (release_op k)⟩]) := by
  simp [ima_after_attempt, ima_release, fg_masked_write, release_op]

/-- One full attempt of `fg_interleaved_mem_read` on nominal hardware:
configuration with one acquisition, start beat count, transfer, end beat
count, release.  The operation returns 0 after it when the two beat counts
agree, and goes on from `retry:` with `count + 1` when they differ. -/
theorem fg_interleaved_mem_read_attempt (k : fg_reg) (fg : fg_dev) (bus : Bus)
    (hn : Nominal k bus) (hk : k.MEM_ACCESS_REQ_BIT ||| k.IACS_SLCT_BIT ≠ 0)
    (hb : fg.sram.num_bytes_per_word ≤ 255) (address offset : Nat) (len : Int)
    (hoff : offset < fg.sram.num_bytes_per_word) (f : Nat) (hf : len.toNat + 2 ≤ f + 1)
    (count : Nat) (hc : count < 3) (rc : Int) (t : Trace) :
    ∃ a x y, count_op (release_op k) a = 1 ∧ count_op (acquire_op k) a = 1 ∧
      beat_values k a = [x, y] ∧
      ((x = y ∧ fg_interleaved_mem_read_retry k fg bus address offset len (f + 2) count rc t =
          some (0, t ++ a)) ∨
        (x ≠ y ∧ fg_interleaved_mem_read_retry k fg bus address offset len (f + 2) count rc t =
          fg_interleaved_mem_read_retry k fg bus address offset len (f + 1) (count + 1) 0
            (t ++ a))) := by
  obtain ⟨nx, s, h1, h2, h3, h4⟩ := fg_interleaved_mem_read_body_semi k fg bus hn.to_semi hk hb
    f address offset len hoff hf count hc rc t
  have hcr : count_op (release_op k)
      (s ++ [⟨release_op k, bus (t ++ s) (release_op k)⟩]) = 1 := by
    rw [count_op_append, h2, count_release_release]
  have hca : count_op (acquire_op k)
      (s ++ [⟨release_op k, bus (t ++ s) (release_op k)⟩]) = 1 := by
    rw [count_op_append, h3, count_acquire_release k hk]
  rcases h4 with ⟨x, y, hbv, hxy, rfl⟩ | ⟨x, y, hbv, hxy, rfl⟩ | ⟨_, _, _, hfl⟩
  · refine ⟨s ++ [⟨release_op k, bus (t ++ s) (release_op k)⟩], beat_at k bus x,
      beat_at k bus y, hcr, hca, ?_, Or.inl ⟨hxy, ?_⟩⟩
    · rw [beat_values_append, hbv, beat_values_release, List.append_nil]
    · rw [fg_interleaved_mem_read_retry_succ, h1]
      simp only [ima_retry_pass]
      rw [ima_after_attempt_done, List.append_assoc]
  · refine ⟨s ++ [⟨release_op k, bus (t ++ s) (release_op k)⟩], beat_at k bus x,
      beat_at k bus y, hcr, hca, ?_, Or.inr ⟨hxy, ?_⟩⟩
    · rw [beat_values_append, hbv, beat_values_release, List.append_nil]
    · rw [fg_interleaved_mem_read_retry_succ, h1]
      simp only [ima_retry_pass]
      rw [ima_after_attempt_mismatch, List.append_assoc]
  · exact absurd hfl (hn.not_fails _ _)

/-- With the retry budget used up, `fg_interleaved_mem_read` only releases
and returns. -/
theorem fg_interleaved_mem_read_exhausted (k : fg_reg) (fg : fg_dev) (bus : Bus)
    (address offset : Nat) (len : Int) (f : Nat) (t : Trace) :
    fg_interleaved_mem_read_retry k fg bus address offset len (f + 1) 3 0 t =
      some (0, t ++ [⟨release_op k, bus t (release_op k)⟩]) := by
  rw [fg_interleaved_mem_read_retry_succ]
  have : fg_interleaved_mem_read_body k fg f bus address offset len 3 0 t =
      some (Next.out 0 false 3, t) := by
    unfold fg_interleaved_mem_read_body
    rw [if_pos (by decide)]
  rw [this]
  simp only [ima_retry_pass]
  rw [ima_after_attempt_done]


/-- C11 (evaluation at the failing input): GEN3 device, word 22, offset 1,
8 bytes, all bus operations succeeding and the grant given.
`fg_get_partition_count` looks at words 22 and 23 only and reports one
partition, the available length is computed for word `sram_addr + offset =
23` (4 bytes), so the loop issues a single raw transfer of 4 bytes and is
left with `len = 4`; `fg_direct_mem_read` and `fg_direct_mem_write` return 0
although only 4 of the 8 bytes were transferred. -/
theorem dma_partial_transfer_returns_success :
    (fg_direct_mem_read sample_reg (gen3_dev sample_reg) 10 ones_bus [] 22 1 8).map
        (fun r => (r.1, raw_transfers r.2, raw_transfer_bytes r.2)) =
      some (0, [Op.read (Addr.dma 0x4879) 4], 4) ∧
    (fg_direct_mem_write sample_reg (gen3_dev sample_reg) 10 ones_bus [] 22 1
        [1, 2, 3, 4, 5, 6, 7, 8] 8 false).map
        (fun r => (r.1, raw_transfers r.2, raw_transfer_bytes r.2)) =
      some (0, [Op.write (Addr.dma 0x4879) [1, 2, 3, 4] 4], 4) := by
  constructor <;> decide

theorem clear_loop_stuck (fg : fg_dev) :
    ∀ (fuel : Nat) (tries : Int) (t : Trace),
      fg_run_iacs_clear_sequence_loop fg ones_bus fuel tries t = none := by
  intro fuel
  induction fuel with
  | zero =>
    intro tries t
    rfl
  | succ f ih =>
    intro tries t
    rw [fg_run_iacs_clear_sequence_loop]
    simp only [fg_write, fg_read, ones_bus, Reply.val]
    simp [ih]

/-- C12 (evaluation at the failing input): on a bus on which every operation
succeeds and the hardware status always reads `0xFF`, the trigger loop of
`fg_run_iacs_clear_sequence` takes the `continue` at `hw_sts != 0` in every
iteration, never reaches the decrement of `tries`, and does not return: no
number of iterations (no amount of fuel) is enough. -/
theorem clear_sequence_never_returns (k : fg_reg) (fg : fg_dev) (fuel : Nat) (t : Trace) :
    fg_run_iacs_clear_sequence k fg fuel ones_bus t = none := by
  unfold fg_run_iacs_clear_sequence
  simp only [fg_masked_write, fg_config_access_mode, clear_loop_stuck]
  simp [ones_bus]


/-- The code at `out:` when the transaction failed and the release write
fails too. -/
theorem ima_after_attempt_both_fail (k : fg_reg) (bus : Bus)
    (again : Nat → Int → Trace → Option (Int × Trace)) (rc : Int) (b : Bool) (count : Nat)
    (t1 : Trace) (h : rc < 0 ∧ (bus t1 (release_op k)).rc < 0) :
    ima_after_attempt k bus again (Next.out rc b count) t1 =
      some ((bus t1 (release_op k)).rc, t1 ++ [⟨release_op k, bus t1 (release_op k)⟩]) := by
  unfold release_op at h
  simp [ima_after_attempt, ima_release, fg_masked_write, release_op, h]

/-- The code at `out:` in every other case, no retry being asked for. -/
theorem ima_after_attempt_return (k : fg_reg) (bus : Bus)
    (again : Nat → Int → Trace → Option (Int × Trace)) (rc : Int) (count : Nat)
    (t1 : Trace) (h : ¬ (rc < 0 ∧ (bus t1 (release_op k)).rc < 0)) :
    ima_after_attempt k bus again (Next.out rc false count) t1 =
      some (rc, t1 ++ [⟨release_op k, bus t1 (release_op k)⟩]) := by
  unfold release_op at h
  simp only [ima_after_attempt, ima_release, fg_masked_write, release_op]
  rw [if_neg h]
  simp

/-- The code at `out:` in every other case, a retry being asked for. -/
theorem ima_after_attempt_again (k : fg_reg) (bus : Bus)
    (again : Nat → Int → Trace → Option (Int × Trace)) (rc : Int) (count : Nat)
    (t1 : Trace) (h : ¬ (rc < 0 ∧ (bus t1 (release_op k)).rc < 0)) :
    ima_after_attempt k bus again (Next.out rc true count) t1 =
      again count rc (t1 ++ [⟨release_op k, bus t1 (release_op k)⟩]) := by
  unfold release_op at h
  simp only [ima_after_attempt, ima_release, fg_masked_write, release_op]
  rw [if_neg h]
  simp

/-- An IMA operation on a bus whose operations fail or answer nominally,
from the label `retry:` with `count` attempts made: it returns, makes at most
`3 - count` further attempts, and returns an error only after the last
attempt of the budget or when its last bus operation, the release write,
failed.  Stated for any attempt function `body` and function `retry` that
fit together as in `fg_interleaved_mem_read` and
`fg_interleaved_mem_write`. -/
theorem ima_retry_budget (k : fg_reg) (bus : Bus)
    (hk : k.MEM_ACCESS_REQ_BIT ||| k.IACS_SLCT_BIT ≠ 0)
    (body : Nat → Nat → Int → Trace → Option (Next × Trace))
    (retry : Nat → Nat → Int → Trace → Option (Int × Trace))
    (hunf : ∀ fuel count rc t, retry (fuel + 1) count rc t =
      ima_retry_pass k bus (body fuel count rc t) (retry fuel))
    (F : Nat)
    (hbody : ∀ fuel count rc t, F ≤ fuel → count < 3 →
      ∃ nx s, body fuel count rc t = some (nx, t ++ s) ∧ count_op (release_op k) s = 0 ∧
        count_op (acquire_op k) s = 1 ∧
        (nx = Next.out 0 false count ∨ nx = Next.out 0 true (count + 1) ∨
          (∃ rc1, rc1 < 0 ∧
            (nx = Next.out rc1 true (count + 1) ∨ nx = Next.again rc1 (count + 1)))))
    (hdone : ∀ fuel rc t, body fuel 3 rc t = some (Next.out rc false 3, t)) :
    ∀ (n count : Nat), count + n = 3 → ∀ (fuel : Nat) (rc : Int) (t : Trace),
      F + n + 1 ≤ fuel → rc ≤ 0 →
      ∃ v tr, retry fuel count rc t = some (v, t ++ tr) ∧
        count_op (acquire_op k) tr ≤ n ∧
        (v = 0 ∨ (v < 0 ∧ (count_op (acquire_op k) tr = n ∨
          ∃ tr1 r, tr = tr1 ++ [⟨release_op k, r⟩] ∧ r.rc < 0))) := by
  intro n
  induction n with
  | zero =>
    intro count hcn fuel rc t hf hrc
    obtain ⟨f, rfl⟩ : ∃ f, fuel = f + 1 := ⟨fuel - 1, by omega⟩
    have hc : count = 3 := by omega
    subst hc
    rw [hunf, hdone]
    simp only [ima_retry_pass]
    by_cases h : rc < 0 ∧ (bus t (release_op k)).rc < 0
    · rw [ima_after_attempt_both_fail k bus _ rc false 3 t h]
      refine ⟨_, _, rfl, ?_, Or.inr ⟨h.2, Or.inr ⟨[], _, rfl, h.2⟩⟩⟩
      rw [count_acquire_release k hk]
    · rw [ima_after_attempt_return k bus _ rc 3 t h]
      refine ⟨_, _, rfl, ?_, ?_⟩
      · rw [count_acquire_release k hk]
      · rcases lt_or_eq_of_le hrc with h1 | h1
        · exact Or.inr ⟨h1, Or.inl (count_acquire_release k hk _)⟩
        · exact Or.inl h1
  | succ n ih =>
    intro count hcn fuel rc t hf hrc
    obtain ⟨f, rfl⟩ : ∃ f, fuel = f + 1 := ⟨fuel - 1, by omega⟩
    obtain ⟨nx, s, hb, hcr, hca, hnx⟩ := hbody f count rc t (by omega) (by omega)
    rw [hunf, hb]
    simp only [ima_retry_pass]
    -- what is left to do after a further pass from `retry:`
    have hnext : ∀ (rc1 : Int) (s1 : Trace), rc1 ≤ 0 → count_op (acquire_op k) s1 = 1 →
        ∃ v tr, retry f (count + 1) rc1 (t ++ s1) = some (v, t ++ tr) ∧
          count_op (acquire_op k) tr ≤ n + 1 ∧
          (v = 0 ∨ (v < 0 ∧ (count_op (acquire_op k) tr = n + 1 ∨
            ∃ tr1 r, tr = tr1 ++ [⟨release_op k, r⟩] ∧ r.rc < 0))) := by
      intro rc1 s1 hrc1 hs1
      obtain ⟨v, tr, h1, h2, h3⟩ := ih (count + 1) (by omega) f rc1 (t ++ s1) (by omega) hrc1
      refine ⟨v, s1 ++ tr, by rw [h1, List.append_assoc], ?_, ?_⟩
      · rw [count_op_append, hs1]
        omega
      · rcases h3 with h3 | ⟨h3, h4 | ⟨tr1, r, h4, h5⟩⟩
        · exact Or.inl h3
        · refine Or.inr ⟨h3, Or.inl ?_⟩
          rw [count_op_append, hs1, h4]
          omega
        · exact Or.inr ⟨h3, Or.inr ⟨s1 ++ tr1, r, by rw [h4, List.append_assoc], h5⟩⟩
    have hsrel : count_op (acquire_op k)
        (s ++ [⟨release_op k, bus (t ++ s) (release_op k)⟩]) = 1 := by
      rw [count_op_append, hca, count_acquire_release k hk]
    rcases hnx with rfl | rfl | ⟨rc1, hneg, rfl | rfl⟩
    · rw [ima_after_attempt_done]
      exact ⟨0, _, by rw [List.append_assoc], by rw [hsrel]; omega, Or.inl rfl⟩
    · rw [ima_after_attempt_mismatch, List.append_assoc]
      exact hnext 0 _ le_rfl hsrel
    · by_cases h : rc1 < 0 ∧ (bus (t ++ s) (release_op k)).rc < 0
      · rw [ima_after_attempt_both_fail k bus _ rc1 true _ _ h]
        exact ⟨_, _, by rw [List.append_assoc], by rw [hsrel]; omega,
          Or.inr ⟨h.2, Or.inr ⟨s, _, rfl, h.2⟩⟩⟩
      · rw [ima_after_attempt_again k bus _ rc1 _ _ h, List.append_assoc]
        exact hnext rc1 _ (le_of_lt hneg) hsrel
    · simp only [ima_after_attempt]
      exact hnext rc1 s (le_of_lt hneg) hca

theorem fg_interleaved_mem_read_budget (k : fg_reg) (fg : fg_dev) (bus : Bus)
    (hs : SemiNominal k bus) (hk : k.MEM_ACCESS_REQ_BIT ||| k.IACS_SLCT_BIT ≠ 0)
    (hb : fg.sram.num_bytes_per_word ≤ 255) (address offset : Nat) (len : Int)
    (hoff : offset < fg.sram.num_bytes_per_word)
    (hrange : ima_offset_too_large fg offset = false)
    (fuel : Nat) (hf : len.toNat + 6 ≤ fuel) (t : Trace) :
    ∃ v tr, fg_interleaved_mem_read k fg fuel bus t address offset len = some (v, t ++ tr) ∧
      count_op (acquire_op k) tr ≤ 3 ∧
      (v = 0 ∨ (v < 0 ∧ (count_op (acquire_op k) tr = 3 ∨
        ∃ tr1 r, tr = tr1 ++ [⟨release_op k, r⟩] ∧ r.rc < 0))) := by
  unfold fg_interleaved_mem_read
  rw [hrange]
  simp only [Bool.false_eq_true, if_false]
  refine ima_retry_budget k bus hk
    (fun fuel count rc t =>
      fg_interleaved_mem_read_body k fg fuel bus address offset len count rc t)
    (fg_interleaved_mem_read_retry k fg bus address offset len)
    (fun fuel count rc t =>
      fg_interleaved_mem_read_retry_succ k fg bus address offset len fuel count rc t)
    (len.toNat + 2) ?_ ?_ 3 0 rfl fuel 0 t (by omega) le_rfl
  · intro fuel count rc t hF hc
    obtain ⟨f, rfl⟩ : ∃ f, fuel = f + 1 := ⟨fuel - 1, by omega⟩
    obtain ⟨nx, s, h1, h2, h3, h4⟩ := fg_interleaved_mem_read_body_semi k fg bus hs hk hb
      f address offset len hoff (by omega) count hc rc t
    refine ⟨nx, s, h1, h2, h3, ?_⟩
    rcases h4 with ⟨_, _, _, _, h⟩ | ⟨_, _, _, _, h⟩ | ⟨rc1, h5, h6, _⟩
    · exact Or.inl h
    · exact Or.inr (Or.inl h)
    · exact Or.inr (Or.inr ⟨rc1, h5, h6⟩)
  · intro fuel rc t
    show fg_interleaved_mem_read_body k fg fuel bus address offset len 3 rc t = _
    unfold fg_interleaved_mem_read_body
    rw [if_pos (show 3 ≥ RETRY_COUNT by decide)]

theorem fg_interleaved_mem_write_budget (k : fg_reg) (fg : fg_dev) (bus : Bus)
    (hs : SemiNominal k bus) (hk : k.MEM_ACCESS_REQ_BIT ||| k.IACS_SLCT_BIT ≠ 0)
    (hb : fg.sram.num_bytes_per_word ≤ 255) (address offset : Nat) (val : List Nat)
    (len : Int) (atomic_access : Bool)
    (hoff : offset < fg.sram.num_bytes_per_word)
    (hrange : ima_offset_too_large fg offset = false)
    (fuel : Nat) (hf : len.toNat + 6 ≤ fuel) (t : Trace) :
    ∃ v tr, fg_interleaved_mem_write k fg fuel bus t address offset val len atomic_access =
        some (v, t ++ tr) ∧
      count_op (acquire_op k) tr ≤ 3 ∧
      (v = 0 ∨ (v < 0 ∧ (count_op (acquire_op k) tr = 3 ∨
        ∃ tr1 r, tr = tr1 ++ [⟨release_op k, r⟩] ∧ r.rc < 0))) := by
  unfold fg_interleaved_mem_write
  rw [hrange]
  simp only [Bool.false_eq_true, if_false]
  refine ima_retry_budget k bus hk
    (fun fuel count rc t =>
      fg_interleaved_mem_write_body k fg fuel bus address offset val len atomic_access
        count rc t)
    (fg_interleaved_mem_write_retry k fg bus address offset val len atomic_access)
    (fun fuel count rc t =>
      fg_interleaved_mem_write_retry_succ k fg bus address offset val len atomic_access
        fuel count rc t)
    (len.toNat + 2) ?_ ?_ 3 0 rfl fuel 0 t (by omega) le_rfl
  · intro fuel count rc t hF hc
    obtain ⟨f, rfl⟩ : ∃ f, fuel = f + 1 := ⟨fuel - 1, by omega⟩
    obtain ⟨nx, s, h1, h2, h3, h4⟩ := fg_interleaved_mem_write_body_semi k fg bus hs hk hb
      f address offset val len atomic_access hoff (by omega) count hc rc t
    refine ⟨nx, s, h1, h2, h3, ?_⟩
    rcases h4 with h | ⟨rc1, h5, h6, _⟩
    · exact Or.inl h
    · exact Or.inr (Or.inr ⟨rc1, h5, h6⟩)
  · intro fuel rc t
    show fg_interleaved_mem_write_body k fg fuel bus address offset val len atomic_access
      3 rc t = _
    unfold fg_interleaved_mem_write_body
    rw [if_pos (show 3 ≥ RETRY_COUNT by decide)]

theorem ticking_beat_bus_nominal : Nominal sample_reg ticking_beat_bus := by
  intro h op
  unfold ticking_beat_bus
  split_ifs with h1
  · subst h1
    exact ⟨rfl, by simp [beat_count_op], by simp [beat_count_op], by simp [beat_count_op]⟩
  · exact idle_bus_nominal h op

/-- Counterexample to C15 as stated: on a GEN3 device with all bus operations
succeeding, no hardware error, and a beat counter that reads 5 before and 12
after the transfer, `fg_interleaved_mem_write` with `atomic_access = true`
makes a single attempt (one acquire write, one release write) and returns 0:
the mismatch does not force a retry. -/
theorem write_beat_mismatch_counterexample :
    (fg_interleaved_mem_write sample_reg (gen3_dev sample_reg) 10 ticking_beat_bus []
        0 0 [1, 2, 3, 4] 4 true).map
        (fun r => (r.1, beat_values sample_reg r.2, count_op (acquire_op sample_reg) r.2,
          count_op (release_op sample_reg) r.2)) =
      some (0, [5, 12], 1, 1) := by
  decide

/-- C15 (amended): in `fg_interleaved_mem_write` a beat-count mismatch never
forces a retry.  With all bus operations succeeding and the hardware idle
and error-free (every reply is nominal, whatever the beat counter reads), the
offset in range, and `atomic_access` true or false, the operation makes
exactly one attempt, with one acquire write and one release write, and
returns 0. -/
theorem write_beat_mismatch_no_retry (k : fg_reg) (fg : fg_dev) (bus : Bus)
    (hn : Nominal k bus) (hk : k.MEM_ACCESS_REQ_BIT ||| k.IACS_SLCT_BIT ≠ 0)
    (hb : fg.sram.num_bytes_per_word ≤ 255) (address offset : Nat) (val : List Nat)
    (len : Int) (atomic_access : Bool)
    (hoff : offset < fg.sram.num_bytes_per_word)
    (hrange : ima_offset_too_large fg offset = false)
    (fuel : Nat) (hf : len.toNat + 3 ≤ fuel) (t : Trace) :
    ∃ tr, fg_interleaved_mem_write k fg fuel bus t address offset val len atomic_access =
        some (0, t ++ tr) ∧
      count_op (acquire_op k) tr = 1 ∧ count_op (release_op k) tr = 1 := by
  obtain ⟨f, rfl⟩ : ∃ f, fuel = f + 2 := ⟨fuel - 2, by omega⟩
  unfold fg_interleaved_mem_write
  rw [hrange]
  simp only [Bool.false_eq_true, if_false]
  obtain ⟨nx, s, h1, h2, h3, h4⟩ := fg_interleaved_mem_write_body_semi k fg bus hn.to_semi hk
    hb f address offset val len atomic_access hoff (by omega) 0 (by omega) 0 t
  rcases h4 with rfl | ⟨_, _, _, hfl⟩
  · refine ⟨s ++ [⟨release_op k, bus (t ++ s) (release_op k)⟩], ?_, ?_, ?_⟩
    · rw [fg_interleaved_mem_write_retry_succ, h1]
      simp only [ima_retry_pass]
      rw [ima_after_attempt_done, List.append_assoc]
    · rw [count_op_append, h3, count_acquire_release k hk]
    · rw [count_op_append, h2, count_release_release]
  · exact absurd hfl (hn.not_fails _ _)

/-- Witness for C15 (amended): a GEN3 device on idle hardware whose beat
counter advances with every bus operation, `atomic_access = true`. -/
theorem write_beat_mismatch_no_retry_witness :
    Nominal sample_reg ticking_beat_bus ∧
    ∃ tr, fg_interleaved_mem_write sample_reg (gen3_dev sample_reg) 10 ticking_beat_bus []
        0 0 [1, 2, 3, 4] 4 true = some (0, [] ++ tr) ∧
      count_op (acquire_op sample_reg) tr = 1 ∧ count_op (release_op sample_reg) tr = 1 :=
  ⟨ticking_beat_bus_nominal,
    write_beat_mismatch_no_retry sample_reg (gen3_dev sample_reg) ticking_beat_bus
      ticking_beat_bus_nominal (by decide) (by decide) 0 0 [1, 2, 3, 4] 4 true (by decide)
      (by decide) 10 (by decide) []⟩

/-- C16 (evaluation at the failing input): GEN3 device, all bus operations
succeeding, no hardware error, and a beat counter that advances with every
bus operation, so that the start and end beat counts of all three attempts
differ (6/12, 4/10, 2/8).  After the third attempt `count` is 3, `rc` is
still the 0 of the last beat-count read, and `fg_interleaved_mem_read`
releases once more and returns 0: success, although the beat counts of its
last attempt were not equal. -/
theorem read_budget_exhausted_returns_success :
    (fg_interleaved_mem_read sample_reg (gen3_dev sample_reg) 10 ticking_beat_bus []
        0 0 4).map
        (fun r => (r.1, beat_values sample_reg r.2, count_op (acquire_op sample_reg) r.2)) =
      some (0, [6, 12, 4, 10, 2, 8], 3) := by
  decide

/-- C17 (evaluation at the failing input): the read of the access-request
status, the first bus operation, fails with `-EIO`.
`is_mem_access_available`, a `bool` function, does `return rc` and so reports
the memory as available, for every bus behind the failing read.  On a GEN3
device with every later operation answered by idle hardware,
`fg_interleaved_mem_config` therefore goes on to assert
`MEM_ACCESS_REQ|IACS_SLCT` and returns 0, and `fg_interleaved_mem_read` makes
its single attempt and returns 0: the transport error reaches no caller. -/
theorem access_status_error_reported_available :
    (∀ (k : fg_reg) (bus : Bus) (fuel : Nat),
      is_mem_access_available k (fuel + 1) (inject_fault bus 0) [] =
        some (true, [⟨access_status_op, ⟨- EIO, []⟩⟩])) ∧
    (fg_interleaved_mem_config sample_reg (gen3_dev sample_reg) 10 (inject_fault idle_bus 0)
        [] 0 0 4 FG_READ).map (fun r => (r.1, r.2.take 2)) =
      some (0, [⟨access_status_op, ⟨- EIO, []⟩⟩, ⟨acquire_op sample_reg, ⟨0, [0]⟩⟩]) ∧
    (fg_interleaved_mem_read sample_reg (gen3_dev sample_reg) 10 (inject_fault idle_bus 0) []
        0 0 4).map (fun r => (r.1, count_op (acquire_op sample_reg) r.2)) = some (0, 1) := by
  refine ⟨fun k bus fuel => ?_, by decide, by decide⟩
  simp [is_mem_access_available, is_mem_access_available_loop, fg_read, inject_fault,
    access_status_op, EIO]

/-- C18 (evaluation at the failing input): all bus operations succeed and
the grant bit reads clear in all three polls.  `fg_dma_mem_req(request =
true)` sets `rc = -ETIMEDOUT` and jumps to `release_mem`, where `rc` is
overwritten with the result of the release write; it clears the access and
arbitration bits and returns 0, not `-ETIMEDOUT`, without the grant ever
having been observed. -/
theorem dma_mem_req_timeout_returns_success :
    fg_dma_mem_req sample_reg 10 zeros_bus [] true =
      some (0, run_ops zeros_bus []
        [dma_request_op sample_reg,
          Op.masked_write (Addr.reg Reg.MEM_IF_MEM_ARB_CFG 0) 0x01 0x01,
          grant_poll_op, grant_poll_op, grant_poll_op,
          release_op sample_reg,
          Op.masked_write (Addr.reg Reg.MEM_IF_MEM_ARB_CFG 0) 0x01 0]) := by
  decide


theorem run_checked_cons_fail (bus : Bus) (t : Trace) (c : Op × Bool) (cs : Script)
    (h : (bus t c.1).rc < 0) :
    run_checked bus t (c :: cs) =
      (if c.2 then - EIO else (bus t c.1).rc, [⟨c.1, bus t c.1⟩]) := by
  rw [run_checked, if_pos h]

theorem run_checked_cons_ok (bus : Bus) (t : Trace) (c : Op × Bool) (cs : Script)
    (h : ¬ (bus t c.1).rc < 0) :
    run_checked bus t (c :: cs) =
      ((run_checked bus (t ++ [⟨c.1, bus t c.1⟩]) cs).1,
        ⟨c.1, bus t c.1⟩ :: (run_checked bus (t ++ [⟨c.1, bus t c.1⟩]) cs).2) := by
  rw [run_checked, if_neg h]

/-- A step that issues the operation `c` and, if it succeeds, goes on as the
script `cs`. -/
theorem RunsAs.first {bus : Bus} {t : Trace} {c : Op × Bool} {cs : Script}
    {res : Option (Int × Trace)}
    (hfail : (bus t c.1).rc < 0 →
      res = some (if c.2 then - EIO else (bus t c.1).rc, t ++ [⟨c.1, bus t c.1⟩]))
    (hok : ¬ (bus t c.1).rc < 0 → RunsAs bus (t ++ [⟨c.1, bus t c.1⟩]) cs res) :
    RunsAs bus t (c :: cs) res := by
  unfold RunsAs
  by_cases h : (bus t c.1).rc < 0
  · rw [run_checked_cons_fail bus t c cs h, hfail h]
  · rw [run_checked_cons_ok bus t c cs h, hok h]
    simp

theorem NoBeat.none_left : NoBeat [] := by
  intro c hc
  simp at hc

theorem NoBeat.add {c : Op × Bool} {cs : Script} (hc : c.1 ≠ beat_count_op)
    (hcs : NoBeat cs) : NoBeat (c :: cs) := by
  intro c' h
  rcases List.mem_cons.1 h with rfl | h
  · exact hc
  · exact hcs c' h

theorem NoBeat.join {a b : Script} (ha : NoBeat a) (hb : NoBeat b) : NoBeat (a ++ b) := by
  intro c h
  rcases List.mem_append.1 h with h | h
  · exact ha c h
  · exact hb c h

theorem NoBeat.cond {p : Prop} [Decidable p] {a b : Script} (ha : NoBeat a) (hb : NoBeat b) :
    NoBeat (if p then a else b) := by
  split_ifs
  · exact ha
  · exact hb

theorem opr_status_ne_beat : opr_status_op ≠ beat_count_op := by
  simp [opr_status_op, beat_count_op]

theorem plain_error_check_no_beat : NoBeat (plain error_check_ops) := by
  refine NoBeat.add ?_ (NoBeat.add ?_ (NoBeat.add ?_ NoBeat.none_left)) <;> simp [beat_count_op]

theorem ima_config_ops_no_beat (k : fg_reg) (fg : fg_dev) (address : Nat) (offset len : Int)
    (access : Bool) : NoBeat (ima_config_ops k fg address offset len access) := by
  unfold ima_config_ops
  refine NoBeat.join (NoBeat.add ?_ (NoBeat.add ?_ (NoBeat.add opr_status_ne_beat
    (NoBeat.add ?_ NoBeat.none_left)))) (NoBeat.cond (NoBeat.add opr_status_ne_beat NoBeat.none_left)
      NoBeat.none_left)
  · simp [acquire_op, beat_count_op]
  · simp [access_mode_op, beat_count_op]
  · simp [set_address_op, beat_count_op]

theorem ima_read_transfer_ops_no_beat (k : fg_reg) (fg : fg_dev) :
    ∀ (n address : Nat) (offset len : Int),
      NoBeat (ima_read_transfer_ops k fg n address offset len) := by
  intro n
  induction n with
  | zero =>
    intro address offset len
    exact NoBeat.none_left
  | succ n ih =>
    intro address offset len
    rw [ima_read_transfer_ops]
    refine NoBeat.cond (NoBeat.join (NoBeat.join (NoBeat.join (NoBeat.join
      (NoBeat.add ?_ NoBeat.none_left) plain_error_check_no_beat)
      (NoBeat.cond (NoBeat.cond (NoBeat.add ?_ NoBeat.none_left) NoBeat.none_left)
        (NoBeat.cond (NoBeat.add ?_ NoBeat.none_left) NoBeat.none_left)))
      (NoBeat.add opr_status_ne_beat NoBeat.none_left)) (ih _ _ _)) NoBeat.none_left
    · simp [beat_count_op]
    · simp [set_address_op, beat_count_op]
    · simp [access_mode_op, beat_count_op]

theorem ima_write_transfer_ops_no_beat (fg : fg_dev) :
    ∀ (n address : Nat) (offset : Int) (ptr : List Nat) (len : Int),
      NoBeat (ima_write_transfer_ops fg n address offset ptr len) := by
  intro n
  induction n with
  | zero =>
    intro address offset ptr len
    exact NoBeat.none_left
  | succ n ih =>
    intro address offset ptr len
    rw [ima_write_transfer_ops]
    refine NoBeat.cond (NoBeat.join (NoBeat.join (NoBeat.join (NoBeat.join
      (NoBeat.join (NoBeat.add ?_ (NoBeat.add ?_ NoBeat.none_left))
        (NoBeat.cond (NoBeat.add ?_ NoBeat.none_left)
          (NoBeat.cond (NoBeat.add ?_ NoBeat.none_left) NoBeat.none_left)))
      plain_error_check_no_beat)
      (NoBeat.cond (NoBeat.add ?_ NoBeat.none_left) NoBeat.none_left))
      (NoBeat.add opr_status_ne_beat NoBeat.none_left)) (ih _ _ _ _)) NoBeat.none_left
    · simp [beat_count_op]
    · simp [beat_count_op]
    · simp [beat_count_op]
    · simp [beat_count_op]
    · simp [set_address_op, beat_count_op]


theorem no_again_of_ok (bus : Bus) (hs : BusOk bus) : NoAgain bus := by
  intro h op
  rw [hs h op]
  decide

/-- A transport failure reported as `-EAGAIN` by the data read of the word
transfer is taken for the engine's own restart signal: on a GEN3 device with
the eighth bus operation (the read of `RD_DATA0`) failing so, the next
attempt of `fg_interleaved_mem_read` starts without a release write in
between (two acquire writes, one release write in the whole trace). -/
theorem fg_interleaved_mem_read_again_restart :
    (fg_interleaved_mem_read sample_reg (gen3_dev sample_reg) 10
        (inject_error idle_bus 7 (-EAGAIN)) [] 0 0 4).map
        (fun r => (r.1, r.2.get? 7, count_op (acquire_op sample_reg) r.2,
          count_op (release_op sample_reg) r.2)) =
      some (0, some ⟨Op.read (Addr.reg Reg.MEM_IF_RD_DATA0 0) 4, ⟨-EAGAIN, []⟩⟩, 2, 1) := by
  decide

theorem main_ops_append (a b : Trace) : main_ops (a ++ b) = main_ops a ++ main_ops b := by
  simp [main_ops]

theorem main_ops_polls (bus : Bus) (op : Op) (hp : is_poll op = true) :
    ∀ (n : Nat) (t : Trace), main_ops (run_ops bus t (List.replicate n op)) = [] := by
  intro n
  induction n with
  | zero => intro t; rfl
  | succ n ih =>
    intro t
    have := ih (t ++ [⟨op, bus t op⟩])
    simp only [main_ops] at this
    simp [List.replicate_succ, run_ops, main_ops, hp, this]

theorem main_ops_one (e : Event) (h : is_poll e.op = false) : main_ops [e] = [e.op] := by
  simp [main_ops, h]

theorem beat_values_of_main (k : fg_reg) (s : Trace) (h : beat_count_op ∉ main_ops s) :
    beat_values k s = [] := by
  unfold beat_values
  rw [List.filterMap_eq_nil_iff]
  intro e he
  have : e.op ≠ beat_count_op := by
    intro hc
    apply h
    unfold main_ops
    rw [List.mem_filter]
    refine ⟨List.mem_map.2 ⟨e, he, hc⟩, by decide⟩
  simp [this]

/-- With all bus operations succeeding and `IACS_RDY` set in the poll
number `n`, the poll loop entered with more than `n` tries left stops at the
first poll that shows the bit set, with tries left. -/
theorem fg_check_iacs_ready_loop_ready (k : fg_reg) (bus : Bus) (hok : BusOk bus) :
    ∀ (n : Nat) (tries : Int) (t : Trace) (fuel : Nat), (n : Int) < tries → n + 1 ≤ fuel →
      (bus (t ++ run_ops bus t (List.replicate n opr_status_op)) opr_status_op).val &&&
        k.IACS_RDY_BIT ≠ 0 →
      ∃ m tr, tr ≠ 0 ∧ fg_check_iacs_ready_loop k bus fuel tries t =
        some (Except.ok tr, t ++ run_ops bus t (List.replicate (m + 1) opr_status_op)) := by
  intro n
  induction n with
  | zero =>
    intro tries t fuel hn hf hset
    obtain ⟨f, rfl⟩ : ∃ f, fuel = f + 1 := ⟨fuel - 1, by omega⟩
    simp only [List.replicate, run_ops, List.append_nil] at hset
    refine ⟨0, tries, by omega, ?_⟩
    unfold opr_status_op at hset
    simp [fg_check_iacs_ready_loop, fg_read, hok _ _, hset, run_ops, opr_status_op]
  | succ n ih =>
    intro tries t fuel hn hf hset
    obtain ⟨f, rfl⟩ : ∃ f, fuel = f + 1 := ⟨fuel - 1, by omega⟩
    by_cases h0 : (bus t opr_status_op).val &&& k.IACS_RDY_BIT ≠ 0
    · refine ⟨0, tries, by omega, ?_⟩
      unfold opr_status_op at h0
      simp [fg_check_iacs_ready_loop, fg_read, hok _ _, h0, run_ops, opr_status_op]
    · rw [run_ops_replicate_succ] at hset
      obtain ⟨m, tr, htr, h1⟩ := ih (tries - 1) (t ++ [⟨opr_status_op, bus t opr_status_op⟩]) f
        (by push_cast at hn; omega) (by omega) hset
      refine ⟨m + 1, tr, htr, ?_⟩
      rw [run_ops_replicate_succ, ← h1]
      have ht : ¬ (tries - 1 = 0) := by push_cast at hn; omega
      unfold opr_status_op at h0 ⊢
      simp only [ne_eq, not_not] at h0
      simp [fg_check_iacs_ready_loop, fg_read, hok _ _, h0, ht]

theorem fg_check_iacs_ready_healthy (k : fg_reg) (fg : fg_dev) (bus : Bus) (hok : BusOk bus)
    (hr : ReadyInTime k bus) (fuel : Nat) (hf : 250 ≤ fuel) (t : Trace) :
    ∃ s, fg_check_iacs_ready k fg fuel bus t = some (0, t ++ s) ∧ main_ops s = [] := by
  obtain ⟨n, hn, hset⟩ := hr t
  obtain ⟨m, tr, htr, h1⟩ := fg_check_iacs_ready_loop_ready k bus hok n 250 t fuel
    (by exact_mod_cast hn) (by omega) hset
  refine ⟨run_ops bus t (List.replicate (m + 1) opr_status_op), ?_,
    main_ops_polls bus _ (by decide) _ _⟩
  unfold fg_check_iacs_ready
  rw [h1]
  simp [htr]

/-- With all bus operations succeeding and `MEM_ACCESS_REQ` clear in the poll
number `n`, the poll loop entered with `time_count + n ≤ 5` finds the memory
available. -/
theorem is_mem_access_available_loop_clear (k : fg_reg) (bus : Bus) (hok : BusOk bus) :
    ∀ (n : Nat) (time_count : Int) (t : Trace) (fuel : Nat), time_count + n ≤ 5 →
      n + 1 ≤ fuel →
      (bus (t ++ run_ops bus t (List.replicate n access_status_op)) access_status_op).val &&&
        k.MEM_ACCESS_REQ_BIT = 0 →
      ∃ m, is_mem_access_available_loop k bus fuel time_count t =
        some (true, t ++ run_ops bus t (List.replicate (m + 1) access_status_op)) := by
  intro n
  induction n with
  | zero =>
    intro tc t fuel hn hf hclr
    obtain ⟨f, rfl⟩ : ∃ f, fuel = f + 1 := ⟨fuel - 1, by omega⟩
    simp only [List.replicate, run_ops, List.append_nil] at hclr
    refine ⟨0, ?_⟩
    unfold access_status_op at hclr
    simp [is_mem_access_available_loop, fg_read, hok _ _, hclr, run_ops, access_status_op]
  | succ n ih =>
    intro tc t fuel hn hf hclr
    obtain ⟨f, rfl⟩ : ∃ f, fuel = f + 1 := ⟨fuel - 1, by omega⟩
    by_cases h0 : (bus t access_status_op).val &&& k.MEM_ACCESS_REQ_BIT = 0
    · refine ⟨0, ?_⟩
      unfold access_status_op at h0
      simp [is_mem_access_available_loop, fg_read, hok _ _, h0, run_ops, access_status_op]
    · rw [run_ops_replicate_succ] at hclr
      obtain ⟨m, h1⟩ := ih (tc + 1) (t ++ [⟨access_status_op, bus t access_status_op⟩]) f
        (by push_cast at hn; omega) (by omega) hclr
      refine ⟨m + 1, ?_⟩
      rw [run_ops_replicate_succ, ← h1]
      have ht : ¬ (tc > 4) := by push_cast at hn; omega
      unfold access_status_op at h0 ⊢
      simp [is_mem_access_available_loop, fg_read, hok _ _, h0, ht]

theorem is_mem_access_available_healthy (k : fg_reg) (bus : Bus) (hok : BusOk bus)
    (ha : AccessInTime k bus) (fuel : Nat) (hf : 6 ≤ fuel) (t : Trace) :
    ∃ s, is_mem_access_available k fuel bus t = some (true, t ++ s) ∧ main_ops s = [] := by
  obtain ⟨n, hn, hclr⟩ := ha t
  obtain ⟨m, h1⟩ := is_mem_access_available_loop_clear k bus hok n 0 t fuel
    (by omega) (by omega) hclr
  exact ⟨run_ops bus t (List.replicate (m + 1) access_status_op), by
    unfold is_mem_access_available
    rw [h1], main_ops_polls bus _ (by decide) _ _⟩

theorem fg_clear_ima_errors_healthy (k : fg_reg) (fg : fg_dev) (bus : Bus) (hok : BusOk bus)
    (hne : NoException k bus) (fuel : Nat) (t : Trace) :
    fg_clear_ima_errors_if_any k fg fuel bus t false =
      some (0, t ++ run_ops bus t error_check_ops) := by
  simp [fg_clear_ima_errors_if_any, fg_read, hok _ _, hne _, run_ops, error_check_ops]

theorem main_part_append (a b : Script) : main_part (a ++ b) = main_part a ++ main_part b := by
  simp [main_part]

theorem main_ops_run_plain (bus : Bus) : ∀ (ops : List Op) (t : Trace),
    main_ops (run_ops bus t ops) = main_part (plain ops) := by
  intro ops
  induction ops with
  | nil => intro t; rfl
  | cons o ops ih =>
    intro t
    have := ih (t ++ [⟨o, bus t o⟩])
    simp only [main_ops, main_part, plain] at this ⊢
    simp only [run_ops, List.map_cons, List.filter_cons, this]

theorem MainRun.done (t : Trace) : MainRun t [] (some (0, t)) :=
  ⟨[], by simp, rfl⟩

theorem MainRun.polls {t : Trace} {m : List Op} {res : Option (Int × Trace)}
    (s : Trace) (hs : main_ops s = []) (h : MainRun (t ++ s) m res) :
    MainRun t m res := by
  obtain ⟨s1, h1, h2⟩ := h
  exact ⟨s ++ s1, by rw [h1, List.append_assoc], by rw [main_ops_append, hs, h2]; rfl⟩

theorem MainRun.issue (bus : Bus) {t : Trace} {m : List Op} {res : Option (Int × Trace)}
    (op : Op) (hp : is_poll op = false) (h : MainRun (t ++ [⟨op, bus t op⟩]) m res) :
    MainRun t (op :: m) res := by
  obtain ⟨s1, h1, h2⟩ := h
  exact ⟨[⟨op, bus t op⟩] ++ s1, by rw [h1, List.append_assoc],
    by rw [main_ops_append, main_ops_one _ hp, h2]; rfl⟩

theorem MainRun.chain {t : Trace} {m1 m2 : List Op} {res : Option (Int × Trace)}
    (s : Trace) (hs : main_ops s = m1) (h : MainRun (t ++ s) m2 res) :
    MainRun t (m1 ++ m2) res := by
  obtain ⟨s1, h1, h2⟩ := h
  exact ⟨s ++ s1, by rw [h1, List.append_assoc], by rw [main_ops_append, hs, h2]⟩

theorem fg_config_access_mode_ok (k : fg_reg) (bus : Bus) (hok : BusOk bus) (t : Trace)
    (access burst : Bool) :
    fg_config_access_mode k bus t access burst =
      (0, t ++ [⟨access_mode_op k access burst, bus t (access_mode_op k access burst)⟩]) := by
  simp [fg_config_access_mode, fg_masked_write, hok _ _, access_mode_op]

theorem fg_set_address_ok (fg : fg_dev) (bus : Bus) (hok : BusOk bus) (t : Trace)
    (address : Nat) :
    fg_set_address fg bus t address =
      (0, t ++ [⟨set_address_op fg address, bus t (set_address_op fg address)⟩]) := by
  simp [fg_set_address, fg_write, hok _ _, set_address_op]

theorem is_poll_acquire (k : fg_reg) : is_poll (acquire_op k) = false := by
  simp [is_poll, acquire_op, opr_status_op, access_status_op]

theorem is_poll_access_mode (k : fg_reg) (access burst : Bool) :
    is_poll (access_mode_op k access burst) = false := by
  simp [is_poll, access_mode_op, opr_status_op, access_status_op]

theorem is_poll_set_address (fg : fg_dev) (address : Nat) :
    is_poll (set_address_op fg address) = false := by
  simp [is_poll, set_address_op, opr_status_op, access_status_op]

/-- The configuration step on healthy hardware: besides status polls, the
acquire write, the access-mode write and the address write. -/
theorem fg_interleaved_mem_config_healthy (k : fg_reg) (fg : fg_dev) (bus : Bus)
    (H : Healthy k bus) (fuel : Nat) (hf : 250 ≤ fuel) (t : Trace) (address : Nat)
    (offset len : Int) (access : Bool) :
    MainRun t (main_part (ima_config_ops k fg address offset len access))
      (fg_interleaved_mem_config k fg fuel bus t address offset len access) := by
  obtain ⟨hok, hne, hrdy, hacc⟩ := H
  choose P hP hPm using fun t => fg_check_iacs_ready_healthy k fg bus hok hrdy fuel hf t
  choose A hA hAm using fun t => is_mem_access_available_healthy k bus hok hacc fuel
    (by omega) t
  have hmain : main_part (ima_config_ops k fg address offset len access) =
      [acquire_op k, access_mode_op k access (if fg.use_ima_single_mode then false
        else decide (offset + len > fg.sram.num_bytes_per_word)), set_address_op fg address] := by
    unfold ima_config_ops
    by_cases hacc : access = FG_READ <;>
      simp [main_part, hacc, is_poll, acquire_op, access_mode_op, opr_status_op,
        set_address_op, access_status_op]
  have hacq : ∀ t, fg_masked_write bus t (Addr.reg Reg.MEM_IF_MEM_INTF_CFG 0)
      (k.MEM_ACCESS_REQ_BIT ||| k.IACS_SLCT_BIT) (k.MEM_ACCESS_REQ_BIT ||| k.IACS_SLCT_BIT) =
      (0, t ++ [⟨acquire_op k, bus t (acquire_op k)⟩]) := by
    intro t
    simp [fg_masked_write, hok _ _, acquire_op]
  rw [hmain]
  unfold fg_interleaved_mem_config
  rw [hA t]
  simp only [Bool.true_eq_false, if_false]
  refine MainRun.polls (A t) (hAm t) ?_
  generalize t ++ A t = t0
  generalize (if fg.use_ima_single_mode then false
    else decide (offset + len > fg.sram.num_bytes_per_word)) = burst
  simp only [hacq, fg_config_access_mode_ok k bus hok, lt_self_iff_false, if_false]
  refine MainRun.issue bus (acquire_op k) (is_poll_acquire k) ?_
  generalize t0 ++ [(⟨acquire_op k, bus t0 (acquire_op k)⟩ : Event)] = t1
  refine MainRun.issue bus (access_mode_op k access burst) (is_poll_access_mode k access burst) ?_
  generalize t1 ++ [(⟨access_mode_op k access burst, bus t1 (access_mode_op k access burst)⟩ :
    Event)] = t2
  rw [hP t2]
  simp only [lt_self_iff_false, if_false, fg_set_address_ok fg bus hok]
  refine MainRun.polls (P t2) (hPm t2) ?_
  generalize t2 ++ P t2 = t3
  refine MainRun.issue bus (set_address_op fg address) (is_poll_set_address fg address) ?_
  generalize t3 ++ [(⟨set_address_op fg address, bus t3 (set_address_op fg address)⟩ :
    Event)] = t4
  by_cases hacc : access = FG_READ
  · rw [if_pos hacc, hP t4]
    exact MainRun.polls (P t4) (hPm t4) (MainRun.done _)
  · rw [if_neg hacc]
    exact MainRun.done _

theorem main_part_cons_main (c : Op × Bool) (cs : Script) (h : is_poll c.1 = false) :
    main_part (c :: cs) = c.1 :: main_part cs := by
  simp [main_part, h]

theorem main_part_cons_poll (c : Op × Bool) (cs : Script) (h : is_poll c.1 = true) :
    main_part (c :: cs) = main_part cs := by
  simp [main_part, h]

/-- The word loop of a read on healthy hardware: status polls apart, it
issues the operations of `ima_read_transfer_ops`. -/
theorem fg_interleaved_mem_read_loop_healthy (k : fg_reg) (fg : fg_dev) (bus : Bus)
    (H : Healthy k bus) (hb : fg.sram.num_bytes_per_word ≤ 255) :
    ∀ (n fuel address : Nat) (offset len : Int) (t : Trace), 0 ≤ offset →
      offset < fg.sram.num_bytes_per_word → len.toNat ≤ n → n + 251 ≤ fuel →
      MainRun t (main_part (ima_read_transfer_ops k fg n address offset len))
        (fg_interleaved_mem_read_loop k fg bus fuel address offset len 0 t) := by
  obtain ⟨hok, hne, hrdy, hacc⟩ := H
  intro n
  induction n with
  | zero =>
    intro fuel address offset len t _ _ hlen hf
    obtain ⟨f, rfl⟩ : ∃ f, fuel = f + 1 := ⟨fuel - 1, by omega⟩
    rw [fg_interleaved_mem_read_loop, if_neg (by omega)]
    exact MainRun.done t
  | succ n ih =>
    intro fuel address offset len t ho hob hlen hf
    obtain ⟨f, rfl⟩ : ∃ f, fuel = f + 2 := ⟨fuel - 2, by omega⟩
    choose P hP hPm using fun t => fg_check_iacs_ready_healthy k fg bus hok hrdy (f + 1)
      (by omega) t
    rw [fg_interleaved_mem_read_loop, ima_read_transfer_ops]
    by_cases hpos : len > 0
    swap
    · rw [if_neg hpos, if_neg hpos]
      exact MainRun.done t
    rw [if_pos hpos, if_pos hpos]
    obtain ⟨hnb1, hnb2⟩ := ima_num_bytes_pos fg offset len hb ho hob hpos
    generalize ima_num_bytes fg offset len = nb at hnb1 hnb2 ⊢
    have hrec : ∀ (a : Nat) (t1 : Trace),
        MainRun t1 (main_part (ima_read_transfer_ops k fg n a 0 (len - nb)))
          (fg_interleaved_mem_read_loop k fg bus (f + 1) a 0 (len - nb) 0 t1) :=
      fun a t1 => ih (f + 1) a 0 (len - nb) t1 le_rfl (by omega) (by omega) (by omega)
    have hscript : ∀ (opt rest : Script),
        main_part ([(Op.read (Addr.reg Reg.MEM_IF_RD_DATA0 offset) nb, false)] ++
          plain error_check_ops ++ opt ++ [(opr_status_op, false)] ++ rest) =
        Op.read (Addr.reg Reg.MEM_IF_RD_DATA0 offset) nb ::
          (main_part (plain error_check_ops) ++ (main_part opt ++ main_part rest)) := by
      intro opt rest
      simp [main_part, is_poll, opr_status_op, access_status_op]
    rw [hscript]
    simp only [fg_read, hok _ _, lt_self_iff_false, if_false,
      fg_clear_ima_errors_healthy k fg bus hok hne]
    refine MainRun.issue bus _ (by simp [is_poll, opr_status_op, access_status_op]) ?_
    generalize t ++ [(⟨Op.read (Addr.reg Reg.MEM_IF_RD_DATA0 offset) nb,
      bus t (Op.read (Addr.reg Reg.MEM_IF_RD_DATA0 offset) nb)⟩ : Event)] = t1
    refine MainRun.chain (run_ops bus t1 error_check_ops) (main_ops_run_plain bus _ _) ?_
    generalize t1 ++ run_ops bus t1 error_check_ops = t2
    -- the ready poll and the next word
    have htail : ∀ (a : Nat) (t2 : Trace),
        MainRun t2 (main_part (ima_read_transfer_ops k fg n a 0 (len - nb)))
          (match fg_check_iacs_ready k fg (f + 1) bus t2 with
            | none => none
            | some (rc2, t3) =>
              if rc2 < 0 then some (rc2, t3)
              else fg_interleaved_mem_read_loop k fg bus (f + 1) a 0 (len - nb) rc2 t3) := by
      intro a t2
      rw [hP t2]
      simp only [lt_self_iff_false, if_false]
      exact MainRun.polls (P t2) (hPm t2) (hrec a _)
    have hnil : main_part ([] : Script) = [] := rfl
    by_cases hsm : fg.use_ima_single_mode = true
    · by_cases hl : len - nb ≠ 0
      · simp only [hsm, hl, ne_eq, not_false_eq_true, if_true, and_self,
          fg_set_address_ok fg bus hok, lt_self_iff_false, if_false]
        refine MainRun.chain [⟨set_address_op fg (u16 ((address : Int) + 1)),
          bus t2 (set_address_op fg (u16 ((address : Int) + 1)))⟩]
          (by simp [main_ops, main_part, is_poll_set_address]) ?_
        exact htail _ _
      · simp only [hsm, hl, if_true, if_false, and_false, hnil, List.nil_append,
          lt_self_iff_false]
        exact htail _ _
    · by_cases hl : len - nb ≠ 0 ∧ len - nb < fg.sram.num_bytes_per_word
      · simp only [hsm, hl, ne_eq, not_false_eq_true, if_true, if_false, and_self,
          false_and, fg_config_access_mode_ok k bus hok, lt_self_iff_false]
        refine MainRun.chain [⟨access_mode_op k FG_READ false,
          bus t2 (access_mode_op k FG_READ false)⟩]
          (by simp [main_ops, main_part, is_poll_access_mode]) ?_
        exact htail _ _
      · simp only [hsm, hl, if_false, false_and, hnil, List.nil_append, lt_self_iff_false]
        exact htail _ _

theorem NoBeat.not_in_main {cs : Script} (h : NoBeat cs) : beat_count_op ∉ main_part cs := by
  intro hc
  unfold main_part at hc
  rw [List.mem_filter, List.mem_map] at hc
  obtain ⟨⟨c, hc1, hc2⟩, _⟩ := hc
  exact h c hc1 hc2

theorem main_ops_release (k : fg_reg) (r : Reply) :
    main_ops [⟨release_op k, r⟩] = [release_op k] :=
  main_ops_one _ (by simp [is_poll, release_op, opr_status_op, access_status_op])

/-- One attempt of `fg_interleaved_mem_read` on healthy hardware, up to the
label `out:`: status polls apart it issues the operations of `ima_read_ops`,
and it asks for a retry exactly when the two beat counts differ. -/
theorem fg_interleaved_mem_read_body_healthy (k : fg_reg) (fg : fg_dev) (bus : Bus)
    (H : Healthy k bus) (hb : fg.sram.num_bytes_per_word ≤ 255)
    (fuel : Nat) (address offset : Nat) (len : Int)
    (hoff : offset < fg.sram.num_bytes_per_word) (hf : len.toNat + 251 ≤ fuel)
    (count : Nat) (hc : count < 3) (rc0 : Int) (t : Trace) :
    ∃ s x y, fg_interleaved_mem_read_body k fg fuel bus address offset len count rc0 t =
        some (if x ≠ y then Next.out 0 true (count + 1) else Next.out 0 false count, t ++ s) ∧
      beat_values k s = [x, y] ∧
      main_ops s = main_part (ima_read_ops k fg address offset len) := by
  have hok := H.1
  have hne : ¬ (count ≥ RETRY_COUNT) := by unfold RETRY_COUNT; omega
  obtain ⟨s1, h1, m1⟩ := fg_interleaved_mem_config_healthy k fg bus H fuel (by omega) t address
    offset len FG_READ
  obtain ⟨s2, h2, m2⟩ := fg_interleaved_mem_read_loop_healthy k fg bus H hb len.toNat fuel
    address offset len (t ++ s1 ++ [⟨beat_count_op, bus (t ++ s1) beat_count_op⟩])
    (Int.natCast_nonneg _) (by exact_mod_cast hoff) le_rfl hf
  have hb1 := beat_values_of_main k s1 (by
    rw [m1]
    exact (ima_config_ops_no_beat k fg address offset len FG_READ).not_in_main)
  have hb2 := beat_values_of_main k s2 (by
    rw [m2]
    exact (ima_read_transfer_ops_no_beat k fg len.toNat address offset len).not_in_main)
  refine ⟨s1 ++ [⟨beat_count_op, bus (t ++ s1) beat_count_op⟩] ++ s2 ++
      [⟨beat_count_op, bus (t ++ s1 ++ [⟨beat_count_op, bus (t ++ s1) beat_count_op⟩] ++ s2)
        beat_count_op⟩],
    (bus (t ++ s1) beat_count_op).val &&& k.BEAT_COUNT_MASK,
    (bus (t ++ s1 ++ [⟨beat_count_op, bus (t ++ s1) beat_count_op⟩] ++ s2)
        beat_count_op).val &&& k.BEAT_COUNT_MASK, ?_, ?_, ?_⟩
  · unfold fg_interleaved_mem_read_body
    rw [if_neg hne, h1]
    unfold beat_count_op at h2 ⊢
    simp only [fg_get_beat_count, fg_read, hok _ _, lt_self_iff_false, if_false,
      __fg_interleaved_mem_read, h2]
    split_ifs <;> simp only [List.append_assoc]
  · simp only [beat_values_append, beat_values_cons, beat_values_nil, hb1, hb2, if_true,
      List.nil_append, List.append_nil]
    rfl
  · unfold ima_read_ops
    simp only [main_ops_append, main_part_append, m1, m2]
    rfl

/-- One full attempt of `fg_interleaved_mem_read` on healthy hardware, with
its release write: status polls apart it issues the operations of
`read_round_ops`; the operation returns 0 after it when the two beat counts
agree, and goes on from `retry:` with `count + 1` when they differ. -/
theorem fg_interleaved_mem_read_round (k : fg_reg) (fg : fg_dev) (bus : Bus)
    (H : Healthy k bus) (hb : fg.sram.num_bytes_per_word ≤ 255) (address offset : Nat)
    (len : Int) (hoff : offset < fg.sram.num_bytes_per_word) (f : Nat)
    (hf : len.toNat + 251 ≤ f) (count : Nat) (hc : count < 3) (rc : Int) (t : Trace) :
    ∃ a x y, beat_values k a = [x, y] ∧
      main_ops a = read_round_ops k fg address offset len ∧
      ((x = y ∧ fg_interleaved_mem_read_retry k fg bus address offset len (f + 1) count rc t =
          some (0, t ++ a)) ∨
        (x ≠ y ∧ fg_interleaved_mem_read_retry k fg bus address offset len (f + 1) count rc t =
          fg_interleaved_mem_read_retry k fg bus address offset len f (count + 1) 0
            (t ++ a))) := by
  obtain ⟨s, x, y, h1, h2, h3⟩ := fg_interleaved_mem_read_body_healthy k fg bus H hb f address
    offset len hoff hf count hc rc t
  refine ⟨s ++ [⟨release_op k, bus (t ++ s) (release_op k)⟩], x, y, ?_, ?_, ?_⟩
  · rw [beat_values_append, h2, beat_values_release]
    rfl
  · rw [main_ops_append, h3, main_ops_release]
    rfl
  · rw [fg_interleaved_mem_read_retry_succ, h1]
    simp only [ima_retry_pass]
    by_cases hxy : x = y
    · refine Or.inl ⟨hxy, ?_⟩
      rw [if_neg (not_not.2 hxy), ima_after_attempt_done, List.append_assoc]
    · refine Or.inr ⟨hxy, ?_⟩
      rw [if_pos hxy, ima_after_attempt_mismatch, List.append_assoc]


theorem slow_bus_healthy : Healthy sample_reg slow_bus := by
  refine ⟨?_, ?_, ?_, ?_⟩
  · intro h op
    unfold slow_bus
    split_ifs
    · rfl
    · rfl
    · rfl
    · rfl
    · exact (counting_beat_bus_nominal h op).1
  · intro h
    have := (counting_beat_bus_nominal h (Op.read (Addr.reg Reg.MEM_IF_IMA_EXP_STS 0) 1)).2.2.2 rfl
    simpa [slow_bus, opr_status_op, access_status_op] using this
  · intro h
    by_cases hl : h.getLast?.map Event.op = some opr_status_op
    · refine ⟨0, by decide, ?_⟩
      simp only [List.replicate, run_ops, List.append_nil, slow_bus, if_true, hl]
      decide
    · refine ⟨1, by decide, ?_⟩
      simp [List.replicate, run_ops, slow_bus, access_status_op, opr_status_op, Reply.val,
        sample_reg]
  · intro h
    by_cases hl : h.getLast?.map Event.op = some access_status_op
    · refine ⟨0, by decide, ?_⟩
      simp only [List.replicate, run_ops, List.append_nil, slow_bus, hl, if_true]
      decide
    · refine ⟨1, by decide, ?_⟩
      simp [List.replicate, run_ops, slow_bus, access_status_op, opr_status_op, Reply.val,
        sample_reg]

/-- C5: beat-count mismatch and retries of `fg_interleaved_mem_read`.  All
bus operations succeed and no hardware error is detected (no exception bit
is reported, `IACS_RDY` is seen within the 250 polls of each ready check and
memory access is found available within the 6 polls of each attempt), the
offset is in range.  The operation returns 0 and its trace consists of full
attempts: status polls apart, each attempt issues exactly the operations of
`read_round_ops` (configuration, start beat count, word transfer, end beat
count, release).  There is one attempt when the first pair of beat counts
agrees; two when the first pair differs and the second agrees; three when
the first two pairs differ, whatever the third pair is, and then never a
fourth (after a third mismatch there is only one more release write). -/
theorem read_beat_mismatch_retries (k : fg_reg) (fg : fg_dev) (bus : Bus)
    (H : Healthy k bus) (hb : fg.sram.num_bytes_per_word ≤ 255) (address offset : Nat)
    (len : Int) (hoff : offset < fg.sram.num_bytes_per_word)
    (hrange : ima_offset_too_large fg offset = false)
    (fuel : Nat) (hf : len.toNat + 255 ≤ fuel) (t : Trace) :
    ∃ tr, fg_interleaved_mem_read k fg fuel bus t address offset len = some (0, t ++ tr) ∧
      ((∃ x, beat_values k tr = [x, x] ∧
          main_ops tr = read_round_ops k fg address offset len) ∨
        (∃ x y z, x ≠ y ∧ beat_values k tr = [x, y, z, z] ∧
          main_ops tr = read_round_ops k fg address offset len ++
            read_round_ops k fg address offset len) ∨
        (∃ x y z w u v, x ≠ y ∧ z ≠ w ∧ beat_values k tr = [x, y, z, w, u, v] ∧
          main_ops tr = read_round_ops k fg address offset len ++
            read_round_ops k fg address offset len ++
            read_round_ops k fg address offset len ++
            (if u = v then [] else [release_op k]))) := by
  obtain ⟨f, rfl⟩ : ∃ f, fuel = f + 4 := ⟨fuel - 4, by omega⟩
  unfold fg_interleaved_mem_read
  rw [hrange]
  simp only [Bool.false_eq_true, if_false]
  obtain ⟨a1, x, y, b1, m1, h1⟩ := fg_interleaved_mem_read_round k fg bus H hb
    address offset len hoff (f + 3) (by omega) 0 (by omega) 0 t
  rcases h1 with ⟨hxy, h1⟩ | ⟨hxy, h1⟩
  · subst hxy
    exact ⟨a1, h1, Or.inl ⟨x, b1, m1⟩⟩
  obtain ⟨a2, z, w, b2, m2, h2⟩ := fg_interleaved_mem_read_round k fg bus H hb
    address offset len hoff (f + 2) (by omega) 1 (by omega) 0 (t ++ a1)
  rcases h2 with ⟨hzw, h2⟩ | ⟨hzw, h2⟩
  · subst hzw
    refine ⟨a1 ++ a2, ?_, Or.inr (Or.inl ⟨x, y, z, hxy, ?_, ?_⟩)⟩
    · rw [h1, h2, List.append_assoc]
    · rw [beat_values_append, b1, b2]
      rfl
    · rw [main_ops_append, m1, m2]
  obtain ⟨a3, u, v, b3, m3, h3⟩ := fg_interleaved_mem_read_round k fg bus H hb
    address offset len hoff (f + 1) (by omega) 2 (by omega) 0 (t ++ a1 ++ a2)
  rcases h3 with ⟨huv, h3⟩ | ⟨huv, h3⟩
  · refine ⟨a1 ++ a2 ++ a3, ?_, Or.inr (Or.inr ⟨x, y, z, w, u, v, hxy, hzw, ?_, ?_⟩)⟩
    · rw [h1, h2, h3]
      simp only [List.append_assoc]
    · rw [beat_values_append, beat_values_append, b1, b2, b3]
      rfl
    · rw [main_ops_append, main_ops_append, m1, m2, m3, if_pos huv, List.append_nil]
  · refine ⟨a1 ++ a2 ++ a3 ++
        [⟨release_op k, bus (t ++ a1 ++ a2 ++ a3) (release_op k)⟩], ?_,
      Or.inr (Or.inr ⟨x, y, z, w, u, v, hxy, hzw, ?_, ?_⟩)⟩
    · rw [h1, h2, h3, fg_interleaved_mem_read_exhausted]
      simp only [List.append_assoc]
    · rw [beat_values_append, beat_values_append, beat_values_append, b1, b2, b3,
        beat_values_release]
      rfl
    · rw [main_ops_append, main_ops_append, main_ops_append, m1, m2, m3, main_ops_release,
        if_neg huv]

/-- Witness for C5: a GEN3 device on slow hardware (every ready check and
every availability check needs a second poll) whose beat counter advances
during the first attempt; 4 bytes at word 0. -/
theorem read_beat_mismatch_retries_witness :
    Healthy sample_reg slow_bus ∧
    ∃ tr, fg_interleaved_mem_read sample_reg (gen3_dev sample_reg) 260 slow_bus []
        0 0 4 = some (0, [] ++ tr) ∧
      ((∃ x, beat_values sample_reg tr = [x, x] ∧
          main_ops tr = read_round_ops sample_reg (gen3_dev sample_reg) 0 0 4) ∨
        (∃ x y z, x ≠ y ∧ beat_values sample_reg tr = [x, y, z, z] ∧
          main_ops tr = read_round_ops sample_reg (gen3_dev sample_reg) 0 0 4 ++
            read_round_ops sample_reg (gen3_dev sample_reg) 0 0 4) ∨
        (∃ x y z w u v, x ≠ y ∧ z ≠ w ∧ beat_values sample_reg tr = [x, y, z, w, u, v] ∧
          main_ops tr = read_round_ops sample_reg (gen3_dev sample_reg) 0 0 4 ++
            read_round_ops sample_reg (gen3_dev sample_reg) 0 0 4 ++
            read_round_ops sample_reg (gen3_dev sample_reg) 0 0 4 ++
            (if u = v then [] else [release_op sample_reg]))) :=
  ⟨slow_bus_healthy,
    read_beat_mismatch_retries sample_reg (gen3_dev sample_reg) slow_bus slow_bus_healthy
      (by decide) 0 0 4 (by decide) (by decide) 260 (by decide) []⟩

end FgMemif
